import Mathlib

/-!
Verification development for the blockwise suffix-array builder in
src/blockwise_sa.h (class KarkkainenBlockwiseSA and its BlockwiseSA
iterator facade).

Texts are modelled as lists of natural numbers (one per byte symbol).
Machine integers of the source are modelled as Nat or Int; the source
caps the text length at 2^32 - 2, so the 0xffffffff sentinel never
collides with a real offset and index arithmetic never wraps for the
inputs the program supports.  Components of the repository that are
only declared in src/ (RandomSource, the multikey quicksort, the
binary SA search, calcZ, the difference-cover sample) are modelled
from the contracts stated in the specification; each such definition
notes this in its doc comment.  Debug assertions of the source are
modelled as no-ops (release semantics); conditions of individual
assertions that claims mention are stated separately.
-/

namespace BwSA

/-- The 32-bit sentinel 0xffffffff used by the source for "none". -/
def u32max : Nat := 4294967295

/-- Length of the longest common prefix of two symbol lists.
Embeds the loop of suffixLcp (src/blockwise_sa.h) on the dropped
suffixes: count positions while both lists still have symbols and the
symbols agree. -/
def lcpList : List Nat → List Nat → Nat
  | x :: xs, y :: ys => if x = y then lcpList xs ys + 1 else 0
  | _, _ => 0

/-- The suffix order the source implements: plain lexicographic
comparison of the remaining symbols, where a list that runs out first
(falls off the end of the text) is the GREATER one.  This is the
comparison realised by the decision block at the end of suffixCmp
(src/blockwise_sa.h lines 687-701: falling off on the left returns
false, i.e. greater) and by tieBreakingLcp (falling off the LHS means
the LHS is greater).  Equivalently: the conceptual appended sentinel
is treated as the largest symbol. -/
def ltPL : List Nat → List Nat → Bool
  | [], [] => false
  | [], _ :: _ => false
  | _ :: _, [] => true
  | x :: xs, y :: ys => decide (x < y) || (x == y && ltPL xs ys)

/-- The suffix order the specification text describes: lexicographic
with the appended sentinel the SMALLEST symbol, so a list that runs
out first is the smaller one.  Stated only to compare the spec's
wording against the order the code implements. -/
def ltPS : List Nat → List Nat → Bool
  | [], [] => false
  | [], _ :: _ => true
  | _ :: _, [] => false
  | x :: xs, y :: ys => decide (x < y) || (x == y && ltPS xs ys)

/-- suffix(a) strictly precedes suffix(b) in the order the code
implements (sentinel largest). -/
def sufLt (t : List Nat) (a b : Nat) : Bool :=
  ltPL (t.drop a) (t.drop b)

/-- suffix(a) strictly precedes suffix(b) in the order the spec's
words describe (sentinel smallest). -/
def specSufLt (t : List Nat) (a b : Nat) : Bool :=
  ltPS (t.drop a) (t.drop b)

/-- suffixLcp of src/blockwise_sa.h: the plain LCP of the suffixes at
offsets a and b (the index-based while loop of the source is the
structural recursion on the dropped suffixes). -/
def suffixLcp (t : List Nat) (a b : Nat) : Nat :=
  lcpList (t.drop a) (t.drop b)

/-- Queryable difference-cover data, by its two queries.  The
construction itself is external to src/ (diff_sample.h); only the
query contract is specified. -/
structure DC where
  tieBreakOff : Nat → Nat → Nat
  breakTie : Nat → Nat → Int

/-- Modelled from the spec: the difference-cover sample's queries
(diff_sample.h is not part of src/).  tie-break-off returns the
smallest distance d bounded by the text length such that both a+d and
b+d lie in the cover, and the 0xffffffff sentinel when none exists;
the cover is kept abstract by the spec, so the model uses the full
cover (every position), a legitimate difference cover for every
periodicity.  break-tie is the total order on cover offsets that the
spec requires to decide lexicographic comparison after a bounded
common prefix, hence the suffix order the code uses. -/
def mkDC (t : List Nat) (_v : Nat) : DC where
  tieBreakOff := fun a b =>
    (((List.range (t.length + 1)).find? (fun d =>
      decide (a + d ≤ t.length) && decide (b + d ≤ t.length))).getD u32max)
  breakTie := fun a b =>
    if sufLt t a b then -1 else if sufLt t b a then 1 else 0

/-- The difference-cover member of KarkkainenBlockwiseSA: built iff
the periodicity _dcV is nonzero (build(), src/blockwise_sa.h). -/
def dcOf (t : List Nat) (dcV : Nat) : Option DC :=
  if dcV = 0 then none else some (mkDC t dcV)

/-- Modelled from the spec: calcZ (zbox.h is not part of src/) fills a
length-v array whose entry j is the LCP of suffix(off) and
suffix(off+j); lookupSuffixZ in src/ asserts exactly this value for
every filled entry. -/
def zArrayOf (t : List Nat) (off v : Nat) : List Nat :=
  (List.range v).map (fun m => suffixLcp t (off + m) off)

/-- lookupSuffixZ of src/blockwise_sa.h: use the stored Z value when
the index is inside the array, otherwise compute the LCP from
scratch. -/
def lookupSuffixZ (t : List Nat) (zOff off : Nat) (z : List Nat) : Nat :=
  if zOff < z.length then z.getD zOff 0 else suffixLcp t (off + zOff) off

/-- The character-comparison loop of tieBreakingLcp
(src/blockwise_sa.h lines 551-555): advance c while it is below the
tie-breaker distance, neither suffix has fallen off the text, and the
characters agree. -/
def tbLoop (t : List Nat) (a b dcDist c : Nat) : Nat :=
  if h : c < dcDist ∧ c < t.length - a ∧ c < t.length - b ∧
      t.getD (a + c) 0 = t.getD (b + c) 0 then
    tbLoop t a b dcDist (c + 1)
  else c
termination_by t.length - c
decreasing_by
  have : c < t.length := Nat.lt_of_lt_of_le h.2.1 (Nat.sub_le _ _)
  omega

/-- tieBreakingLcp of src/blockwise_sa.h: returns (aOff precedes bOff,
the computed lcp, whether the lcp is a soft underestimate).  Falling
off the LHS makes the LHS greater; falling off the RHS makes the RHS
greater; hitting the tie-breaker distance defers to the
difference-cover order and marks the lcp soft; otherwise the
mismatching characters decide. -/
def tieBreakingLcp (t : List Nat) (d : DC) (aOff bOff : Nat) :
    Bool × Nat × Bool :=
  let len := t.length
  let dcDist := d.tieBreakOff aOff bOff
  let c := tbLoop t aOff bOff dcDist 0
  if c = len - aOff then (false, c, false)
  else if c = len - bOff then (true, c, false)
  else if c = dcDist then (decide (d.breakTie (aOff + c) (bOff + c) < 0), c, true)
  else (decide (t.getD (aOff + c) 0 < t.getD (bOff + c) 0), c, false)

/-- The persistent comparator state threaded through an accumulator
scan for one bookend: j and k are the int64_t out-parameters of
suffixCmp (initialised to -1), kSoft the soft-lcp flag. -/
structure CmpSt where
  j : Int
  k : Int
  kSoft : Bool
deriving Repr, DecidableEq

/-- The character-extension loop of suffixCmp (src/blockwise_sa.h
lines 650-652 and 662-664), on explicit fuel: advance l and k while
the text suffix at cmp+l has not fallen off, k is inside the text,
and the characters agree.  Each iteration increments k, which the
guard keeps below the text length, so fuel equal to that distance
makes the recursion equivalent to the unbounded source loop. -/
def extendGo (t : List Nat) (cmp : Nat) : Nat → Nat → Nat → Nat × Nat
  | 0, l, k => (l, k)
  | fuel + 1, l, k =>
    if l < t.length - cmp ∧ k < t.length ∧
        t.getD (cmp + l) 0 = t.getD k 0 then
      extendGo t cmp fuel (l + 1) (k + 1)
    else (l, k)

/-- The character-extension loop of suffixCmp, with the fuel fixed to
the remaining distance from k to the text end. -/
def extendLoop (t : List Nat) (cmp l k : Nat) : Nat × Nat :=
  extendGo t cmp (t.length - k) l k

/-- The final decision block of suffixCmp (src/blockwise_sa.h lines
687-701), given the computed lcp l: if l+i equals the text length the
left suffix fell off and is greater (return false); else if l equals
len-cmp the right suffix fell off and is greater (return true); else
the mismatching characters decide. -/
def suffixCmpFin (t : List Nat) (cmp i l : Nat) : Bool :=
  if l + i = t.length then false
  else if l = t.length - cmp then true
  else decide (t.getD (i + l) 0 < t.getD (cmp + l) 0)

/-- The covered branch of suffixCmp (src/blockwise_sa.h lines
620-627 and 646-701) for an i inside the Z horizon: fetch the Z value
for zIdx, clamp it to the text end, then extend when the Z box ends
exactly at the previous match, re-verify or cut back when it reaches
beyond it, and leave the state alone when it ends strictly inside;
finally decide on the computed lcp. -/
def suffixCmpZ (t : List Nat) (cmp : Nat) (z : List Nat) (i zIdx : Nat)
    (st : CmpSt) : Bool × CmpSt :=
  let len := t.length
  let l0 := lookupSuffixZ t zIdx cmp z
  let l1 := if len < i + l0 then len - i else l0
  if (i : Int) + l1 = st.k then
    -- Z box extends exactly as far as the previous match: extend.
    let r := extendLoop t cmp l1 st.k.toNat
    (suffixCmpFin t cmp i r.1, ⟨i, r.2, false⟩)
  else if st.k < (i : Int) + l1 then
    -- Z box extends further than the previous match.
    let l2 := (st.k - (i : Int)).toNat
    if st.kSoft then
      let r := extendLoop t cmp l2 st.k.toNat
      (suffixCmpFin t cmp i r.1, ⟨i, r.2, false⟩)
    else
      (suffixCmpFin t cmp i l2, ⟨i, st.k, st.kSoft⟩)
  else
    -- Z box ends strictly inside the previous match: no update.
    (suffixCmpFin t cmp i l1, st)

/-- suffixCmp of src/blockwise_sa.h: decides whether suffix(i)
precedes suffix(cmp), maintaining the running match state (j, k,
kSoft) against the Z array z of the bookend cmp; dcV and dc are the
_dcV and _dc members.  Returns the decision and the updated state. -/
def suffixCmp (t : List Nat) (dcV : Nat) (dc : Option DC) (cmp : Nat)
    (z : List Nat) (i : Nat) (st : CmpSt) : Bool × CmpSt :=
  if (i : Int) > st.k then
    -- i is not covered by any previous match: k := i, l := 0, soft
    -- cleared, then the extension case i + l == k applies.
    let r := extendLoop t cmp 0 i
    (suffixCmpFin t cmp i r.1, ⟨i, r.2, false⟩)
  else
    let zIdx : Nat := ((i : Int) - st.j).toNat
    if zIdx < dcV ∨ dc.isNone then suffixCmpZ t cmp z i zIdx st
    else
      -- Past the Z horizon: difference-cover tie-breaker, which also
      -- resets j and k and may mark the state soft.
      match dc with
      | some d =>
        let r := tieBreakingLcp t d i cmp
        (r.1, ⟨i, i + r.2.1, r.2.2⟩)
      | none => (false, st)

/-- Insert one element into a list relative to a strict comparison. -/
def insertBy (lt : Nat → Nat → Bool) (x : Nat) : List Nat → List Nat
  | [] => [x]
  | y :: ys => if lt x y then x :: y :: ys else y :: insertBy lt x ys

/-- Insertion sort by a strict comparison.  Sorting lists of distinct
keys has a unique result, so this models any correct sorting routine
of the source (std::sort on offsets, and the external multikey
quicksort on suffix keys). -/
def insSort (lt : Nat → Nat → Bool) : List Nat → List Nat
  | [] => []
  | x :: xs => insertBy lt x (insSort lt xs)

/-- Modelled from the spec: mkeyQSortSuf and mkeyQSortSufDcU8
(multikey_qsort.h is not part of src/) sort a list of offsets
lexicographically by the suffixes they point to, in the suffix order
the code uses; the difference cover affects only the cost, not the
result. -/
def sortSuffixes (t : List Nat) (l : List Nat) : List Nat :=
  insSort (fun a b => sufLt t a b) l

/-- The adjacent-duplicate removal loop of buildSamples
(src/blockwise_sa.h lines 390-394): after the numeric sort, erase an
element whenever it equals its successor. -/
def dedupAdj : List Nat → List Nat
  | [] => []
  | [x] => [x]
  | x :: y :: rest =>
    if x = y then dedupAdj (y :: rest) else x :: dedupAdj (y :: rest)

/-- Modelled from the spec: binarySASearch (binary_sa_search.h is not
part of src/) returns the unique bucket index in which suffix(i)
falls relative to the lexicographically sorted sample list, and the
0xffffffff sentinel when i is itself a sample.  For a sorted sample
list the bucket index is the number of samples whose suffix precedes
suffix(i). -/
def binarySASearch (t : List Nat) (i : Nat) (ss : List Nat) : Nat :=
  if i ∈ ss then u32max else ss.countP (fun s => sufLt t s i)

/-- The bucket index of offset i relative to the sample list ss. -/
def bucketOf (t : List Nat) (ss : List Nat) (i : Nat) : Nat :=
  ss.countP (fun s => sufLt t s i)

/-- The number of non-sample text offsets whose suffix falls into
bucket m of the sample list ss. -/
def bucketSize (t : List Nat) (ss : List Nat) (m : Nat) : Nat :=
  ((List.range t.length).filter
    (fun i => !ss.contains i && bucketOf t ss i == m)).length

/-- Modelled from the spec: the seedable 32-bit linear pseudo-random
generator (random_source.h is not part of src/). -/
structure RandomSource where
  last : Nat
deriving Repr, DecidableEq

/-- Modelled from the spec: one step of the 32-bit linear generator. -/
def RandomSource.nextU32 (r : RandomSource) : Nat × RandomSource :=
  let l := (r.last * 1103515245 + 12345) % 4294967296
  (l, ⟨l⟩)

/-- The random-sampling loop of buildSamples (src/blockwise_sa.h
lines 380-382): draw n values, each reduced modulo the text length. -/
def drawSamples (r : RandomSource) (n len : Nat) : List Nat × RandomSource :=
  match n with
  | 0 => ([], r)
  | n + 1 =>
    let p := r.nextU32
    let rest := drawSamples p.2 n len
    (p.1 % len :: rest.1, rest.2)

/-- The number of random sample candidates buildSamples draws:
((len/bsz)+1) shifted left by one (src/blockwise_sa.h line 372). -/
def numSamplesOf (len bsz : Nat) : Nat :=
  ((len / bsz) + 1) * 2

/-- One offset of the bucket-measuring loop of buildSamples
(src/blockwise_sa.h lines 447-455): find the offset's bucket,
increment that bucket's size and maybe make the offset the bucket's
representative; the coin is tossed only when a representative already
exists (short-circuit of the C++ disjunction). -/
def measureStep (t : List Nat) (ss : List Nat)
    (acc : List Nat × List Nat × RandomSource) (i : Nat) :
    List Nat × List Nat × RandomSource :=
  let szs := acc.1
  let reps := acc.2.1
  let rnd := acc.2.2
  let r := binarySASearch t i ss
  if r = u32max then acc
  else
    let szs' := szs.set r (szs.getD r 0 + 1)
    if reps.getD r u32max = u32max then (szs', reps.set r i, rnd)
    else
      let p := rnd.nextU32
      if p.1 % 2 = 0 then (szs', reps.set r i, p.2)
      else (szs', reps, p.2)

/-- The full bucket-measuring pass of buildSamples: sizes and
representatives over all text offsets.  The ten progress stretches of
the source chunk the same ascending scan and are flattened here. -/
def measurePass (t : List Nat) (ss : List Nat) (rnd : RandomSource) :
    List Nat × List Nat × RandomSource :=
  (List.range t.length).foldl (measureStep t ss)
    (List.replicate (ss.length + 1) 0,
     List.replicate (ss.length + 1) u32max, rnd)

/-- The split-and-merge loop of buildSamples (src/blockwise_sa.h
lines 468-496).  Walks the bucket index i; merging erases the
boundary sample (position i+added in the sample list) and collapses
the size and representative entries, then revisits the same index
(the i-- of the source); splitting inserts the bucket's
representative at position i+added and increments added.  Every step
decreases the count of size entries at or past i, so fuel equal to
that count makes the recursion equivalent to the unbounded source
loop.  Returns the final sample list and the number of added
samples. -/
def msPass (bsz : Nat) :
    Nat → List Nat → List Nat → List Nat → Nat → Nat → List Nat × Nat
  | 0, ss, _, _, added, _ => (ss, added)
  | fuel + 1, ss, szs, reps, added, i =>
    if i < szs.length then
      let mergedSz :=
        if i + 1 < szs.length then szs.getD i 0 + szs.getD (i + 1) 0 + 1
        else bsz + 1
      if mergedSz ≤ bsz then
        let s := ss.getD (i + added) 0
        msPass bsz fuel (ss.eraseIdx (i + added))
          ((szs.set (i + 1) (szs.getD (i + 1) 0 + szs.getD i 0 + 1)).eraseIdx i)
          ((reps.set (i + 1) s).eraseIdx i)
          added i
      else if bsz < szs.getD i 0 then
        msPass bsz fuel (ss.insertIdx (i + added) (reps.getD i u32max)) szs
          reps (added + 1) (i + 1)
      else msPass bsz fuel ss szs reps added (i + 1)
    else (ss, added)

/-- The bounded refinement loop of buildSamples (the while(--limit)
loop, src/blockwise_sa.h lines 423-511): measure bucket sizes, split
and merge, and stop as soon as a pass adds no sample; a count of 20
with pre-decrement gives at most 19 passes, after which the sentinel
none signals the restart. -/
def refineLoop (t : List Nat) (bsz : Nat) (ss : List Nat)
    (rnd : RandomSource) : Nat → Option (List Nat) × RandomSource
  | 0 => (none, rnd)
  | lim + 1 =>
    let m := measurePass t ss rnd
    let r := msPass bsz m.1.length ss m.1 m.2.1 0 0
    if r.2 = 0 then (some r.1, m.2.2)
    else refineLoop t bsz r.1 m.2.2 lim

/-- buildSamples of src/blockwise_sa.h: draw ~4x oversampled random
offsets, sort them numerically, drop adjacent duplicates, sort the
survivors by suffix, then refine by splitting and merging; when the
iteration bound is exhausted, restart from scratch with the advanced
generator.  The source recursion has no termination bound, so the
model takes fuel for the restarts and returns none when it runs
out. -/
def buildSamples (t : List Nat) (bucketSz : Nat) (rnd : RandomSource) :
    Nat → Option (List Nat × RandomSource)
  | 0 => none
  | fuel + 1 =>
    let bsz := bucketSz - 1
    let len := t.length
    let d := drawSamples rnd (numSamplesOf len bsz) len
    let ss0 := dedupAdj (insSort (fun a b => decide (a < b)) d.1)
    let ss1 := sortSuffixes t ss0
    match refineLoop t bsz ss1 d.2 19 with
    | (some ss, rnd2) => some (ss, rnd2)
    | (none, rnd2) => buildSamples t bucketSz rnd2 fuel

/-- The accumulated bucket and the two persistent comparator states
(upper and lower bookend) of the block accumulator loop of nextBlock
(src/blockwise_sa.h lines 770-796). -/
structure AccState where
  bucket : List Nat
  stHi : CmpSt
  stLo : CmpSt

/-- The lower-bookend test and the append of the accumulator loop:
skip the offset when its suffix precedes the lower sample, otherwise
add it to the bucket. -/
def accLo (t : List Nat) (dcV : Nat) (dc : Option DC) (lo : Option Nat)
    (zLo : List Nat) (a : AccState) (i : Nat) : AccState :=
  match lo with
  | some l =>
    let r := suffixCmp t dcV dc l zLo i a.stLo
    let a' : AccState := ⟨a.bucket, a.stHi, r.2⟩
    if r.1 then a' else ⟨a'.bucket ++ [i], a'.stHi, a'.stLo⟩
  | none => ⟨a.bucket ++ [i], a.stHi, a.stLo⟩

/-- One offset of the block accumulator loop of nextBlock: skip the
bookends themselves, skip offsets at or above the upper sample, then
apply the lower-bookend test. -/
def accStep (t : List Nat) (dcV : Nat) (dc : Option DC)
    (lo hi : Option Nat) (zLo zHi : List Nat) (a : AccState) (i : Nat) :
    AccState :=
  if some i = hi ∨ some i = lo then a
  else
    match hi with
    | some h =>
      let r := suffixCmp t dcV dc h zHi i a.stHi
      let a' : AccState := ⟨a.bucket, r.2, a.stLo⟩
      if r.1 then accLo t dcV dc lo zLo a' i else a'
    | none => accLo t dcV dc lo zLo a i

/-- The full accumulator scan over all text offsets, both comparator
states starting at j = k = -1, soft flag clear.  The ten progress
stretches of the source chunk the same ascending scan. -/
def accLoop (t : List Nat) (dcV : Nat) (dc : Option DC)
    (lo hi : Option Nat) (zLo zHi : List Nat) : AccState :=
  (List.range t.length).foldl (accStep t dcV dc lo hi zLo zHi)
    ⟨[], ⟨-1, -1, false⟩, ⟨-1, -1, false⟩⟩

/-- The lower bookend of bucket k: absent for the first bucket,
otherwise sample k-1 (the _cur-1 entry selected by nextBlock). -/
def loOf (ss : List Nat) (k : Nat) : Option Nat :=
  if k = 0 then none else some (ss.getD (k - 1) 0)

/-- The upper bookend of bucket k: absent for the final bucket,
otherwise sample k (the _cur entry selected by nextBlock). -/
def hiOf (ss : List Nat) (k : Nat) : Option Nat :=
  if k = ss.length then none else some (ss.getD k 0)

/-- The element nextBlock appends to a finished bucket: the upper
sample, or the text length (the sentinel suffix) for the final
bucket. -/
def boundOf (t ss : List Nat) (k : Nat) : Nat :=
  match hiOf ss k with
  | some h => h
  | none => t.length

/-- The bucket nextBlock assembles when the block cursor is cur
(src/blockwise_sa.h lines 708-834): with no samples, every text
offset followed by the appended offset len; otherwise the offsets
strictly between the bookend samples, sorted, with the upper sample
appended, or the offset len for the final bucket.  The lower bookend
exists unless cur = 0, the upper unless cur = length of the sample
list; 0xffffffff bookends of the source are modelled as none. -/
def blockAt (t : List Nat) (dcV : Nat) (ss : List Nat) (cur : Nat) :
    List Nat :=
  let len := t.length
  if ss.length = 0 then
    sortSuffixes t (List.range len) ++ [len]
  else
    let hi : Option Nat := hiOf ss cur
    let lo : Option Nat := loOf ss cur
    let zHi := match hi with
      | some h => zArrayOf t h dcV
      | none => []
    let zLo := match lo with
      | some l => zArrayOf t l dcV
      | none => []
    let a := accLoop t dcV (dcOf t dcV) lo hi zLo zHi
    sortSuffixes t a.bucket ++ [boundOf t ss cur]

/-- The concatenation of all buckets of a full iteration, cursor 0
through the number of samples. -/
def fullBlocks (t : List Nat) (dcV : Nat) (ss : List Nat) : List Nat :=
  ((List.range (ss.length + 1)).map (blockAt t dcV ss)).flatten

/-- The flattened sequence of the buckets still to be produced when
the block cursor stands at cur. -/
def restBlocks (t : List Nat) (dcV : Nat) (ss : List Nat) (cur : Nat) :
    List Nat :=
  ((List.range' cur (ss.length + 1 - cur)).map (blockAt t dcV ss)).flatten

/-- The state of a KarkkainenBlockwiseSA object after construction:
the borrowed text, the clamped bucket size, the difference-cover
periodicity, the sample suffixes, the block cursor _cur, and the
iterator fields _itrBucket, _itrBucketPos and _itrPushedBackSuffix of
the BlockwiseSA parent (the latter two use the 0xffffffff sentinel of
the source).  The difference-cover member _dc is determined by the
text and dcV (dcOf) and is not duplicated here; _built is true for
every constructed object, so reset() never rebuilds. -/
@[ext]
structure KSt where
  text : List Nat
  bucketSz : Nat
  dcV : Nat
  sampleSuffs : List Nat
  cur : Nat
  itrBucket : List Nat
  itrBucketPos : Nat
  itrPushedBack : Nat
deriving Repr, DecidableEq

/-- hasMoreBlocks of KarkkainenBlockwiseSA: the cursor has not passed
the number of samples. -/
def hasMoreBlocks (s : KSt) : Bool :=
  decide (s.cur ≤ s.sampleSuffs.length)

/-- nextBlock of KarkkainenBlockwiseSA: store the bucket for the
current cursor and advance the cursor. -/
def nextBlock (s : KSt) : KSt :=
  { s with itrBucket := blockAt s.text s.dcV s.sampleSuffs s.cur,
           cur := s.cur + 1 }

/-- The while loop of BlockwiseSA::nextSuffix (src/blockwise_sa.h
lines 74-83), on explicit fuel: while the bucket cursor is past the
bucket (or the bucket is empty), fetch the next block or fail; then
emit the element under the cursor.  none models the out_of_range
throw; the state returned with it carries any mutations made before
the throw. -/
def fetchGo : Nat → KSt → Option Nat × KSt
  | 0, s => (none, s)
  | fuel + 1, s =>
    if s.itrBucketPos ≥ s.itrBucket.length ∨ s.itrBucket.length = 0 then
      if ¬ hasMoreBlocks s then (none, s)
      else fetchGo fuel { nextBlock s with itrBucketPos := 0 }
    else
      (some (s.itrBucket.getD s.itrBucketPos 0),
       { s with itrBucketPos := s.itrBucketPos + 1 })

/-- The while loop of BlockwiseSA::nextSuffix, with the fuel fixed to
the number of blocks still ahead of the cursor plus one: each
iteration either returns or advances the cursor while it is at most
the sample count, so this fuel makes the recursion equivalent to the
unbounded source loop. -/
def fetchLoop (s : KSt) : Option Nat × KSt :=
  fetchGo (s.sampleSuffs.length + 1 - s.cur + 1) s

/-- BlockwiseSA::nextSuffix: return a pending pushed-back suffix if
any, else run the fetch loop. -/
def nextSuffix (s : KSt) : Option Nat × KSt :=
  if s.itrPushedBack ≠ u32max then
    (some s.itrPushedBack, { s with itrPushedBack := u32max })
  else fetchLoop s

/-- BlockwiseSA::hasMoreSuffixes: true immediately when a pushback is
pending; otherwise attempt nextSuffix, stash the offset as pushback
on success, and report failure with the post-throw state otherwise. -/
def hasMoreSuffixes (s : KSt) : Bool × KSt :=
  if s.itrPushedBack ≠ u32max then (true, s)
  else
    match nextSuffix s with
    | (some v, s') => (true, { s' with itrPushedBack := v })
    | (none, s') => (false, s')

/-- BlockwiseSA::resetSuffixItr: clear the bucket, both iterator
sentinels, and (through KarkkainenBlockwiseSA::reset, whose build
branch is a no-op on a constructed object) the block cursor. -/
def resetSuffixItr (s : KSt) : KSt :=
  { s with itrBucket := [], itrBucketPos := u32max,
           itrPushedBack := u32max, cur := 0 }

/-- A consumer-visible operation on the iterator: true runs
nextSuffix, false runs hasMoreSuffixes; applyOps runs a sequence of
them for their state effect. -/
def applyOps (ops : List Bool) (s : KSt) : KSt :=
  ops.foldl (fun s op =>
    if op then (nextSuffix s).2 else (hasMoreSuffixes s).2) s

/-- Fuel that dominates the number of nextSuffix calls any run from
state s can still answer: each remaining block contributes at most
len + 1 offsets. -/
def fuelOf (s : KSt) : Nat :=
  (s.sampleSuffs.length + 1 - s.cur) * (s.text.length + 2) +
    (s.itrBucket.length - s.itrBucketPos) + 2

/-- Repeated nextSuffix calls until the first failure, collecting the
emitted offsets, bounded by fuel. -/
def emitFrom (s : KSt) : Nat → List Nat
  | 0 => []
  | fuel + 1 =>
    match nextSuffix s with
    | (none, _) => []
    | (some v, s') => v :: emitFrom s' fuel

/-- The full sequence of offsets obtained by exhausting the iterator
from state s. -/
def emitAll (s : KSt) : List Nat :=
  emitFrom s (fuelOf s)

/-- The KarkkainenBlockwiseSA constructor: clamp the bucket size to at
least 2, seed the generator, and build: the difference cover when dcV
is nonzero (dcOf), and the sample suffixes when the bucket size does
not exceed the text length, skipping sample building otherwise.  The
iterator starts with an empty bucket, both sentinels set, cursor 0.
Returns none only when buildSamples exhausts its restart fuel. -/
def buildK (t : List Nat) (bucketSz dcV seed fuel : Nat) : Option KSt :=
  let b := max bucketSz 2
  if b ≤ t.length then
    match buildSamples t b ⟨seed⟩ fuel with
    | some (ss, _) => some ⟨t, b, dcV, ss, 0, [], u32max, u32max⟩
    | none => none
  else some ⟨t, b, dcV, [], 0, [], u32max, u32max⟩

/-- The invariant on a comparator state for the bookend cmp: either
the pristine state j = k = -1 with the soft flag clear, or j and k
hold offsets j ≤ k ≤ len such that the suffixes at j and cmp agree on
their first k - j symbols, exactly so when the state is hard (the
match was verified by character comparisons), at least so when it is
soft (a difference-cover tie-break cut the verification short). -/
def CmpInv (t : List Nat) (cmp : Nat) (st : CmpSt) : Prop :=
  (st.j = -1 ∧ st.k = -1 ∧ st.kSoft = false) ∨
  (∃ jn kn : Nat, st.j = (jn : Int) ∧ st.k = (kn : Int) ∧ jn ≤ kn ∧
    kn ≤ t.length ∧
    (if st.kSoft then kn - jn ≤ suffixLcp t jn cmp
     else suffixLcp t jn cmp = kn - jn))

/-- Well-formedness of an iterator state with respect to the 32-bit
sentinel: the text length and every sample and bucket entry stay
below 0xffffffff, as the source guarantees by capping the text length
at 2^32 - 2. -/
def Hgood (s : KSt) : Prop :=
  s.text.length < u32max ∧ (∀ x ∈ s.sampleSuffs, x < u32max) ∧
    (∀ x ∈ s.itrBucket, x < u32max)

/-- The invariant on a sample-suffix list: strictly sorted in the
suffix order the code uses, every entry a real text offset. -/
def PassInv (t : List Nat) (ss : List Nat) : Prop :=
  List.Pairwise (fun a b => sufLt t a b = true) ss ∧ ∀ x ∈ ss, x < t.length

/-- The invariant of the split-and-merge loop relating the working
sample list to the size and representative arrays: the working list
is well-formed; sizes and representatives have equal length; the
working list has one entry fewer than the size array plus the number
of splits performed; every size entry at or past the loop index
measures the corresponding bucket of the working list (displaced by
the splits); and every representative entry at or past the loop index
is recorded whenever its bucket is nonempty and is a real non-sample
offset of that bucket. -/
def MsInv (t : List Nat) (ss szs reps : List Nat) (added i : Nat) : Prop :=
  PassInv t ss ∧ szs.length = reps.length ∧
  ss.length + 1 = szs.length + added ∧
  (∀ m, i ≤ m → m < szs.length →
    szs.getD m 0 = bucketSize t ss (m + added)) ∧
  (∀ m, i ≤ m → m < szs.length →
    (0 < szs.getD m 0 → reps.getD m u32max ≠ u32max) ∧
    (reps.getD m u32max ≠ u32max →
      reps.getD m u32max < t.length ∧ reps.getD m u32max ∉ ss ∧
      bucketOf t ss (reps.getD m u32max) = m + added))

/-- The invariant of the bucket-measuring loop after the first j text
offsets have been processed: the size and representative arrays keep
their full length; entry m of the size array counts the offsets below
j that fall in bucket m; and entry m of the representative array is
filled as soon as that count is positive, always with a non-sample
offset of bucket m. -/
def MeasInv (t ss : List Nat) (j : Nat)
    (acc : List Nat × List Nat × RandomSource) : Prop :=
  acc.1.length = ss.length + 1 ∧ acc.2.1.length = ss.length + 1 ∧
  (∀ m, m ≤ ss.length → acc.1.getD m 0 =
    ((List.range j).filter
      (fun i => !ss.contains i && (bucketOf t ss i == m))).length) ∧
  (∀ m, m ≤ ss.length →
    (0 < acc.1.getD m 0 → acc.2.1.getD m u32max ≠ u32max) ∧
    (acc.2.1.getD m u32max ≠ u32max →
      acc.2.1.getD m u32max < t.length ∧ acc.2.1.getD m u32max ∉ ss ∧
      bucketOf t ss (acc.2.1.getD m u32max) = m))

/-- The text of the specification's banana scenario, with the
alphabet mapped a -> 0, b -> 1, n -> 2. -/
def bananaT : List Nat := [1, 0, 2, 0, 2, 0]

/-- Membership of offset i in the open bucket delimited by the
bookends: i is neither bookend, its suffix precedes the upper sample
and follows the lower one. -/
def inBucket (t : List Nat) (lo hi : Option Nat) (i : Nat) : Bool :=
  (match hi with
   | some h => decide (i ≠ h) && sufLt t i h
   | none => true) &&
  (match lo with
   | some l => decide (i ≠ l) && sufLt t l i
   | none => true)

/-! Basic theory of the common-prefix length and of the suffix order
the code implements. -/

theorem lcpList_le_left (l r : List Nat) : lcpList l r ≤ l.length := by
  induction l generalizing r with
  | nil => cases r <;> simp [lcpList]
  | cons x xs ih =>
    cases r with
    | nil => simp [lcpList]
    | cons y ys =>
      by_cases h : x = y
      · simpa [lcpList, h, Nat.succ_le_succ_iff] using ih ys
      · simp [lcpList, h]

theorem lcpList_comm (l r : List Nat) : lcpList l r = lcpList r l := by
  induction l generalizing r with
  | nil => cases r <;> simp [lcpList]
  | cons x xs ih =>
    cases r with
    | nil => simp [lcpList]
    | cons y ys =>
      by_cases h : x = y
      · simp [lcpList, h, ih ys]
      · simp [lcpList, h, Ne.symm h]

theorem lcpList_le_right (l r : List Nat) : lcpList l r ≤ r.length := by
  rw [lcpList_comm]; exact lcpList_le_left r l

theorem lcpList_getD_eq (l r : List Nat) (c : Nat)
    (h : c < lcpList l r) : l.getD c 0 = r.getD c 0 := by
  induction l generalizing r c with
  | nil => cases r <;> simp [lcpList] at h
  | cons x xs ih =>
    cases r with
    | nil => simp [lcpList] at h
    | cons y ys =>
      by_cases hxy : x = y
      · cases c with
        | zero => simpa using hxy
        | succ c =>
          simp only [lcpList, if_pos hxy] at h
          simpa using ih ys c (by omega)
      · simp [lcpList, hxy] at h

theorem lcpList_getD_ne (l r : List Nat)
    (hl : lcpList l r < l.length) (hr : lcpList l r < r.length) :
    l.getD (lcpList l r) 0 ≠ r.getD (lcpList l r) 0 := by
  induction l generalizing r with
  | nil => simp at hl
  | cons x xs ih =>
    cases r with
    | nil => simp at hr
    | cons y ys =>
      by_cases hxy : x = y
      · simp only [lcpList, if_pos hxy, List.length_cons] at hl hr ⊢
        simpa using ih ys (by omega) (by omega)
      · simp [lcpList, hxy]

theorem lcpList_drop (l r : List Nat) (m : Nat) (h : m ≤ lcpList l r) :
    lcpList (l.drop m) (r.drop m) = lcpList l r - m := by
  induction m generalizing l r with
  | zero => simp
  | succ m ih =>
    cases l with
    | nil => cases r <;> simp [lcpList] at h
    | cons x xs =>
      cases r with
      | nil => simp [lcpList] at h
      | cons y ys =>
        by_cases hxy : x = y
        · simp only [lcpList, if_pos hxy] at h ⊢
          simp only [List.drop_succ_cons]
          rw [ih xs ys (by omega)]
          omega
        · simp [lcpList, hxy] at h

theorem ltPL_irrefl (l : List Nat) : ltPL l l = false := by
  induction l with
  | nil => simp [ltPL]
  | cons x xs ih => simp [ltPL, ih]

theorem ltPL_trans (a b c : List Nat) (hab : ltPL a b = true)
    (hbc : ltPL b c = true) : ltPL a c = true := by
  induction a generalizing b c with
  | nil => cases b <;> simp [ltPL] at hab
  | cons x xs ih =>
    cases c with
    | nil => simp [ltPL]
    | cons z zs =>
      cases b with
      | nil => simp [ltPL] at hbc
      | cons y ys =>
        simp only [ltPL, Bool.or_eq_true, decide_eq_true_eq,
          Bool.and_eq_true, beq_iff_eq] at hab hbc ⊢
        rcases hab with hab | ⟨rfl, hab⟩
        · rcases hbc with hbc | ⟨rfl, hbc⟩
          · exact Or.inl (by omega)
          · exact Or.inl hab
        · rcases hbc with hbc | ⟨rfl, hbc⟩
          · exact Or.inl hbc
          · exact Or.inr ⟨rfl, ih ys zs hab hbc⟩

theorem ltPL_asymm (l r : List Nat) (h : ltPL l r = true) :
    ltPL r l = false := by
  cases hrl : ltPL r l with
  | false => rfl
  | true =>
    have := ltPL_trans l r l h hrl
    rw [ltPL_irrefl] at this
    exact absurd this (by simp)

theorem ltPL_total_of_ne (l r : List Nat) (h : l ≠ r) :
    ltPL l r = true ∨ ltPL r l = true := by
  induction l generalizing r with
  | nil =>
    cases r with
    | nil => exact absurd rfl h
    | cons y ys => simp [ltPL]
  | cons x xs ih =>
    cases r with
    | nil => simp [ltPL]
    | cons y ys =>
      by_cases hxy : x = y
      · subst hxy
        have hne : xs ≠ ys := by
          intro hh; exact h (by rw [hh])
        rcases ih ys hne with hlt | hlt
        · exact Or.inl (by simp [ltPL, hlt])
        · exact Or.inr (by simp [ltPL, hlt])
      · rcases Nat.lt_or_ge x y with hlt | hge
        · exact Or.inl (by simp [ltPL, hlt])
        · have : y < x := by omega
          exact Or.inr (by simp [ltPL, this])

theorem ltPL_of_lcp_left (l r : List Nat) (h : lcpList l r = l.length)
    (hne : l.length ≠ r.length) : ltPL l r = false := by
  induction l generalizing r with
  | nil =>
    cases r with
    | nil => simp at hne
    | cons y ys => simp [ltPL]
  | cons x xs ih =>
    cases r with
    | nil => simp [lcpList] at h
    | cons y ys =>
      by_cases hxy : x = y
      · subst hxy
        have hstep : lcpList (x :: xs) (x :: ys) = lcpList xs ys + 1 := by
          simp [lcpList]
        rw [hstep, List.length_cons] at h
        have hlen : xs.length ≠ ys.length := by simpa using hne
        simp [ltPL, ih ys (by omega) hlen]
      · exfalso
        have h0 : lcpList (x :: xs) (y :: ys) = 0 := by simp [lcpList, hxy]
        rw [h0] at h
        simp at h

theorem ltPL_of_lcp_right (l r : List Nat) (h : lcpList l r = r.length)
    (hne : l.length ≠ r.length) : ltPL l r = true := by
  induction l generalizing r with
  | nil =>
    cases r with
    | nil => simp at hne
    | cons y ys => simp [lcpList] at h
  | cons x xs ih =>
    cases r with
    | nil => simp [ltPL]
    | cons y ys =>
      by_cases hxy : x = y
      · subst hxy
        have hstep : lcpList (x :: xs) (x :: ys) = lcpList xs ys + 1 := by
          simp [lcpList]
        rw [hstep, List.length_cons] at h
        have hlen : xs.length ≠ ys.length := by simpa using hne
        simp [ltPL, ih ys (by omega) hlen]
      · exfalso
        have h0 : lcpList (x :: xs) (y :: ys) = 0 := by simp [lcpList, hxy]
        rw [h0] at h
        simp at h

theorem ltPL_of_mismatch (l r : List Nat)
    (hl : lcpList l r < l.length) (hr : lcpList l r < r.length) :
    ltPL l r = decide (l.getD (lcpList l r) 0 < r.getD (lcpList l r) 0) := by
  induction l generalizing r with
  | nil => simp at hl
  | cons x xs ih =>
    cases r with
    | nil => simp at hr
    | cons y ys =>
      by_cases hxy : x = y
      · subst hxy
        have hstep : lcpList (x :: xs) (x :: ys) = lcpList xs ys + 1 := by
          simp [lcpList]
        rw [hstep, List.length_cons] at hl hr
        rw [hstep]
        have := ih ys (by omega) (by omega)
        simp [ltPL, this]
      · have h0 : lcpList (x :: xs) (y :: ys) = 0 := by simp [lcpList, hxy]
        rw [h0]
        rcases Nat.lt_or_ge x y with hlt | hge
        · simp [ltPL, hlt]
        · have hyx : ¬ x < y := by omega
          simp [ltPL, hyx, hxy]

theorem ltPL_drop_congr (l r : List Nat) (m : Nat)
    (h : m ≤ lcpList l r) : ltPL l r = ltPL (l.drop m) (r.drop m) := by
  induction m generalizing l r with
  | zero => simp
  | succ m ih =>
    cases l with
    | nil => cases r <;> simp [lcpList] at h
    | cons x xs =>
      cases r with
      | nil => simp [lcpList] at h
      | cons y ys =>
        by_cases hxy : x = y
        · simp only [lcpList, if_pos hxy] at h
          subst hxy
          simp only [List.drop_succ_cons]
          rw [← ih xs ys (by omega)]
          simp [ltPL]
        · simp [lcpList, hxy] at h

theorem lcpList_min_le (x y z : List Nat) :
    min (lcpList x y) (lcpList y z) ≤ lcpList x z := by
  induction x generalizing y z with
  | nil => cases y <;> cases z <;> simp [lcpList]
  | cons a as ih =>
    cases y with
    | nil => simp [lcpList]
    | cons b bs =>
      cases z with
      | nil => simp [lcpList]
      | cons c cs =>
        by_cases hab : a = b
        · by_cases hbc : b = c
          · have hac : a = c := hab.trans hbc
            simp only [lcpList, if_pos hab, if_pos hbc, if_pos hac]
            have := ih bs cs
            omega
          · simp [lcpList, hab, hbc]
        · simp [lcpList, hab]

theorem lcpList_of_ne_lcp (x y z : List Nat)
    (h : lcpList x y ≠ lcpList y z) :
    lcpList x z = min (lcpList x y) (lcpList y z) := by
  induction x generalizing y z with
  | nil =>
    have h1 : lcpList ([] : List Nat) y = 0 := by cases y <;> simp [lcpList]
    have h2 : lcpList ([] : List Nat) z = 0 := by cases z <;> simp [lcpList]
    rw [h1, h2]
    simp
  | cons a as ih =>
    cases y with
    | nil =>
      exfalso
      apply h
      have h1 : lcpList (a :: as) [] = 0 := by simp [lcpList]
      have h2 : lcpList ([] : List Nat) z = 0 := by cases z <;> simp [lcpList]
      rw [h1, h2]
    | cons b bs =>
      cases z with
      | nil =>
        have h1 : lcpList (a :: as) [] = 0 := by simp [lcpList]
        have h2 : lcpList (b :: bs) [] = 0 := by simp [lcpList]
        rw [h1, h2]
        simp
      | cons c cs =>
        by_cases hab : a = b
        · by_cases hbc : b = c
          · have hac : a = c := hab.trans hbc
            simp only [lcpList, if_pos hab, if_pos hbc, if_pos hac] at h ⊢
            have := ih bs cs (by omega)
            omega
          · have hac : a ≠ c := by rw [hab]; exact hbc
            simp [lcpList, hab, hbc, hac]
        · by_cases hbc : b = c
          · have hac : a ≠ c := by rw [← hbc]; exact hab
            simp [lcpList, hab, hbc, hac]
          · simp [lcpList, hab, hbc] at h

/-! Bridging index-based text access to the dropped-suffix view, and
the order facts on suffix offsets. -/

theorem getD_drop (t : List Nat) (a c d : Nat) :
    (t.drop a).getD c d = t.getD (a + c) d := by
  simp [List.getD_eq_getElem?_getD, List.getElem?_drop]

theorem drop_add (t : List Nat) (a m : Nat) :
    t.drop (a + m) = (t.drop a).drop m := by
  rw [List.drop_drop]

theorem suffixLcp_le_left (t : List Nat) (a b : Nat) :
    suffixLcp t a b ≤ t.length - a := by
  have := lcpList_le_left (t.drop a) (t.drop b)
  simpa [suffixLcp, List.length_drop] using this

theorem suffixLcp_le_right (t : List Nat) (a b : Nat) :
    suffixLcp t a b ≤ t.length - b := by
  have := lcpList_le_right (t.drop a) (t.drop b)
  simpa [suffixLcp, List.length_drop] using this

theorem suffixLcp_comm (t : List Nat) (a b : Nat) :
    suffixLcp t a b = suffixLcp t b a := by
  simp [suffixLcp, lcpList_comm]

theorem suffixLcp_getD_eq (t : List Nat) (a b c : Nat)
    (h : c < suffixLcp t a b) : t.getD (a + c) 0 = t.getD (b + c) 0 := by
  have := lcpList_getD_eq (t.drop a) (t.drop b) c h
  simpa [getD_drop] using this

theorem suffixLcp_getD_ne (t : List Nat) (a b : Nat)
    (ha : suffixLcp t a b < t.length - a)
    (hb : suffixLcp t a b < t.length - b) :
    t.getD (a + suffixLcp t a b) 0 ≠ t.getD (b + suffixLcp t a b) 0 := by
  have := lcpList_getD_ne (t.drop a) (t.drop b)
    (by simpa [List.length_drop] using ha)
    (by simpa [List.length_drop] using hb)
  simpa [getD_drop, suffixLcp] using this

theorem suffixLcp_shift (t : List Nat) (a b m : Nat)
    (h : m ≤ suffixLcp t a b) :
    suffixLcp t (a + m) (b + m) = suffixLcp t a b - m := by
  unfold suffixLcp at h ⊢
  rw [drop_add t a m, drop_add t b m]
  exact lcpList_drop _ _ _ h

theorem sufLt_irrefl (t : List Nat) (a : Nat) : sufLt t a a = false := by
  simp [sufLt, ltPL_irrefl]

theorem sufLt_asymm (t : List Nat) (a b : Nat) (h : sufLt t a b = true) :
    sufLt t b a = false :=
  ltPL_asymm _ _ h

theorem sufLt_trans (t : List Nat) (a b c : Nat)
    (hab : sufLt t a b = true) (hbc : sufLt t b c = true) :
    sufLt t a c = true :=
  ltPL_trans _ _ _ hab hbc

theorem sufLt_total (t : List Nat) (a b : Nat) (ha : a ≤ t.length)
    (hb : b ≤ t.length) (hne : a ≠ b) :
    sufLt t a b = true ∨ sufLt t b a = true := by
  apply ltPL_total_of_ne
  intro hdrop
  apply hne
  have := congrArg List.length hdrop
  simp only [List.length_drop] at this
  omega

theorem sufLt_shift (t : List Nat) (a b m : Nat)
    (h : m ≤ suffixLcp t a b) :
    sufLt t a b = sufLt t (a + m) (b + m) := by
  unfold suffixLcp at h
  unfold sufLt
  rw [drop_add t a m, drop_add t b m]
  exact ltPL_drop_congr _ _ m h

theorem sufLt_of_lcp_left (t : List Nat) (a b : Nat)
    (h : suffixLcp t a b = t.length - a) (ha : a ≤ t.length)
    (hb : b ≤ t.length) (hne : a ≠ b) : sufLt t a b = false := by
  apply ltPL_of_lcp_left
  · simpa [List.length_drop] using h
  · simp only [List.length_drop]
    omega

theorem sufLt_of_lcp_right (t : List Nat) (a b : Nat)
    (h : suffixLcp t a b = t.length - b) (ha : a ≤ t.length)
    (hb : b ≤ t.length) (hne : a ≠ b) : sufLt t a b = true := by
  apply ltPL_of_lcp_right
  · simpa [List.length_drop] using h
  · simp only [List.length_drop]
    omega

theorem sufLt_of_mismatch (t : List Nat) (a b : Nat)
    (ha : suffixLcp t a b < t.length - a)
    (hb : suffixLcp t a b < t.length - b) :
    sufLt t a b =
      decide (t.getD (a + suffixLcp t a b) 0 < t.getD (b + suffixLcp t a b) 0) := by
  have := ltPL_of_mismatch (t.drop a) (t.drop b)
    (by simpa [List.length_drop] using ha)
    (by simpa [List.length_drop] using hb)
  simpa [sufLt, suffixLcp, getD_drop] using this

theorem sufLt_len (t : List Nat) (a : Nat) (h : a < t.length) :
    sufLt t a t.length = true := by
  have hnil : t.drop t.length = [] := by simp
  unfold sufLt
  rw [hnil]
  rcases hd : t.drop a with _ | ⟨x, xs⟩
  · exfalso
    have := congrArg List.length hd
    simp only [List.length_drop] at this
    simp at this
    omega
  · simp [ltPL]

theorem suffixLcp_left_exhausts (t : List Nat) (a b : Nat)
    (h : t.length - a ≤ suffixLcp t a b) :
    suffixLcp t a b = t.length - a :=
  Nat.le_antisymm (suffixLcp_le_left t a b) h

/-! Soundness of the suffix comparator suffixCmp against the suffix
order it is meant to decide. -/

theorem extendLoop_eq (t : List Nat) (cmp l k : Nat) :
    extendLoop t cmp l k =
      if l < t.length - cmp ∧ k < t.length ∧
          t.getD (cmp + l) 0 = t.getD k 0 then
        extendLoop t cmp (l + 1) (k + 1)
      else (l, k) := by
  by_cases hk : k < t.length
  · unfold extendLoop
    rw [show t.length - k = (t.length - (k + 1)) + 1 by omega]
    simp only [extendGo]
  · unfold extendLoop
    rw [if_neg (by rintro ⟨-, h2, -⟩; omega)]
    rw [show t.length - k = 0 by omega]
    simp only [extendGo]

theorem extendLoop_spec (t : List Nat) (cmp i : Nat) (l : Nat)
    (hl : l ≤ suffixLcp t i cmp) :
    extendLoop t cmp l (i + l) =
      (suffixLcp t i cmp, i + suffixLcp t i cmp) := by
  have key : ∀ d l, suffixLcp t i cmp - l = d → l ≤ suffixLcp t i cmp →
      extendLoop t cmp l (i + l) =
        (suffixLcp t i cmp, i + suffixLcp t i cmp) := by
    intro d
    induction d with
    | zero =>
      intro l hd hle
      have hleq : l = suffixLcp t i cmp := by omega
      rw [extendLoop_eq]
      have hguard : ¬ (l < t.length - cmp ∧ i + l < t.length ∧
          t.getD (cmp + l) 0 = t.getD (i + l) 0) := by
        rintro ⟨h1, h2, h3⟩
        rw [hleq] at h1 h2 h3
        exact suffixLcp_getD_ne t i cmp (by omega) (by omega) h3.symm
      rw [if_neg hguard, hleq]
    | succ d ih =>
      intro l hd hle
      have hlt : l < suffixLcp t i cmp := by omega
      rw [extendLoop_eq]
      have h1 : l < t.length - cmp :=
        Nat.lt_of_lt_of_le hlt (suffixLcp_le_right t i cmp)
      have h2 : i + l < t.length := by
        have := Nat.lt_of_lt_of_le hlt (suffixLcp_le_left t i cmp)
        omega
      have h3 : t.getD (cmp + l) 0 = t.getD (i + l) 0 :=
        (suffixLcp_getD_eq t i cmp l hlt).symm
      rw [if_pos ⟨h1, h2, h3⟩]
      have := ih (l + 1) (by omega) (by omega)
      rw [show i + l + 1 = i + (l + 1) by omega]
      exact this
  exact key _ l rfl hl

theorem tbLoop_spec (t : List Nat) (a b dcDist : Nat) :
    tbLoop t a b dcDist 0 = min dcDist (suffixLcp t a b) := by
  have key : ∀ d c, min dcDist (suffixLcp t a b) - c = d →
      c ≤ min dcDist (suffixLcp t a b) →
      tbLoop t a b dcDist c = min dcDist (suffixLcp t a b) := by
    intro d
    induction d with
    | zero =>
      intro c hd hle
      have hceq : c = min dcDist (suffixLcp t a b) := by omega
      rw [tbLoop]
      have hguard : ¬ (c < dcDist ∧ c < t.length - a ∧ c < t.length - b ∧
          t.getD (a + c) 0 = t.getD (b + c) 0) := by
        rintro ⟨h1, h2, h3, h4⟩
        have hc : c = suffixLcp t a b := by omega
        exact suffixLcp_getD_ne t a b (by omega) (by omega) (by rw [← hc]; exact h4)
      rw [dif_neg hguard, hceq]
    | succ d ih =>
      intro c hd hle
      have hc1 : c < dcDist := by omega
      have hc2 : c < suffixLcp t a b := by omega
      rw [tbLoop]
      have h2 : c < t.length - a :=
        Nat.lt_of_lt_of_le hc2 (suffixLcp_le_left t a b)
      have h3 : c < t.length - b :=
        Nat.lt_of_lt_of_le hc2 (suffixLcp_le_right t a b)
      have h4 : t.getD (a + c) 0 = t.getD (b + c) 0 :=
        suffixLcp_getD_eq t a b c hc2
      rw [dif_pos ⟨hc1, h2, h3, h4⟩]
      exact ih (c + 1) (by omega) (by omega)
  exact key _ 0 rfl (by omega)

theorem mkDC_breakTie_neg (t : List Nat) (v x y : Nat) :
    ((mkDC t v).breakTie x y < 0) ↔ sufLt t x y = true := by
  unfold mkDC
  by_cases h1 : sufLt t x y
  · simp [h1]
  · by_cases h2 : sufLt t y x <;> simp [h1, h2]

theorem suffixCmpFin_exact (t : List Nat) (cmp i l : Nat)
    (hl : l = suffixLcp t i cmp) (hi : i < t.length)
    (hcmp : cmp < t.length) (hne : i ≠ cmp) :
    suffixCmpFin t cmp i l = sufLt t i cmp := by
  unfold suffixCmpFin
  by_cases h1 : l + i = t.length
  · rw [if_pos h1]
    have hlcp : suffixLcp t i cmp = t.length - i := by omega
    exact (sufLt_of_lcp_left t i cmp hlcp (by omega) (by omega) hne).symm
  · rw [if_neg h1]
    by_cases h2 : l = t.length - cmp
    · rw [if_pos h2]
      have hlcp : suffixLcp t i cmp = t.length - cmp := by omega
      exact (sufLt_of_lcp_right t i cmp hlcp (by omega) (by omega) hne).symm
    · rw [if_neg h2]
      have ha : suffixLcp t i cmp < t.length - i := by
        have := suffixLcp_le_left t i cmp
        omega
      have hb : suffixLcp t i cmp < t.length - cmp := by
        have := suffixLcp_le_right t i cmp
        omega
      rw [hl]
      exact (sufLt_of_mismatch t i cmp ha hb).symm

theorem lookupSuffixZ_eq (t : List Nat) (m cmp v : Nat) :
    lookupSuffixZ t m cmp (zArrayOf t cmp v) = suffixLcp t (cmp + m) cmp := by
  unfold lookupSuffixZ zArrayOf
  by_cases h : m < v
  · rw [if_pos (by simpa using h)]
    rw [List.getD_eq_getElem?_getD, List.getElem?_map, List.getElem?_range h]
    rfl
  · rw [if_neg (by simpa using h)]

theorem tieBreakingLcp_sound (t : List Nat) (v a b : Nat)
    (ha : a < t.length) (hb : b < t.length) (hne : a ≠ b) :
    (tieBreakingLcp t (mkDC t v) a b).1 = sufLt t a b ∧
    (tieBreakingLcp t (mkDC t v) a b).2.1 ≤ suffixLcp t a b ∧
    ((tieBreakingLcp t (mkDC t v) a b).2.2 = false →
      (tieBreakingLcp t (mkDC t v) a b).2.1 = suffixLcp t a b) := by
  simp only [tieBreakingLcp]
  rw [tbLoop_spec]
  set D := (mkDC t v).tieBreakOff a b with hD
  set c := min D (suffixLcp t a b) with hc
  have hcle : c ≤ suffixLcp t a b := by omega
  by_cases h1 : c = t.length - a
  · have hlcp : suffixLcp t a b = t.length - a := by
      have := suffixLcp_le_left t a b
      omega
    simp only [if_pos h1]
    refine ⟨?_, ?_, ?_⟩
    · show false = sufLt t a b
      exact (sufLt_of_lcp_left t a b hlcp (by omega) (by omega) hne).symm
    · show c ≤ suffixLcp t a b
      exact hcle
    · intro _
      show c = suffixLcp t a b
      omega
  · simp only [if_neg h1]
    by_cases h2 : c = t.length - b
    · have hlcp : suffixLcp t a b = t.length - b := by
        have := suffixLcp_le_right t a b
        omega
      simp only [if_pos h2]
      refine ⟨?_, ?_, ?_⟩
      · show true = sufLt t a b
        exact (sufLt_of_lcp_right t a b hlcp (by omega) (by omega) hne).symm
      · show c ≤ suffixLcp t a b
        exact hcle
      · intro _
        show c = suffixLcp t a b
        omega
    · simp only [if_neg h2]
      by_cases h3 : c = D
      · simp only [if_pos h3]
        refine ⟨?_, hcle, ?_⟩
        · show decide ((mkDC t v).breakTie (a + c) (b + c) < 0) = sufLt t a b
          have hiff := mkDC_breakTie_neg t v (a + c) (b + c)
          rcases hbt : sufLt t (a + c) (b + c) with _ | _
          · have hnlt : ¬ ((mkDC t v).breakTie (a + c) (b + c) < 0) := by
              rw [hiff, hbt]; simp
            rw [decide_eq_false hnlt, sufLt_shift t a b c hcle, hbt]
          · have hlt : (mkDC t v).breakTie (a + c) (b + c) < 0 := by
              rw [hiff, hbt]
            rw [decide_eq_true hlt, sufLt_shift t a b c hcle, hbt]
        · intro hfalse
          exact absurd hfalse (by simp)
      · simp only [if_neg h3]
        have hceq : c = suffixLcp t a b := by omega
        have hlt_a : suffixLcp t a b < t.length - a := by
          have := suffixLcp_le_left t a b
          omega
        have hlt_b : suffixLcp t a b < t.length - b := by
          have := suffixLcp_le_right t a b
          omega
        refine ⟨?_, hcle, fun _ => hceq⟩
        show decide (t.getD (a + c) 0 < t.getD (b + c) 0) = sufLt t a b
        rw [hceq, (sufLt_of_mismatch t a b hlt_a hlt_b)]

theorem suffixCmpZ_sound (t : List Nat) (cmp i jn kn : Nat) (ks : Bool)
    (z : List Nat)
    (hzfn : lookupSuffixZ t (i - jn) cmp z = suffixLcp t (cmp + (i - jn)) cmp)
    (hji : jn < i) (hik : i ≤ kn) (hkl : kn ≤ t.length)
    (hsoft : if ks then kn - jn ≤ suffixLcp t jn cmp
             else suffixLcp t jn cmp = kn - jn)
    (hi : i < t.length) (hcmp : cmp < t.length) (hne : i ≠ cmp) :
    ((suffixCmpZ t cmp z i (i - jn) ⟨jn, kn, ks⟩).1 = sufLt t i cmp) ∧
    CmpInv t cmp (suffixCmpZ t cmp z i (i - jn) ⟨jn, kn, ks⟩).2 ∧
    (suffixCmpZ t cmp z i (i - jn) ⟨jn, kn, ks⟩).2.j ≤ (i : Int) := by
  have hA : kn - jn ≤ suffixLcp t jn cmp := by
    rcases ks with _ | _
    · simp at hsoft
      omega
    · simpa using hsoft
  have hw : suffixLcp t i (cmp + (i - jn)) = suffixLcp t jn cmp - (i - jn) := by
    have hle : i - jn ≤ suffixLcp t jn cmp := by omega
    have hsh := suffixLcp_shift t jn cmp (i - jn) hle
    rw [show jn + (i - jn) = i by omega] at hsh
    exact hsh
  have htri_le : min (suffixLcp t i (cmp + (i - jn)))
      (suffixLcp t (cmp + (i - jn)) cmp) ≤ suffixLcp t i cmp :=
    lcpList_min_le _ _ _
  have htri_eq : suffixLcp t i (cmp + (i - jn)) ≠
      suffixLcp t (cmp + (i - jn)) cmp →
      suffixLcp t i cmp = min (suffixLcp t i (cmp + (i - jn)))
        (suffixLcp t (cmp + (i - jn)) cmp) :=
    lcpList_of_ne_lcp _ _ _
  have hlcp_le : suffixLcp t i cmp ≤ t.length - i := suffixLcp_le_left t i cmp
  simp only [suffixCmpZ, hzfn]
  set z0 := suffixLcp t (cmp + (i - jn)) cmp with hz0
  set w := suffixLcp t i (cmp + (i - jn)) with hwdef
  set l1 := (if t.length < i + z0 then t.length - i else z0 : Nat) with hl1
  have hl1cases : (t.length < i + z0 ∧ l1 = t.length - i) ∨
      (¬ t.length < i + z0 ∧ l1 = z0) := by
    by_cases hc : t.length < i + z0
    · exact Or.inl ⟨hc, by rw [hl1, if_pos hc]⟩
    · exact Or.inr ⟨hc, by rw [hl1, if_neg hc]⟩
  have hl1z0 : l1 ≤ z0 := by
    rcases hl1cases with ⟨hc, he⟩ | ⟨hc, he⟩ <;> omega
  by_cases hcase1 : ((i : Int) + (l1 : Int) = ((kn : Int)))
  · rw [if_pos hcase1]
    have hkeq : kn = i + l1 := by omega
    have hl1lcp : l1 ≤ suffixLcp t i cmp := by
      rcases hl1cases with ⟨hc, he⟩ | ⟨hc, he⟩
      · -- clamped: kn = text length, both w and z0 reach the text end
        omega
      · -- unclamped: l1 = z0 = kn - i is at most w
        omega
    rw [Int.toNat_natCast, hkeq]
    rw [extendLoop_spec t cmp i l1 hl1lcp]
    refine ⟨suffixCmpFin_exact t cmp i _ rfl hi hcmp hne, ?_, ?_⟩
    · refine Or.inr ⟨i, i + suffixLcp t i cmp, rfl, rfl, by omega, by omega, ?_⟩
      show suffixLcp t i cmp = i + suffixLcp t i cmp - i
      omega
    · show (i : Int) ≤ (i : Int)
      exact le_refl _
  · rw [if_neg hcase1]
    by_cases hcase2 : (((kn : Int)) < (i : Int) + (l1 : Int))
    · rw [if_pos hcase2]
      have hknil1 : kn < i + l1 := by omega
      have hl2 : (((kn : Int)) - (i : Int)).toNat = kn - i := by omega
      rw [hl2, Int.toNat_natCast]
      have hext : extendLoop t cmp (kn - i) kn =
          extendLoop t cmp (kn - i) (i + (kn - i)) := by
        rw [show i + (kn - i) = kn by omega]
      have hlelcp : kn - i ≤ suffixLcp t i cmp := by omega
      by_cases hks : ks = true
      · rw [if_pos hks, hext, extendLoop_spec t cmp i (kn - i) hlelcp]
        refine ⟨suffixCmpFin_exact t cmp i _ rfl hi hcmp hne, ?_, ?_⟩
        · refine Or.inr ⟨i, i + suffixLcp t i cmp, rfl, rfl, by omega, by omega, ?_⟩
          show suffixLcp t i cmp = i + suffixLcp t i cmp - i
          omega
        · show (i : Int) ≤ (i : Int)
          exact le_refl _
      · rw [if_neg hks]
        have hksf : ks = false := by
          rcases ks with _ | _
          · rfl
          · exact absurd rfl hks
        subst hksf
        have hhard : suffixLcp t jn cmp = kn - jn := by simpa using hsoft
        have hweq : w = kn - i := by omega
        have hlcp : suffixLcp t i cmp = kn - i := by
          have hz0w : w ≠ z0 := by omega
          have := htri_eq hz0w
          omega
        refine ⟨suffixCmpFin_exact t cmp i _ hlcp.symm hi hcmp hne, ?_, ?_⟩
        · refine Or.inr ⟨i, kn, rfl, rfl, by omega, hkl, ?_⟩
          show suffixLcp t i cmp = kn - i
          exact hlcp
        · show (i : Int) ≤ (i : Int)
          exact le_refl _
    · rw [if_neg hcase2]
      have hil1kn : i + l1 < kn := by omega
      have hunclamped : ¬ t.length < i + z0 ∧ l1 = z0 := by
        rcases hl1cases with ⟨hc, he⟩ | h
        · exfalso
          omega
        · exact h
      have hl1eq : l1 = z0 := hunclamped.2
      have hlcp : suffixLcp t i cmp = l1 := by
        have hz0w : w ≠ z0 := by omega
        have := htri_eq hz0w
        omega
      refine ⟨suffixCmpFin_exact t cmp i _ hlcp.symm hi hcmp hne, ?_, ?_⟩
      · refine Or.inr ⟨jn, kn, rfl, rfl, by omega, hkl, ?_⟩
        exact hsoft
      · show ((jn : Int)) ≤ (i : Int)
        omega

theorem suffixCmp_sound (t : List Nat) (dcV cmp i : Nat) (st : CmpSt)
    (hInv : CmpInv t cmp st) (hji : st.j < (i : Int))
    (hi : i < t.length) (hcmp : cmp < t.length) (hne : i ≠ cmp) :
    ((suffixCmp t dcV (dcOf t dcV) cmp (zArrayOf t cmp dcV) i st).1 =
      sufLt t i cmp) ∧
    CmpInv t cmp (suffixCmp t dcV (dcOf t dcV) cmp (zArrayOf t cmp dcV) i st).2 ∧
    (suffixCmp t dcV (dcOf t dcV) cmp (zArrayOf t cmp dcV) i st).2.j ≤ (i : Int) := by
  obtain ⟨sj, sk, sks⟩ := st
  have hji' : sj < (i : Int) := hji
  simp only [CmpInv] at hInv
  simp only [suffixCmp]
  by_cases hfresh : ((i : Int) > sk)
  · rw [if_pos hfresh]
    have hr := extendLoop_spec t cmp i 0 (Nat.zero_le _)
    rw [show extendLoop t cmp 0 i =
      (suffixLcp t i cmp, i + suffixLcp t i cmp) from hr]
    refine ⟨suffixCmpFin_exact t cmp i _ rfl hi hcmp hne, ?_, ?_⟩
    · refine Or.inr ⟨i, i + suffixLcp t i cmp, rfl, rfl, by omega, ?_, ?_⟩
      · have := suffixLcp_le_left t i cmp
        omega
      · show suffixLcp t i cmp = i + suffixLcp t i cmp - i
        omega
    · show (i : Int) ≤ (i : Int)
      exact le_refl _
  · rw [if_neg hfresh]
    rcases hInv with ⟨hj, hk, hks⟩ | ⟨jn, kn, hj, hk, hjk, hkl, hsoft⟩
    · exfalso
      have hk' : sk = -1 := hk
      omega
    · have hj' : sj = ((jn : Int)) := hj
      have hk' : sk = ((kn : Int)) := hk
      subst hj'
      subst hk'
      have hzn : ((i : Int) - ((jn : Int))).toNat = i - jn := by omega
      rw [hzn]
      by_cases hz : (i - jn < dcV ∨ (dcOf t dcV).isNone = true)
      · rw [if_pos hz]
        exact suffixCmpZ_sound t cmp i jn kn sks (zArrayOf t cmp dcV)
          (lookupSuffixZ_eq t (i - jn) cmp dcV) (by omega) (by omega)
          hkl hsoft hi hcmp hne
      · rw [if_neg hz]
        have hv : dcV ≠ 0 := by
          intro h0
          apply hz
          right
          simp [dcOf, h0]
        have hdc : dcOf t dcV = some (mkDC t dcV) := by simp [dcOf, hv]
        rw [hdc]
        have htb := tieBreakingLcp_sound t dcV i cmp hi hcmp hne
        refine ⟨?_, ?_, ?_⟩
        · show (tieBreakingLcp t (mkDC t dcV) i cmp).1 = sufLt t i cmp
          exact htb.1
        · show CmpInv t cmp ⟨(i : Nat), ((i + (tieBreakingLcp t (mkDC t dcV) i cmp).2.1 : Nat)),
            (tieBreakingLcp t (mkDC t dcV) i cmp).2.2⟩
          have hlcp_le : suffixLcp t i cmp ≤ t.length - i := suffixLcp_le_left t i cmp
          refine Or.inr ⟨i, i + (tieBreakingLcp t (mkDC t dcV) i cmp).2.1,
            rfl, rfl, by omega, by have := htb.2.1; omega, ?_⟩
          by_cases hs : (tieBreakingLcp t (mkDC t dcV) i cmp).2.2 = true
          · rw [if_pos hs]
            have := htb.2.1
            omega
          · rw [if_neg hs]
            have hfeq : (tieBreakingLcp t (mkDC t dcV) i cmp).2.2 = false := by
              rcases hb : (tieBreakingLcp t (mkDC t dcV) i cmp).2.2
              · rfl
              · exact absurd hb hs
            have := htb.2.2 hfeq
            omega
        · show (i : Int) ≤ (i : Int)
          exact le_refl _

/-! The accumulator loop of nextBlock collects exactly the offsets of
the open bucket between the two bookends. -/

theorem accLo_spec (t : List Nat) (dcV : Nat) (lo : Option Nat)
    (zLo : List Nat)
    (hloLt : ∀ x, lo = some x → x < t.length)
    (hzLo : ∀ x, lo = some x → zLo = zArrayOf t x dcV)
    (a : AccState) (n : Nat) (hn : n < t.length)
    (hskipL : ∀ x, lo = some x → n ≠ x)
    (hIL : ∀ x, lo = some x → CmpInv t x a.stLo)
    (hjL : a.stLo.j < (n : Int)) :
    ((accLo t dcV (dcOf t dcV) lo zLo a n).bucket =
      a.bucket ++ (if inBucket t lo none n then [n] else [])) ∧
    ((accLo t dcV (dcOf t dcV) lo zLo a n).stHi = a.stHi) ∧
    (∀ x, lo = some x →
      CmpInv t x (accLo t dcV (dcOf t dcV) lo zLo a n).stLo) ∧
    ((accLo t dcV (dcOf t dcV) lo zLo a n).stLo.j < (((n + 1 : Nat)) : Int)) := by
  rcases lo with _ | l0
  · simp only [accLo]
    refine ⟨by simp [inBucket], by trivial, ?_, ?_⟩
    · intro x hx
      exact absurd hx (by simp)
    · show a.stLo.j < (((n + 1 : Nat)) : Int)
      omega
  · have hl0lt : l0 < t.length := hloLt l0 rfl
    have hne : n ≠ l0 := hskipL l0 rfl
    simp only [accLo, hzLo l0 rfl]
    have hs := suffixCmp_sound t dcV l0 n a.stLo (hIL l0 rfl)
      (by exact_mod_cast hjL) hn hl0lt hne
    rcases hrv : (suffixCmp t dcV (dcOf t dcV) l0 (zArrayOf t l0 dcV) n a.stLo).1
      with _ | _
    · simp only [hrv, Bool.false_eq_true, if_false]
      have hlt : sufLt t l0 n = true := by
        have h1 : sufLt t n l0 = false := by rw [← hs.1, hrv]
        rcases sufLt_total t n l0 (by omega) (by omega) hne with h | h
        · rw [h1] at h
          exact absurd h (by simp)
        · exact h
      have hp : inBucket t (some l0) none n = true := by
        simp [inBucket, hne, hlt]
      refine ⟨by rw [hp]; simp, by trivial, ?_, ?_⟩
      · intro x hx
        injection hx with hx
        subst hx
        exact hs.2.1
      · show (suffixCmp t dcV (dcOf t dcV) l0 (zArrayOf t l0 dcV) n a.stLo).2.j <
          (((n + 1 : Nat)) : Int)
        have := hs.2.2
        omega
    · simp only [hrv, if_true]
      have hlt : sufLt t n l0 = true := by rw [← hs.1, hrv]
      have hp : inBucket t (some l0) none n = false := by
        have hf : sufLt t l0 n = false := sufLt_asymm t n l0 hlt
        simp [inBucket, hf]
      refine ⟨by rw [hp]; simp, by trivial, ?_, ?_⟩
      · intro x hx
        injection hx with hx
        subst hx
        exact hs.2.1
      · show (suffixCmp t dcV (dcOf t dcV) l0 (zArrayOf t l0 dcV) n a.stLo).2.j <
          (((n + 1 : Nat)) : Int)
        have := hs.2.2
        omega

theorem accStep_spec (t : List Nat) (dcV : Nat) (lo hi : Option Nat)
    (zLo zHi : List Nat)
    (hloLt : ∀ x, lo = some x → x < t.length)
    (hhiLt : ∀ x, hi = some x → x < t.length)
    (hzLo : ∀ x, lo = some x → zLo = zArrayOf t x dcV)
    (hzHi : ∀ x, hi = some x → zHi = zArrayOf t x dcV)
    (a : AccState) (n : Nat) (hn : n < t.length)
    (hIH : ∀ x, hi = some x → CmpInv t x a.stHi)
    (hIL : ∀ x, lo = some x → CmpInv t x a.stLo)
    (hjH : a.stHi.j < (n : Int)) (hjL : a.stLo.j < (n : Int)) :
    ((accStep t dcV (dcOf t dcV) lo hi zLo zHi a n).bucket =
      a.bucket ++ (if inBucket t lo hi n then [n] else [])) ∧
    (∀ x, hi = some x →
      CmpInv t x (accStep t dcV (dcOf t dcV) lo hi zLo zHi a n).stHi) ∧
    (∀ x, lo = some x →
      CmpInv t x (accStep t dcV (dcOf t dcV) lo hi zLo zHi a n).stLo) ∧
    ((accStep t dcV (dcOf t dcV) lo hi zLo zHi a n).stHi.j <
      (((n + 1 : Nat)) : Int)) ∧
    ((accStep t dcV (dcOf t dcV) lo hi zLo zHi a n).stLo.j <
      (((n + 1 : Nat)) : Int)) := by
  by_cases hskip : (some n = hi ∨ some n = lo)
  · have hpn : inBucket t lo hi n = false := by
      rcases hskip with h | h
      · simp [inBucket, ← h]
      · rcases hi with _ | h0 <;> simp [inBucket, ← h]
    simp only [accStep, if_pos hskip, hpn]
    refine ⟨by simp, hIH, hIL, by omega, by omega⟩
  · push_neg at hskip
    have hskipL : ∀ x, lo = some x → n ≠ x := by
      intro x hx hnx
      exact hskip.2 (by rw [hx, hnx])
    have hskip' : ¬ (some n = hi ∨ some n = lo) := by
      push_neg
      exact hskip
    rcases hi with _ | h
    · simp only [accStep, if_neg hskip']
      have hacc := accLo_spec t dcV lo zLo hloLt hzLo a n hn hskipL hIL hjL
      refine ⟨?_, ?_, hacc.2.2.1, ?_, hacc.2.2.2⟩
      · rw [hacc.1]
      · intro x hx
        exact absurd hx (by simp)
      · rw [hacc.2.1]
        omega
    · have hne : n ≠ h := by
        intro hnx
        exact hskip.1 (by rw [hnx])
      have hhlt : h < t.length := hhiLt h rfl
      simp only [accStep, if_neg hskip', hzHi h rfl]
      have hs := suffixCmp_sound t dcV h n a.stHi (hIH h rfl)
        (by exact_mod_cast hjH) hn hhlt hne
      rcases hrv : (suffixCmp t dcV (dcOf t dcV) h (zArrayOf t h dcV) n a.stHi).1
        with _ | _
      · simp only [hrv, Bool.false_eq_true, if_false]
        have hltf : sufLt t n h = false := by rw [← hs.1, hrv]
        have hpn : inBucket t lo (some h) n = false := by
          simp [inBucket, hltf]
        rw [hpn]
        refine ⟨by simp, ?_, hIL, ?_, by omega⟩
        · intro x hx
          injection hx with hx
          subst hx
          exact hs.2.1
        · show (suffixCmp t dcV (dcOf t dcV) h (zArrayOf t h dcV) n a.stHi).2.j <
            (((n + 1 : Nat)) : Int)
          have := hs.2.2
          omega
      · simp only [hrv, if_true]
        have hltt : sufLt t n h = true := by rw [← hs.1, hrv]
        have hacc := accLo_spec t dcV lo zLo hloLt hzLo
          ⟨a.bucket, (suffixCmp t dcV (dcOf t dcV) h (zArrayOf t h dcV) n a.stHi).2,
            a.stLo⟩ n hn hskipL hIL hjL
        refine ⟨?_, ?_, hacc.2.2.1, ?_, hacc.2.2.2⟩
        · rw [hacc.1]
          have heq : inBucket t lo (some h) n = inBucket t lo none n := by
            simp [inBucket, hne, hltt]
          rw [heq]
        · intro x hx
          injection hx with hx
          subst hx
          rw [hacc.2.1]
          exact hs.2.1
        · rw [hacc.2.1]
          show (suffixCmp t dcV (dcOf t dcV) h (zArrayOf t h dcV) n a.stHi).2.j <
            (((n + 1 : Nat)) : Int)
          have := hs.2.2
          omega

theorem accLoop_spec (t : List Nat) (dcV : Nat) (lo hi : Option Nat)
    (zLo zHi : List Nat)
    (hloLt : ∀ x, lo = some x → x < t.length)
    (hhiLt : ∀ x, hi = some x → x < t.length)
    (hzLo : ∀ x, lo = some x → zLo = zArrayOf t x dcV)
    (hzHi : ∀ x, hi = some x → zHi = zArrayOf t x dcV) :
    (accLoop t dcV (dcOf t dcV) lo hi zLo zHi).bucket =
      (List.range t.length).filter (inBucket t lo hi) := by
  suffices main : ∀ n, n ≤ t.length →
      (((List.range n).foldl (accStep t dcV (dcOf t dcV) lo hi zLo zHi)
          ⟨[], ⟨-1, -1, false⟩, ⟨-1, -1, false⟩⟩).bucket =
        (List.range n).filter (inBucket t lo hi)) ∧
      (∀ x, hi = some x → CmpInv t x
        ((List.range n).foldl (accStep t dcV (dcOf t dcV) lo hi zLo zHi)
          ⟨[], ⟨-1, -1, false⟩, ⟨-1, -1, false⟩⟩).stHi) ∧
      (∀ x, lo = some x → CmpInv t x
        ((List.range n).foldl (accStep t dcV (dcOf t dcV) lo hi zLo zHi)
          ⟨[], ⟨-1, -1, false⟩, ⟨-1, -1, false⟩⟩).stLo) ∧
      (((List.range n).foldl (accStep t dcV (dcOf t dcV) lo hi zLo zHi)
          ⟨[], ⟨-1, -1, false⟩, ⟨-1, -1, false⟩⟩).stHi.j < ((n : Nat) : Int)) ∧
      (((List.range n).foldl (accStep t dcV (dcOf t dcV) lo hi zLo zHi)
          ⟨[], ⟨-1, -1, false⟩, ⟨-1, -1, false⟩⟩).stLo.j < ((n : Nat) : Int)) by
    exact (main t.length le_rfl).1
  intro n
  induction n with
  | zero =>
    intro _
    refine ⟨rfl, ?_, ?_, ?_, ?_⟩
    · intro x _
      exact Or.inl ⟨rfl, rfl, rfl⟩
    · intro x _
      exact Or.inl ⟨rfl, rfl, rfl⟩
    · show (-1 : Int) < ((0 : Nat) : Int)
      decide
    · show (-1 : Int) < ((0 : Nat) : Int)
      decide
  | succ n ih =>
    intro hn1
    have hn : n < t.length := by omega
    obtain ⟨hb, hIH, hIL, hjH, hjL⟩ := ih (by omega)
    rw [List.range_succ, List.foldl_append, List.foldl_cons, List.foldl_nil,
      List.filter_append]
    have hstep := accStep_spec t dcV lo hi zLo zHi hloLt hhiLt hzLo hzHi
      ((List.range n).foldl (accStep t dcV (dcOf t dcV) lo hi zLo zHi)
        ⟨[], ⟨-1, -1, false⟩, ⟨-1, -1, false⟩⟩) n hn hIH hIL hjH hjL
    refine ⟨?_, hstep.2.1, hstep.2.2.1, hstep.2.2.2.1, hstep.2.2.2.2⟩
    rw [hstep.1, hb]
    congr 1
    rcases hq : inBucket t lo hi n with _ | _
    · simp [List.filter_cons, hq]
    · simp [List.filter_cons, hq]

/-! The insertion sort modelling the sorting routines, and the
adjacent-duplicate removal. -/

theorem insertBy_perm (lt : Nat → Nat → Bool) (x : Nat) (l : List Nat) :
    (insertBy lt x l).Perm (x :: l) := by
  induction l with
  | nil => simp [insertBy]
  | cons y ys ih =>
    by_cases h : lt x y = true
    · simp [insertBy, h]
    · have h' : lt x y = false := by
        rcases hq : lt x y
        · rfl
        · exact absurd hq h
      simp only [insertBy, h', Bool.false_eq_true, if_false]
      exact (List.Perm.cons y ih).trans (List.Perm.swap x y ys)

theorem insSort_perm (lt : Nat → Nat → Bool) (l : List Nat) :
    (insSort lt l).Perm l := by
  induction l with
  | nil => simp [insSort]
  | cons x xs ih =>
    exact (insertBy_perm lt x (insSort lt xs)).trans (List.Perm.cons x ih)

theorem insertBy_mem (lt : Nat → Nat → Bool) (x a : Nat) (l : List Nat) :
    a ∈ insertBy lt x l ↔ a = x ∨ a ∈ l := by
  rw [(insertBy_perm lt x l).mem_iff]
  simp

theorem insertBy_pairwise (lt : Nat → Nat → Bool)
    (hasym : ∀ a b, lt a b = true → lt b a = false)
    (htr : ∀ a b c, lt a b = true → lt b c = true → lt a c = true)
    (x : Nat) (l : List Nat)
    (hl : l.Pairwise (fun a b => lt b a = false)) :
    (insertBy lt x l).Pairwise (fun a b => lt b a = false) := by
  induction l with
  | nil => simp [insertBy]
  | cons y ys ih =>
    rcases List.pairwise_cons.mp hl with ⟨hy, hys⟩
    by_cases h : lt x y = true
    · simp only [insertBy, h, if_true]
      refine List.pairwise_cons.mpr ⟨?_, hl⟩
      intro z hz
      rcases List.mem_cons.mp hz with rfl | hz
      · exact hasym x z h
      · rcases hq : lt z x with _ | _
        · rfl
        · exfalso
          have hzy : lt z y = true := htr z x y hq h
          have := hy z hz
          rw [this] at hzy
          exact absurd hzy (by simp)
    · have h' : lt x y = false := by
        rcases hq : lt x y
        · rfl
        · exact absurd hq h
      simp only [insertBy, h', Bool.false_eq_true, if_false]
      refine List.pairwise_cons.mpr ⟨?_, ih hys⟩
      intro z hz
      rcases (insertBy_mem lt x z ys).mp hz with hz | hz
      · rw [hz]
        exact h'
      · exact hy z hz

theorem insSort_pairwise (lt : Nat → Nat → Bool)
    (hasym : ∀ a b, lt a b = true → lt b a = false)
    (htr : ∀ a b c, lt a b = true → lt b c = true → lt a c = true)
    (l : List Nat) :
    (insSort lt l).Pairwise (fun a b => lt b a = false) := by
  induction l with
  | nil => simp [insSort]
  | cons x xs ih =>
    exact insertBy_pairwise lt hasym htr x (insSort lt xs) ih

theorem sortSuffixes_perm (t : List Nat) (l : List Nat) :
    (sortSuffixes t l).Perm l :=
  insSort_perm _ l

theorem sortSuffixes_pairwise (t : List Nat) (l : List Nat)
    (hle : ∀ x ∈ l, x ≤ t.length) (hnd : l.Nodup) :
    (sortSuffixes t l).Pairwise (fun a b => sufLt t a b = true) := by
  have hp := insSort_pairwise (fun a b => sufLt t a b)
    (fun a b h => sufLt_asymm t a b h)
    (fun a b c h1 h2 => sufLt_trans t a b c h1 h2) l
  have hnd' : (sortSuffixes t l).Nodup := (sortSuffixes_perm t l).nodup_iff.mpr hnd
  have hle' : ∀ x ∈ sortSuffixes t l, x ≤ t.length := by
    intro x hx
    exact hle x ((sortSuffixes_perm t l).mem_iff.mp hx)
  have hcomb := List.Pairwise.and hp hnd'
  refine hcomb.imp_of_mem ?_
  intro a b ha hb hab
  rcases sufLt_total t a b (hle' a ha) (hle' b hb) hab.2 with h | h
  · exact h
  · rw [hab.1] at h
    exact absurd h (by simp)

theorem dedupAdj_subset (l : List Nat) : dedupAdj l ⊆ l := by
  have key : ∀ n (l : List Nat), l.length ≤ n → dedupAdj l ⊆ l := by
    intro n
    induction n with
    | zero =>
      intro l hl
      have : l = [] := List.length_eq_zero.mp (by omega)
      subst this
      simp [dedupAdj]
    | succ n ih =>
      intro l hl
      match l with
      | [] => simp [dedupAdj]
      | [x] => simp [dedupAdj]
      | x :: y :: r =>
        by_cases hxy : x = y
        · rw [show dedupAdj (x :: y :: r) = dedupAdj (y :: r) from by
            simp [dedupAdj, hxy]]
          intro a ha
          have hmem := ih (y :: r) (by simp at hl ⊢; omega) ha
          rcases List.mem_cons.mp hmem with rfl | h
          · simp
          · simp [h]
        · rw [show dedupAdj (x :: y :: r) = x :: dedupAdj (y :: r) from by
            simp [dedupAdj, hxy]]
          intro a ha
          rcases List.mem_cons.mp ha with rfl | ha
          · simp
          · have hmem := ih (y :: r) (by simp at hl ⊢; omega) ha
            simp only [List.mem_cons] at hmem ⊢
            tauto
  exact key l.length l le_rfl

theorem dedupAdj_sorted_strict (l : List Nat)
    (hl : l.Pairwise (fun a b => a ≤ b)) :
    (dedupAdj l).Pairwise (fun a b => a < b) := by
  have key : ∀ n (l : List Nat), l.length ≤ n →
      l.Pairwise (fun a b => a ≤ b) →
      (dedupAdj l).Pairwise (fun a b => a < b) := by
    intro n
    induction n with
    | zero =>
      intro l hl _
      have : l = [] := List.length_eq_zero.mp (by omega)
      subst this
      simp [dedupAdj]
    | succ n ih =>
      intro l hlen hsor
      match l with
      | [] => simp [dedupAdj]
      | [x] => simp [dedupAdj]
      | x :: y :: r =>
        rcases List.pairwise_cons.mp hsor with ⟨hx, hyr⟩
        by_cases hxy : x = y
        · rw [show dedupAdj (x :: y :: r) = dedupAdj (y :: r) from by
            simp [dedupAdj, hxy]]
          exact ih (y :: r) (by simp at hlen ⊢; omega) hyr
        · rw [show dedupAdj (x :: y :: r) = x :: dedupAdj (y :: r) from by
            simp [dedupAdj, hxy]]
          refine List.pairwise_cons.mpr ⟨?_, ih (y :: r) (by simp at hlen ⊢; omega) hyr⟩
          intro z hz
          have hz' : z ∈ y :: r := dedupAdj_subset (y :: r) hz
          have hxz : x ≤ z := hx z hz'
          rcases List.mem_cons.mp hz' with rfl | hz'
          · have hxyle : x ≤ z := hx z (by simp)
            omega
          · have : y ≤ z := (List.pairwise_cons.mp hyr).1 z hz'
            have hxyle : x ≤ y := hx y (by simp)
            rcases Nat.lt_or_ge x z with hc | hc
            · exact hc
            · have hxz' : x = z := by omega
              subst hxz'
              have : x = y := by omega
              exact absurd this hxy
  exact key l.length l le_rfl hl

/-! Position bookkeeping on a lexicographically sorted sample list:
the bucket index of an offset counts the samples whose suffix
precedes it. -/

theorem getD_eq_get (l : List Nat) (p : Nat) (hp : p < l.length) :
    l.getD p 0 = l.get ⟨p, hp⟩ := by
  rw [List.getD_eq_getElem l 0 hp, List.get_eq_getElem]

theorem sorted_get_lt (t : List Nat) (ss : List Nat)
    (hsor : List.Pairwise (fun a b => sufLt t a b = true) ss)
    (p q : Nat) (hp : p < ss.length) (hq : q < ss.length) (hpq : p < q) :
    sufLt t (ss.get ⟨p, hp⟩) (ss.get ⟨q, hq⟩) = true :=
  (List.pairwise_iff_get.mp hsor) ⟨p, hp⟩ ⟨q, hq⟩ (Fin.mk_lt_mk.mpr hpq)

theorem bucketOf_spec (t : List Nat) (ss : List Nat)
    (hsor : List.Pairwise (fun a b => sufLt t a b = true) ss)
    (hlt : ∀ x ∈ ss, x < t.length)
    (r : Nat) (hr : r ≤ t.length) (hrne : r ∉ ss) :
    bucketOf t ss r ≤ ss.length ∧
    (∀ p (hp : p < ss.length), p < bucketOf t ss r →
      sufLt t (ss.get ⟨p, hp⟩) r = true) ∧
    (∀ p (hp : p < ss.length), bucketOf t ss r ≤ p →
      sufLt t r (ss.get ⟨p, hp⟩) = true) := by
  induction ss with
  | nil =>
    refine ⟨by simp [bucketOf], ?_, ?_⟩ <;> intro p hp <;> simp at hp
  | cons y ys ih =>
    rcases List.pairwise_cons.mp hsor with ⟨hy, hys⟩
    have hylen : y < t.length := hlt y (by simp)
    have hyne : y ≠ r := by
      intro h
      exact hrne (by simp [h])
    have hrys : r ∉ ys := fun h => hrne (by simp [h])
    have hltys : ∀ x ∈ ys, x < t.length := fun x hx => hlt x (by simp [hx])
    have hbo : bucketOf t (y :: ys) r =
        bucketOf t ys r + if sufLt t y r = true then 1 else 0 := by
      simp [bucketOf, List.countP_cons]
    by_cases hy0 : sufLt t y r = true
    · obtain ⟨ih1, ih2, ih3⟩ := ih hys hltys hrys
      rw [hbo, if_pos hy0]
      refine ⟨by simp; omega, ?_, ?_⟩
      · intro p hp hplt
        match p with
        | 0 => exact hy0
        | p + 1 =>
          exact ih2 p (by simpa using hp) (by omega)
      · intro p hp hge
        match p with
        | 0 => omega
        | p + 1 =>
          exact ih3 p (by simpa using hp) (by omega)
    · have hry : sufLt t r y = true := by
        rcases sufLt_total t r y hr (by omega) (Ne.symm hyne) with h | h
        · exact h
        · rw [h] at hy0
          exact absurd rfl hy0
      have hzero : bucketOf t (y :: ys) r = 0 := by
        simp only [bucketOf]
        rw [List.countP_eq_zero]
        intro z hz
        rcases List.mem_cons.mp hz with rfl | hz
        · exact hy0
        · intro hcon
          have : sufLt t y r = true :=
            sufLt_trans t y z r (hy z hz) (by simpa using hcon)
          exact hy0 this
      rw [hzero]
      refine ⟨by omega, by intro p hp h0; omega, ?_⟩
      intro p hp _
      match p with
      | 0 => exact hry
      | p + 1 =>
        have hyz : sufLt t y (ys.get ⟨p, by simpa using hp⟩) = true :=
          hy _ (List.get_mem ys p (by simpa using hp))
        exact sufLt_trans t r y _ hry hyz

theorem bucketOf_get (t : List Nat) (ss : List Nat)
    (hsor : List.Pairwise (fun a b => sufLt t a b = true) ss) :
    ∀ p (hp : p < ss.length), bucketOf t ss (ss.get ⟨p, hp⟩) = p := by
  induction ss with
  | nil =>
    intro p hp
    simp at hp
  | cons y ys ih =>
    rcases List.pairwise_cons.mp hsor with ⟨hy, hys⟩
    intro p hp
    match p with
    | 0 =>
      show List.countP (fun s => sufLt t s y) (y :: ys) = 0
      rw [List.countP_eq_zero]
      intro z hz
      rcases List.mem_cons.mp hz with rfl | hz
      · rw [sufLt_irrefl]
        simp
      · intro hcon
        have := sufLt_asymm t y z (hy z hz)
        rw [this] at hcon
        exact absurd hcon (by simp)
    | p + 1 =>
      have hp' : p < ys.length := by simpa using hp
      have hx := List.get_mem ys p hp'
      show List.countP (fun s => sufLt t s (ys.get ⟨p, hp'⟩)) (y :: ys) = p + 1
      rw [List.countP_cons]
      have hyx : sufLt t y (ys.get ⟨p, hp'⟩) = true := hy _ hx
      rw [if_pos (by simpa using hyx)]
      have := ih hys p hp'
      simp only [bucketOf] at this
      omega

theorem inBucket_iff (t : List Nat) (ss : List Nat) (hP : PassInv t ss)
    (i : Nat) (hi : i < t.length) (k : Nat) (hk : k ≤ ss.length) :
    inBucket t (loOf ss k) (hiOf ss k) i = true ↔
      (i ∉ ss ∧ bucketOf t ss i = k) := by
  obtain ⟨hsor, hlt⟩ := hP
  constructor
  · intro hib
    have hparts : (∀ hks : k < ss.length,
        i ≠ ss.get ⟨k, hks⟩ ∧ sufLt t i (ss.get ⟨k, hks⟩) = true) ∧
        (∀ hk0 : 0 < k,
        i ≠ ss.get ⟨k - 1, by omega⟩ ∧
          sufLt t (ss.get ⟨k - 1, by omega⟩) i = true) := by
      constructor
      · intro hks
        have hne : k ≠ ss.length := by omega
        have : inBucket t (loOf ss k) (some (ss.getD k 0)) i = true := by
          rw [show (some (ss.getD k 0)) = hiOf ss k from by
            simp [hiOf, hne]]
          exact hib
        simp only [inBucket, Bool.and_eq_true] at this
        rcases this with ⟨h1, _⟩
        rw [getD_eq_get ss k hks] at h1
        simp only [Bool.and_eq_true, decide_eq_true_eq] at h1
        exact h1
      · intro hk0
        have hne : k ≠ 0 := by omega
        have : inBucket t (some (ss.getD (k - 1) 0)) (hiOf ss k) i = true := by
          rw [show (some (ss.getD (k - 1) 0)) = loOf ss k from by
            simp [loOf, hne]]
          exact hib
        simp only [inBucket, Bool.and_eq_true] at this
        rcases this with ⟨_, h2⟩
        rw [getD_eq_get ss (k - 1) (by omega)] at h2
        simp only [Bool.and_eq_true, decide_eq_true_eq] at h2
        exact h2
    have hnm : i ∉ ss := by
      intro hmem
      obtain ⟨⟨m, hm⟩, hgm⟩ := List.mem_iff_get.mp hmem
      have hmk : m < k := by
        by_cases hks : k < ss.length
        · obtain ⟨hne1, hlt1⟩ := hparts.1 hks
          by_contra hge
          push_neg at hge
          rcases Nat.eq_or_lt_of_le hge with heq | hltk
          · apply hne1
            rw [← hgm]
            have hkm : (⟨m, hm⟩ : Fin ss.length) = ⟨k, hks⟩ :=
              Fin.mk_eq_mk.mpr (by omega)
            rw [hkm]
          · have := sorted_get_lt t ss hsor k m hks hm hltk
            rw [hgm] at this
            have := sufLt_asymm t _ _ this
            rw [hlt1] at this
            exact absurd this (by simp)
        · omega
      have hmk2 : ¬ m < k := by
        intro hmltk
        have hk0 : 0 < k := by omega
        obtain ⟨hne2, hlt2⟩ := hparts.2 hk0
        rcases Nat.eq_or_lt_of_le (Nat.le_sub_one_of_lt hmltk) with heq | hltm
        · apply hne2
          rw [← hgm]
          have hkm : (⟨m, hm⟩ : Fin ss.length) = ⟨k - 1, by omega⟩ :=
            Fin.mk_eq_mk.mpr (by omega)
          rw [hkm]
        · have := sorted_get_lt t ss hsor m (k - 1) hm (by omega) (by omega)
          rw [hgm] at this
          have := sufLt_asymm t _ _ this
          rw [hlt2] at this
          exact absurd this (by simp)
      exact hmk2 hmk
    obtain ⟨hble, hfst, hsnd⟩ :=
      bucketOf_spec t ss hsor hlt i (by omega) hnm
    refine ⟨hnm, ?_⟩
    have hge : k ≤ bucketOf t ss i := by
      by_cases hk0 : 0 < k
      · obtain ⟨_, hlt2⟩ := hparts.2 hk0
        by_contra hcon
        push_neg at hcon
        have := hsnd (k - 1) (by omega) (by omega)
        have h2 := sufLt_asymm t _ _ this
        rw [hlt2] at h2
        exact absurd h2 (by simp)
      · omega
    have hle : bucketOf t ss i ≤ k := by
      by_cases hks : k < ss.length
      · obtain ⟨_, hlt1⟩ := hparts.1 hks
        by_contra hcon
        push_neg at hcon
        have := hfst k hks (by omega)
        have h2 := sufLt_asymm t _ _ this
        rw [hlt1] at h2
        exact absurd h2 (by simp)
      · omega
    omega
  · rintro ⟨hnm, hbk⟩
    obtain ⟨hble, hfst, hsnd⟩ :=
      bucketOf_spec t ss hsor hlt i (by omega) hnm
    simp only [inBucket, Bool.and_eq_true]
    constructor
    · by_cases hks : k = ss.length
      · simp [hiOf, hks]
      · have hklt : k < ss.length := by omega
        simp only [hiOf, if_neg hks]
        rw [getD_eq_get ss k hklt]
        have h1 := hsnd k hklt (by omega)
        have h2 : i ≠ ss.get ⟨k, hklt⟩ := by
          intro h
          exact hnm (h ▸ List.get_mem ss k hklt)
        simp only [Bool.and_eq_true, decide_eq_true_eq]
        exact ⟨h2, h1⟩
    · by_cases hk0 : k = 0
      · simp [loOf, hk0]
      · simp only [loOf, if_neg hk0]
        rw [getD_eq_get ss (k - 1) (by omega)]
        have h1 := hfst (k - 1) (by omega) (by omega)
        have h2 : i ≠ ss.get ⟨k - 1, by omega⟩ := by
          intro h
          exact hnm (h ▸ List.get_mem ss (k - 1) (by omega))
        simp only [Bool.and_eq_true, decide_eq_true_eq]
        exact ⟨h2, h1⟩

/-! Content of the bucket assembled by nextBlock. -/

theorem boundOf_lt (t ss : List Nat) (k : Nat) (hP : PassInv t ss)
    (hk : k < ss.length) : boundOf t ss k = ss.getD k 0 ∧
      boundOf t ss k ∈ ss ∧ boundOf t ss k < t.length := by
  have hne : k ≠ ss.length := by omega
  have hb : boundOf t ss k = ss.getD k 0 := by
    simp [boundOf, hiOf, hne]
  have hmem : ss.getD k 0 ∈ ss := by
    rw [getD_eq_get ss k hk]
    exact List.get_mem ss k hk
  exact ⟨hb, by rw [hb]; exact hmem, by rw [hb]; exact hP.2 _ hmem⟩

theorem boundOf_last (t ss : List Nat) : boundOf t ss ss.length = t.length := by
  simp [boundOf, hiOf]

theorem blockAt_eq (t : List Nat) (dcV : Nat) (ss : List Nat) (k : Nat)
    (hP : PassInv t ss) (hk : k ≤ ss.length) :
    blockAt t dcV ss k =
      sortSuffixes t ((List.range t.length).filter
        (inBucket t (loOf ss k) (hiOf ss k))) ++ [boundOf t ss k] := by
  by_cases h0 : ss.length = 0
  · have hss : ss = [] := List.length_eq_zero.mp h0
    subst hss
    have hk0 : k = 0 := by simpa using hk
    subst hk0
    simp only [blockAt, List.length_nil, if_pos rfl]
    have hfil : (List.range t.length).filter (inBucket t (loOf [] 0) (hiOf [] 0)) =
        List.range t.length := by
      rw [List.filter_eq_self]
      intro a _
      simp [inBucket, loOf, hiOf]
    rw [hfil]
    rfl
  · simp only [blockAt, if_neg h0]
    congr 1
    congr 1
    apply accLoop_spec
    · intro x hx
      simp only [loOf] at hx
      by_cases hkk : k = 0
      · rw [if_pos hkk] at hx
        exact absurd hx (by simp)
      · rw [if_neg hkk] at hx
        injection hx with hx
        subst hx
        have hmem : ss.getD (k - 1) 0 ∈ ss := by
          rw [getD_eq_get ss (k - 1) (by omega)]
          exact List.get_mem _ _ _
        exact hP.2 _ hmem
    · intro x hx
      simp only [hiOf] at hx
      by_cases hkk : k = ss.length
      · rw [if_pos hkk] at hx
        exact absurd hx (by simp)
      · rw [if_neg hkk] at hx
        injection hx with hx
        subst hx
        have hmem : ss.getD k 0 ∈ ss := by
          rw [getD_eq_get ss k (by omega)]
          exact List.get_mem _ _ _
        exact hP.2 _ hmem
    · intro x hx
      rw [hx]
    · intro x hx
      rw [hx]

theorem blockAt_bucket_mem (t : List Nat) (_dcV : Nat) (ss : List Nat)
    (k : Nat) (hP : PassInv t ss) (hk : k ≤ ss.length) (x : Nat) :
    (x ∈ sortSuffixes t ((List.range t.length).filter
        (inBucket t (loOf ss k) (hiOf ss k))) ↔
      (x < t.length ∧ x ∉ ss ∧ bucketOf t ss x = k)) := by
  rw [(sortSuffixes_perm t _).mem_iff, List.mem_filter, List.mem_range]
  constructor
  · rintro ⟨hxr, hxb⟩
    have := (inBucket_iff t ss hP x hxr k hk).mp hxb
    exact ⟨hxr, this.1, this.2⟩
  · rintro ⟨hxr, hnm, hbk⟩
    exact ⟨hxr, (inBucket_iff t ss hP x hxr k hk).mpr ⟨hnm, hbk⟩⟩

theorem blockAt_mem (t : List Nat) (dcV : Nat) (ss : List Nat) (k : Nat)
    (hP : PassInv t ss) (hk : k ≤ ss.length) (x : Nat) :
    x ∈ blockAt t dcV ss k ↔
      ((x < t.length ∧ x ∉ ss ∧ bucketOf t ss x = k) ∨ x = boundOf t ss k) := by
  rw [blockAt_eq t dcV ss k hP hk, List.mem_append,
    blockAt_bucket_mem t dcV ss k hP hk x]
  simp

theorem blockAt_pairwise (t : List Nat) (dcV : Nat) (ss : List Nat)
    (k : Nat) (hP : PassInv t ss) (hk : k ≤ ss.length) :
    (blockAt t dcV ss k).Pairwise (fun a b => sufLt t a b = true) := by
  rw [blockAt_eq t dcV ss k hP hk]
  rw [List.pairwise_append]
  refine ⟨?_, by simp, ?_⟩
  · apply sortSuffixes_pairwise
    · intro x hx
      have := List.mem_range.mp (List.mem_filter.mp hx).1
      omega
    · exact ((List.nodup_range t.length).filter _)
  · intro a ha b hb
    have hbb : b = boundOf t ss k := by simpa using hb
    subst hbb
    have hmem := (blockAt_bucket_mem t dcV ss k hP hk a).mp ha
    obtain ⟨halen, hanm, habk⟩ := hmem
    by_cases hke : k = ss.length
    · subst hke
      rw [boundOf_last]
      exact sufLt_len t a halen
    · have hklt : k < ss.length := by omega
      obtain ⟨hbeq, _, _⟩ := boundOf_lt t ss k hP hklt
      rw [hbeq, getD_eq_get ss k hklt]
      obtain ⟨_, _, hsnd⟩ :=
        bucketOf_spec t ss hP.1 hP.2 a (by omega) hanm
      exact hsnd k hklt (by omega)

theorem blockAt_ne_nil (t : List Nat) (dcV : Nat) (ss : List Nat)
    (k : Nat) : blockAt t dcV ss k ≠ [] := by
  by_cases h0 : ss.length = 0
  · simp [blockAt, h0]
  · simp [blockAt, h0]

theorem fullBlocks_pairwise (t : List Nat) (dcV : Nat) (ss : List Nat)
    (hP : PassInv t ss) :
    (fullBlocks t dcV ss).Pairwise (fun a b => sufLt t a b = true) := by
  unfold fullBlocks
  rw [List.pairwise_flatten]
  constructor
  · intro l hl
    obtain ⟨k, hkmem, hkeq⟩ := List.mem_map.mp hl
    subst hkeq
    exact blockAt_pairwise t dcV ss k hP (by
      have := List.mem_range.mp hkmem
      omega)
  · rw [List.pairwise_map]
    have hbase := List.pairwise_lt_range (ss.length + 1)
    refine hbase.imp_of_mem ?_
    intro k m hkmem hmmem hkm
    have hkr : k < ss.length + 1 := List.mem_range.mp hkmem
    have hmr : m < ss.length + 1 := List.mem_range.mp hmmem
    intro x hx y hy
    have hklt : k < ss.length := by omega
    obtain ⟨hbeq, hbmem, hblen⟩ := boundOf_lt t ss k hP hklt
    have hxfacts : (x < t.length ∧ x ∉ ss ∧ bucketOf t ss x = k) ∨
        x = boundOf t ss k :=
      (blockAt_mem t dcV ss k hP (by omega) x).mp hx
    -- x either is the upper sample of bucket k or strictly precedes it
    have hxle : x = ss.get ⟨k, hklt⟩ ∨ sufLt t x (ss.get ⟨k, hklt⟩) = true := by
      rcases hxfacts with ⟨h1, h2, h3⟩ | h1
      · right
        obtain ⟨_, _, hsnd⟩ := bucketOf_spec t ss hP.1 hP.2 x (by omega) h2
        exact hsnd k hklt (by omega)
      · left
        rw [h1, hbeq, getD_eq_get ss k hklt]
    -- the upper sample of bucket k strictly precedes everything in block m
    have hy2 : sufLt t (ss.get ⟨k, hklt⟩) y = true := by
      have hyfacts := (blockAt_mem t dcV ss m hP (by omega) y).mp hy
      rcases hyfacts with ⟨h1, h2, h3⟩ | h1
      · obtain ⟨_, hfst, _⟩ := bucketOf_spec t ss hP.1 hP.2 y (by omega) h2
        exact hfst k hklt (by omega)
      · by_cases hme : m = ss.length
        · rw [h1, hme, boundOf_last]
          apply sufLt_len
          exact hP.2 _ (List.get_mem ss k hklt)
        · have hmlt : m < ss.length := by omega
          obtain ⟨hbeqm, _, _⟩ := boundOf_lt t ss m hP hmlt
          rw [h1, hbeqm, getD_eq_get ss m hmlt]
          exact sorted_get_lt t ss hP.1 k m hklt hmlt hkm
    rcases hxle with heq | hxlt
    · rw [heq]
      exact hy2
    · exact sufLt_trans t x _ y hxlt hy2

theorem fullBlocks_nodup (t : List Nat) (dcV : Nat) (ss : List Nat)
    (hP : PassInv t ss) : (fullBlocks t dcV ss).Nodup := by
  have hpw := fullBlocks_pairwise t dcV ss hP
  refine hpw.imp ?_
  intro a b hab heq
  subst heq
  rw [sufLt_irrefl] at hab
  exact absurd hab (by simp)

theorem fullBlocks_perm (t : List Nat) (dcV : Nat) (ss : List Nat)
    (hP : PassInv t ss) :
    (fullBlocks t dcV ss).Perm (List.range (t.length + 1)) := by
  apply List.Subperm.antisymm
  · apply List.subperm_of_subset (fullBlocks_nodup t dcV ss hP)
    intro x hx
    obtain ⟨l, hl, hxl⟩ := List.mem_flatten.mp hx
    obtain ⟨k, hkmem, hkeq⟩ := List.mem_map.mp hl
    subst hkeq
    have hk : k ≤ ss.length := by
      have := List.mem_range.mp hkmem
      omega
    have := (blockAt_mem t dcV ss k hP hk x).mp hxl
    rw [List.mem_range]
    rcases this with ⟨h1, _, _⟩ | h1
    · omega
    · by_cases hke : k = ss.length
      · rw [h1, hke, boundOf_last]
        omega
      · obtain ⟨_, _, hblen⟩ := boundOf_lt t ss k hP (by omega)
        omega
  · apply List.subperm_of_subset (List.nodup_range _)
    intro x hx
    have hxle : x ≤ t.length := by
      have := List.mem_range.mp hx
      omega
    unfold fullBlocks
    rw [List.mem_flatten]
    by_cases hxl : x = t.length
    · refine ⟨blockAt t dcV ss ss.length, ?_, ?_⟩
      · exact List.mem_map.mpr ⟨ss.length, by simp, rfl⟩
      · rw [blockAt_mem t dcV ss ss.length hP le_rfl x]
        right
        rw [hxl, boundOf_last]
    · have hxlen : x < t.length := by omega
      by_cases hmem : x ∈ ss
      · obtain ⟨⟨m, hm⟩, hgm⟩ := List.mem_iff_get.mp hmem
        refine ⟨blockAt t dcV ss m, ?_, ?_⟩
        · exact List.mem_map.mpr ⟨m, by rw [List.mem_range]; omega, rfl⟩
        · rw [blockAt_mem t dcV ss m hP (by omega) x]
          right
          obtain ⟨hbeq, _, _⟩ := boundOf_lt t ss m hP hm
          rw [hbeq, getD_eq_get ss m hm, hgm]
      · have hble := List.countP_le_length (fun s => sufLt t s x) (l := ss)
        refine ⟨blockAt t dcV ss (bucketOf t ss x), ?_, ?_⟩
        · refine List.mem_map.mpr ⟨bucketOf t ss x, ?_, rfl⟩
          rw [List.mem_range]
          have : bucketOf t ss x ≤ ss.length := hble
          omega
        · rw [blockAt_mem t dcV ss (bucketOf t ss x) hP hble x]
          exact Or.inl ⟨hxlen, hmem, rfl⟩

/-! Behaviour of the iterator facade: nextSuffix, hasMoreSuffixes,
resetSuffixItr, and the emitted sequence. -/

theorem accStep_bucket_le (t : List Nat) (dcV : Nat) (dc : Option DC)
    (lo hi : Option Nat) (zLo zHi : List Nat) (a : AccState) (i : Nat) :
    ((accStep t dcV dc lo hi zLo zHi a i).bucket).length ≤
      a.bucket.length + 1 := by
  by_cases hsk : (some i = hi ∨ some i = lo)
  · simp only [accStep, if_pos hsk]
    omega
  · simp only [accStep, if_neg hsk]
    have haccLo : ∀ b : AccState, b.bucket = a.bucket →
        ((accLo t dcV dc lo zLo b i).bucket).length ≤ a.bucket.length + 1 := by
      intro b hb
      rcases lo with _ | l0
      · show (b.bucket ++ [i]).length ≤ a.bucket.length + 1
        rw [hb]
        simp
      · simp only [accLo]
        split
        · show b.bucket.length ≤ a.bucket.length + 1
          rw [hb]
          omega
        · show (b.bucket ++ [i]).length ≤ a.bucket.length + 1
          rw [hb]
          simp
    rcases hi with _ | h
    · exact haccLo a rfl
    · show (if (suffixCmp t dcV dc h zHi i a.stHi).1 = true then
          accLo t dcV dc lo zLo
            ⟨a.bucket, (suffixCmp t dcV dc h zHi i a.stHi).2, a.stLo⟩ i
        else
          ⟨a.bucket, (suffixCmp t dcV dc h zHi i a.stHi).2,
            a.stLo⟩).bucket.length ≤ a.bucket.length + 1
      split
      · exact haccLo _ rfl
      · show a.bucket.length ≤ a.bucket.length + 1
        omega

theorem accFold_bucket_le (t : List Nat) (dcV : Nat) (dc : Option DC)
    (lo hi : Option Nat) (zLo zHi : List Nat) :
    ∀ (l : List Nat) (a : AccState),
      ((l.foldl (accStep t dcV dc lo hi zLo zHi) a).bucket).length ≤
        a.bucket.length + l.length := by
  intro l
  induction l with
  | nil =>
    intro a
    simp
  | cons x xs ih =>
    intro a
    rw [List.foldl_cons]
    have h1 := accStep_bucket_le t dcV dc lo hi zLo zHi a x
    have h2 := ih (accStep t dcV dc lo hi zLo zHi a x)
    simp only [List.length_cons]
    omega

theorem blockAt_length_le (t : List Nat) (dcV : Nat) (ss : List Nat)
    (k : Nat) : (blockAt t dcV ss k).length ≤ t.length + 1 := by
  by_cases h0 : ss.length = 0
  · simp only [blockAt, if_pos h0, List.length_append, List.length_singleton]
    rw [(sortSuffixes_perm t _).length_eq, List.length_range]
  · simp only [blockAt, if_neg h0, List.length_append, List.length_singleton]
    rw [(sortSuffixes_perm t _).length_eq]
    simp only [accLoop]
    have := accFold_bucket_le t dcV (dcOf t dcV) (loOf ss k) (hiOf ss k)
      (match loOf ss k with
       | some l0 => zArrayOf t l0 dcV
       | none => [])
      (match hiOf ss k with
       | some h => zArrayOf t h dcV
       | none => [])
      (List.range t.length) ⟨[], ⟨-1, -1, false⟩, ⟨-1, -1, false⟩⟩
    simp only [List.length_range, List.length_nil] at this
    omega

theorem fetchGo_succ (fuel : Nat) (s : KSt) :
    fetchGo (fuel + 1) s =
      if s.itrBucketPos ≥ s.itrBucket.length ∨ s.itrBucket.length = 0 then
        if ¬ hasMoreBlocks s then (none, s)
        else fetchGo fuel { nextBlock s with itrBucketPos := 0 }
      else
        (some (s.itrBucket.getD s.itrBucketPos 0),
         { s with itrBucketPos := s.itrBucketPos + 1 }) := rfl

theorem fetchLoop_elem (s : KSt) (hpos : s.itrBucketPos < s.itrBucket.length) :
    fetchLoop s = (some (s.itrBucket.getD s.itrBucketPos 0),
      { s with itrBucketPos := s.itrBucketPos + 1 }) := by
  unfold fetchLoop
  rw [fetchGo_succ]
  rw [if_neg (by push_neg; omega)]

theorem fetchLoop_none (s : KSt) (hpos : s.itrBucket.length ≤ s.itrBucketPos)
    (hcur : s.sampleSuffs.length < s.cur) :
    fetchLoop s = (none, s) := by
  unfold fetchLoop
  rw [fetchGo_succ]
  rw [if_pos (Or.inl hpos)]
  rw [if_pos (by simp [hasMoreBlocks]; omega)]

theorem fetchLoop_refill (s : KSt) (hpos : s.itrBucket.length ≤ s.itrBucketPos)
    (hcur : s.cur ≤ s.sampleSuffs.length) :
    fetchLoop s = (some ((blockAt s.text s.dcV s.sampleSuffs s.cur).getD 0 0),
      { s with itrBucket := blockAt s.text s.dcV s.sampleSuffs s.cur,
               cur := s.cur + 1, itrBucketPos := 1 }) := by
  have hlen : 0 < (blockAt s.text s.dcV s.sampleSuffs s.cur).length :=
    List.length_pos.mpr (blockAt_ne_nil s.text s.dcV s.sampleSuffs s.cur)
  unfold fetchLoop
  rw [fetchGo_succ]
  rw [if_pos (Or.inl hpos)]
  rw [if_neg (by simp [hasMoreBlocks]; omega)]
  rw [show s.sampleSuffs.length + 1 - s.cur =
    (s.sampleSuffs.length - s.cur) + 1 by omega]
  rw [fetchGo_succ]
  rw [if_neg (by simp only [nextBlock]; push_neg; exact ⟨hlen, by omega⟩)]
  simp [nextBlock]

theorem nextSuffix_of_push (s : KSt) (h : s.itrPushedBack ≠ u32max) :
    nextSuffix s = (some s.itrPushedBack, { s with itrPushedBack := u32max }) := by
  simp [nextSuffix, h]

theorem nextSuffix_no_push (s : KSt) (h : s.itrPushedBack = u32max) :
    nextSuffix s = fetchLoop s := by
  simp [nextSuffix, h]

theorem nextSuffix_none_iff (s : KSt) :
    (nextSuffix s).1 = none ↔
      (s.itrPushedBack = u32max ∧ s.itrBucket.length ≤ s.itrBucketPos ∧
        s.sampleSuffs.length < s.cur) := by
  constructor
  · intro hn
    by_cases hp : s.itrPushedBack = u32max
    · rw [nextSuffix_no_push s hp] at hn
      by_cases hpos : s.itrBucketPos < s.itrBucket.length
      · rw [fetchLoop_elem s hpos] at hn
        exact absurd hn (by simp)
      · push_neg at hpos
        by_cases hcur : s.cur ≤ s.sampleSuffs.length
        · rw [fetchLoop_refill s hpos hcur] at hn
          exact absurd hn (by simp)
        · exact ⟨hp, hpos, by omega⟩
    · rw [nextSuffix_of_push s hp] at hn
      exact absurd hn (by simp)
  · rintro ⟨hp, hpos, hcur⟩
    rw [nextSuffix_no_push s hp, fetchLoop_none s hpos hcur]

theorem nextSuffix_none_state (s : KSt) (h : (nextSuffix s).1 = none) :
    (nextSuffix s).2 = s := by
  obtain ⟨hp, hpos, hcur⟩ := (nextSuffix_none_iff s).mp h
  rw [nextSuffix_no_push s hp, fetchLoop_none s hpos hcur]

theorem nextSuffix_static (s : KSt) :
    (nextSuffix s).2.text = s.text ∧
    (nextSuffix s).2.bucketSz = s.bucketSz ∧
    (nextSuffix s).2.dcV = s.dcV ∧
    (nextSuffix s).2.sampleSuffs = s.sampleSuffs := by
  by_cases hp : s.itrPushedBack = u32max
  · rw [nextSuffix_no_push s hp]
    by_cases hpos : s.itrBucketPos < s.itrBucket.length
    · rw [fetchLoop_elem s hpos]
      exact ⟨rfl, rfl, rfl, rfl⟩
    · push_neg at hpos
      by_cases hcur : s.cur ≤ s.sampleSuffs.length
      · rw [fetchLoop_refill s hpos hcur]
        exact ⟨rfl, rfl, rfl, rfl⟩
      · rw [fetchLoop_none s hpos (by omega)]
        exact ⟨rfl, rfl, rfl, rfl⟩
  · rw [nextSuffix_of_push s hp]
    exact ⟨rfl, rfl, rfl, rfl⟩

theorem nextSuffix_push_clear (s : KSt) (h : s.itrPushedBack = u32max) :
    (nextSuffix s).2.itrPushedBack = u32max := by
  rw [nextSuffix_no_push s h]
  by_cases hpos : s.itrBucketPos < s.itrBucket.length
  · rw [fetchLoop_elem s hpos]
    exact h
  · push_neg at hpos
    by_cases hcur : s.cur ≤ s.sampleSuffs.length
    · rw [fetchLoop_refill s hpos hcur]
      exact h
    · rw [fetchLoop_none s hpos (by omega)]
      exact h

theorem hasMoreSuffixes_static (s : KSt) :
    (hasMoreSuffixes s).2.text = s.text ∧
    (hasMoreSuffixes s).2.bucketSz = s.bucketSz ∧
    (hasMoreSuffixes s).2.dcV = s.dcV ∧
    (hasMoreSuffixes s).2.sampleSuffs = s.sampleSuffs := by
  by_cases hp : s.itrPushedBack = u32max
  · simp only [hasMoreSuffixes, hp]
    rcases hns : nextSuffix s with ⟨v, s'⟩
    have hst := nextSuffix_static s
    rw [hns] at hst
    rcases v with _ | v
    · simpa using hst
    · simpa using hst
  · simp [hasMoreSuffixes, hp]

theorem emitFrom_spec : ∀ (f : Nat) (s : KSt), fuelOf s ≤ f →
    s.itrPushedBack = u32max →
    emitFrom s f = s.itrBucket.drop s.itrBucketPos ++
      restBlocks s.text s.dcV s.sampleSuffs s.cur := by
  intro f
  induction f with
  | zero =>
    intro s hf _
    exfalso
    simp only [fuelOf] at hf
    omega
  | succ f ih =>
    intro s hf hp
    by_cases hpos : s.itrBucketPos < s.itrBucket.length
    · have hns : nextSuffix s = (some (s.itrBucket.getD s.itrBucketPos 0),
          { s with itrBucketPos := s.itrBucketPos + 1 }) := by
        rw [nextSuffix_no_push s hp, fetchLoop_elem s hpos]
      rw [show emitFrom s (f + 1) = s.itrBucket.getD s.itrBucketPos 0 ::
          emitFrom { s with itrBucketPos := s.itrBucketPos + 1 } f from by
        simp [emitFrom, hns]]
      rw [ih { s with itrBucketPos := s.itrBucketPos + 1 }
        (by simp only [fuelOf] at hf ⊢; omega) hp]
      show s.itrBucket.getD s.itrBucketPos 0 ::
          (s.itrBucket.drop (s.itrBucketPos + 1) ++
            restBlocks s.text s.dcV s.sampleSuffs s.cur) = _
      rw [List.drop_eq_getElem_cons hpos]
      rw [List.getD_eq_getElem s.itrBucket 0 hpos]
      rfl
    · push_neg at hpos
      by_cases hcur : s.cur ≤ s.sampleSuffs.length
      · set B := blockAt s.text s.dcV s.sampleSuffs s.cur with hB
        have hns : nextSuffix s = (some (B.getD 0 0),
            { s with itrBucket := B, cur := s.cur + 1, itrBucketPos := 1 }) := by
          rw [nextSuffix_no_push s hp, fetchLoop_refill s hpos hcur]
        have hBlen : 0 < B.length :=
          List.length_pos.mpr (blockAt_ne_nil _ _ _ _)
        have hBle : B.length ≤ s.text.length + 1 := blockAt_length_le _ _ _ _
        rw [show emitFrom s (f + 1) = B.getD 0 0 ::
            emitFrom { s with itrBucket := B, cur := s.cur + 1, itrBucketPos := 1 } f from by
          simp [emitFrom, hns]]
        rw [ih { s with itrBucket := B, cur := s.cur + 1, itrBucketPos := 1 }
          (by simp only [fuelOf] at hf ⊢
              have hsub : s.sampleSuffs.length + 1 - s.cur =
                  (s.sampleSuffs.length + 1 - (s.cur + 1)) + 1 := by omega
              rw [hsub, Nat.add_mul, one_mul] at hf
              omega) hp]
        show B.getD 0 0 :: (B.drop 1 ++
            restBlocks s.text s.dcV s.sampleSuffs (s.cur + 1)) = _
        rw [List.drop_eq_nil_of_le hpos]
        have hrest : restBlocks s.text s.dcV s.sampleSuffs s.cur =
            B ++ restBlocks s.text s.dcV s.sampleSuffs (s.cur + 1) := by
          unfold restBlocks
          rw [show s.sampleSuffs.length + 1 - s.cur =
            (s.sampleSuffs.length + 1 - (s.cur + 1)) + 1 by omega]
          rw [List.range'_succ, List.map_cons, List.flatten_cons]
        rw [hrest]
        have hBhead : B = B.getD 0 0 :: B.drop 1 := by
          rw [List.getD_eq_getElem B 0 hBlen]
          exact List.drop_eq_getElem_cons hBlen
        rw [List.nil_append]
        rw [show (B ++ restBlocks s.text s.dcV s.sampleSuffs (s.cur + 1)) =
          B.getD 0 0 :: (B.drop 1 ++
            restBlocks s.text s.dcV s.sampleSuffs (s.cur + 1)) from by
          conv in (B ++ _) => rw [hBhead]
          rw [List.cons_append]]
      · push_neg at hcur
        have hns : (nextSuffix s).1 = none :=
          (nextSuffix_none_iff s).mpr ⟨hp, hpos, hcur⟩
        rw [show emitFrom s (f + 1) = [] from by
          rcases hnse : nextSuffix s with ⟨v, s'⟩
          rw [hnse] at hns
          simp at hns
          subst hns
          simp [emitFrom, hnse]]
        rw [List.drop_eq_nil_of_le hpos]
        unfold restBlocks
        rw [show s.sampleSuffs.length + 1 - s.cur = 0 by omega]
        simp

theorem emitAll_spec (s : KSt) (hp : s.itrPushedBack = u32max) :
    emitAll s = s.itrBucket.drop s.itrBucketPos ++
      restBlocks s.text s.dcV s.sampleSuffs s.cur :=
  emitFrom_spec (fuelOf s) s le_rfl hp

theorem emitAll_fresh (t : List Nat) (b dcV : Nat) (ss : List Nat) :
    emitAll ⟨t, b, dcV, ss, 0, [], u32max, u32max⟩ = fullBlocks t dcV ss := by
  rw [emitAll_spec _ rfl]
  show List.drop u32max [] ++ restBlocks t dcV ss 0 = fullBlocks t dcV ss
  rw [List.drop_nil, List.nil_append]
  unfold restBlocks fullBlocks
  rw [show ss.length + 1 - 0 = ss.length + 1 by omega, ← List.range_eq_range']

theorem accLo_bucket_cases (t : List Nat) (dcV : Nat) (dc : Option DC)
    (lo : Option Nat) (zLo : List Nat) (b : AccState) (i : Nat) :
    (accLo t dcV dc lo zLo b i).bucket = b.bucket ∨
      (accLo t dcV dc lo zLo b i).bucket = b.bucket ++ [i] := by
  rcases lo with _ | l0
  · exact Or.inr rfl
  · simp only [accLo]
    split
    · exact Or.inl rfl
    · exact Or.inr rfl

theorem accStep_bucket_cases (t : List Nat) (dcV : Nat) (dc : Option DC)
    (lo hi : Option Nat) (zLo zHi : List Nat) (a : AccState) (i : Nat) :
    (accStep t dcV dc lo hi zLo zHi a i).bucket = a.bucket ∨
      (accStep t dcV dc lo hi zLo zHi a i).bucket = a.bucket ++ [i] := by
  by_cases hsk : (some i = hi ∨ some i = lo)
  · rw [show accStep t dcV dc lo hi zLo zHi a i = a from by
      simp only [accStep, if_pos hsk]]
    exact Or.inl rfl
  · simp only [accStep, if_neg hsk]
    rcases hi with _ | h
    · exact accLo_bucket_cases t dcV dc lo zLo a i
    · show (if (suffixCmp t dcV dc h zHi i a.stHi).1 = true then
          accLo t dcV dc lo zLo
            ⟨a.bucket, (suffixCmp t dcV dc h zHi i a.stHi).2, a.stLo⟩ i
        else
          ⟨a.bucket, (suffixCmp t dcV dc h zHi i a.stHi).2,
            a.stLo⟩).bucket = a.bucket ∨
        (if (suffixCmp t dcV dc h zHi i a.stHi).1 = true then
          accLo t dcV dc lo zLo
            ⟨a.bucket, (suffixCmp t dcV dc h zHi i a.stHi).2, a.stLo⟩ i
        else
          ⟨a.bucket, (suffixCmp t dcV dc h zHi i a.stHi).2,
            a.stLo⟩).bucket = a.bucket ++ [i]
      split
      · exact accLo_bucket_cases t dcV dc lo zLo
          ⟨a.bucket, (suffixCmp t dcV dc h zHi i a.stHi).2, a.stLo⟩ i
      · exact Or.inl rfl

theorem accFold_bucket_mem (t : List Nat) (dcV : Nat) (dc : Option DC)
    (lo hi : Option Nat) (zLo zHi : List Nat) :
    ∀ (l : List Nat) (a : AccState) (x : Nat),
      x ∈ (l.foldl (accStep t dcV dc lo hi zLo zHi) a).bucket →
        x ∈ a.bucket ∨ x ∈ l := by
  intro l
  induction l with
  | nil =>
    intro a x hx
    exact Or.inl hx
  | cons y ys ih =>
    intro a x hx
    rw [List.foldl_cons] at hx
    rcases ih (accStep t dcV dc lo hi zLo zHi a y) x hx with h | h
    · rcases accStep_bucket_cases t dcV dc lo hi zLo zHi a y with hc | hc
      · rw [hc] at h
        exact Or.inl h
      · rw [hc, List.mem_append] at h
        rcases h with h | h
        · exact Or.inl h
        · right
          simp at h
          simp [h]
    · right
      exact List.mem_cons_of_mem y h

theorem blockAt_vals (t : List Nat) (dcV : Nat) (ss : List Nat) (cur : Nat)
    (hcur : cur ≤ ss.length) (x : Nat) (hx : x ∈ blockAt t dcV ss cur) :
    x < t.length ∨ x ∈ ss ∨ x = t.length := by
  by_cases h0 : ss.length = 0
  · simp only [blockAt, if_pos h0, List.mem_append] at hx
    rcases hx with hx | hx
    · rw [(sortSuffixes_perm t _).mem_iff, List.mem_range] at hx
      exact Or.inl hx
    · simp at hx
      exact Or.inr (Or.inr hx)
  · simp only [blockAt, if_neg h0, List.mem_append] at hx
    rcases hx with hx | hx
    · rw [(sortSuffixes_perm t _).mem_iff] at hx
      simp only [accLoop] at hx
      rcases accFold_bucket_mem t dcV (dcOf t dcV) (loOf ss cur) (hiOf ss cur)
        _ _ (List.range t.length) ⟨[], ⟨-1, -1, false⟩, ⟨-1, -1, false⟩⟩ x hx
        with h | h
      · exact absurd h (List.not_mem_nil x)
      · exact Or.inl (List.mem_range.mp h)
    · simp only [List.mem_singleton] at hx
      subst hx
      unfold boundOf hiOf
      by_cases hc : cur = ss.length
      · rw [if_pos hc]
        exact Or.inr (Or.inr rfl)
      · rw [if_neg hc]
        refine Or.inr (Or.inl ?_)
        rw [List.getD_eq_getElem ss 0 (by omega)]
        exact List.getElem_mem _

theorem nextSuffix_val_lt (s : KSt) (hg : Hgood s)
    (hp : s.itrPushedBack = u32max) (v : Nat) (s' : KSt)
    (hns : nextSuffix s = (some v, s')) : v < u32max := by
  obtain ⟨hlen, hss, hbk⟩ := hg
  rw [nextSuffix_no_push s hp] at hns
  by_cases hpos : s.itrBucketPos < s.itrBucket.length
  · rw [fetchLoop_elem s hpos] at hns
    obtain ⟨h1, -⟩ := Prod.mk.injEq .. ▸ hns
    injection h1 with h1
    subst h1
    rw [List.getD_eq_getElem s.itrBucket 0 hpos]
    exact hbk _ (List.getElem_mem _)
  · push_neg at hpos
    by_cases hcur : s.cur ≤ s.sampleSuffs.length
    · rw [fetchLoop_refill s hpos hcur] at hns
      obtain ⟨h1, -⟩ := Prod.mk.injEq .. ▸ hns
      injection h1 with h1
      subst h1
      have hmem : (blockAt s.text s.dcV s.sampleSuffs s.cur).getD 0 0 ∈
          blockAt s.text s.dcV s.sampleSuffs s.cur := by
        have hpos0 : 0 < (blockAt s.text s.dcV s.sampleSuffs s.cur).length :=
          List.length_pos.mpr (blockAt_ne_nil _ _ _ _)
        rw [List.getD_eq_getElem _ 0 hpos0]
        exact List.getElem_mem _
      rcases blockAt_vals s.text s.dcV s.sampleSuffs s.cur hcur _ hmem
        with h | h | h
      · omega
      · exact hss _ h
      · omega
    · rw [fetchLoop_none s hpos (by omega)] at hns
      exact absurd (Prod.mk.injEq .. ▸ hns).1 (by simp)

theorem applyOps_static (ops : List Bool) (s : KSt) :
    (applyOps ops s).text = s.text ∧
    (applyOps ops s).bucketSz = s.bucketSz ∧
    (applyOps ops s).dcV = s.dcV ∧
    (applyOps ops s).sampleSuffs = s.sampleSuffs := by
  induction ops generalizing s with
  | nil => exact ⟨rfl, rfl, rfl, rfl⟩
  | cons op ops ih =>
    rw [show applyOps (op :: ops) s =
      applyOps ops (if op then (nextSuffix s).2 else (hasMoreSuffixes s).2)
      from rfl]
    rcases op with _ | _
    · have h1 := ih (hasMoreSuffixes s).2
      have h2 := hasMoreSuffixes_static s
      simp only [if_neg (by simp : ¬ (false : Bool) = true)] at *
      exact ⟨h1.1.trans h2.1, h1.2.1.trans h2.2.1,
        h1.2.2.1.trans h2.2.2.1, h1.2.2.2.trans h2.2.2.2⟩
    · have h1 := ih (nextSuffix s).2
      have h2 := nextSuffix_static s
      simp only [if_pos rfl] at *
      exact ⟨h1.1.trans h2.1, h1.2.1.trans h2.2.1,
        h1.2.2.1.trans h2.2.2.1, h1.2.2.2.trans h2.2.2.2⟩

/-! Counting arithmetic on sample lists: how bucket indices and
bucket sizes respond to erasing or inserting one sample.  These are
the facts the split-and-merge loop of buildSamples relies on. -/

theorem PassInv_nodup (t ss : List Nat) (hP : PassInv t ss) : ss.Nodup := by
  refine hP.1.imp ?_
  intro a b hab heq
  subst heq
  rw [sufLt_irrefl] at hab
  simp at hab

theorem PassInv_length_le (t ss : List Nat) (hP : PassInv t ss) :
    ss.length ≤ t.length := by
  have hsp : List.Subperm ss (List.range t.length) :=
    List.subperm_of_subset (PassInv_nodup t ss hP)
      (fun x hx => List.mem_range.mpr (hP.2 x hx))
  simpa using hsp.length_le

theorem countP_or_disjoint (p q : Nat → Bool) :
    ∀ l : List Nat, (∀ a ∈ l, p a = true → q a = false) →
      l.countP (fun a => p a || q a) = l.countP p + l.countP q := by
  intro l
  induction l with
  | nil => intro _; simp
  | cons x xs ih =>
    intro hd
    rw [List.countP_cons, List.countP_cons, List.countP_cons,
      ih (fun a ha => hd a (by simp [ha]))]
    by_cases hp : p x = true
    · have hq : q x = false := hd x (by simp) hp
      simp [hp, hq]
      omega
    · rw [Bool.not_eq_true] at hp
      by_cases hq : q x = true
      · simp [hp, hq]
        omega
      · simp [hp, hq]

theorem countP_eq_single (c n : Nat) (hc : c < n) :
    (List.range n).countP (fun i => i == c) = 1 := by
  induction n with
  | zero => omega
  | succ n ih =>
    rw [List.range_succ, List.countP_append, List.countP_cons, List.countP_nil]
    by_cases h : c < n
    · rw [ih h]
      have hne : (n == c) = false := by
        simp
        omega
      simp [hne]
    · have hcn : c = n := by omega
      subst hcn
      have h0 : (List.range c).countP (fun i => i == c) = 0 := by
        rw [List.countP_eq_zero]
        intro a ha
        simp at ha ⊢
        omega
      simp [h0]

theorem bucketOf_mono (t : List Nat) (ss : List Nat) (x y : Nat)
    (hxy : sufLt t x y = true) : bucketOf t ss x ≤ bucketOf t ss y :=
  List.countP_mono_left (fun s _ hs => sufLt_trans t s x y hs hxy)

theorem sufLt_of_bucketOf_lt (t ss : List Nat) (x y : Nat)
    (hx : x ≤ t.length) (hy : y ≤ t.length)
    (h : bucketOf t ss x < bucketOf t ss y) : sufLt t x y = true := by
  have hne : x ≠ y := by
    rintro rfl
    omega
  rcases sufLt_total t x y hx hy hne with hlt | hlt
  · exact hlt
  · have := bucketOf_mono t ss y x hlt
    omega

theorem countP_eraseIdx (l : List Nat) (p : Nat) (hp : p < l.length)
    (q : Nat → Bool) :
    l.countP q = (l.eraseIdx p).countP q +
      (if q (l.get ⟨p, hp⟩) then 1 else 0) := by
  rw [List.eraseIdx_eq_take_drop_succ, List.countP_append]
  conv_lhs => rw [← List.take_append_drop p l, List.countP_append,
    List.drop_eq_getElem_cons hp, List.countP_cons]
  simp only [List.get_eq_getElem]
  omega

theorem get_not_mem_eraseIdx (l : List Nat) (hnd : l.Nodup) (p : Nat)
    (hp : p < l.length) : l.get ⟨p, hp⟩ ∉ l.eraseIdx p := by
  intro hmem
  have h1 := countP_eraseIdx l p hp (fun i => i == l.get ⟨p, hp⟩)
  rw [if_pos (by simp)] at h1
  have h2 : 0 < (l.eraseIdx p).countP (fun i => i == l.get ⟨p, hp⟩) :=
    List.countP_pos_iff.mpr ⟨l.get ⟨p, hp⟩, hmem, by simp⟩
  have h3 : l.countP (fun i => i == l.get ⟨p, hp⟩) ≤ 1 := by
    have := List.nodup_iff_count_le_one.mp hnd (l.get ⟨p, hp⟩)
    simpa [List.count] using this
  omega

theorem mem_eraseIdx_iff (l : List Nat) (hnd : l.Nodup) (p : Nat)
    (hp : p < l.length) (x : Nat) :
    x ∈ l.eraseIdx p ↔ (x ∈ l ∧ x ≠ l.get ⟨p, hp⟩) := by
  constructor
  · intro hx
    refine ⟨(List.eraseIdx_sublist l p).subset hx, ?_⟩
    rintro rfl
    exact get_not_mem_eraseIdx l hnd p hp hx
  · rintro ⟨hx, hne⟩
    rw [List.eraseIdx_eq_take_drop_succ]
    conv at hx => rw [← List.take_append_drop p l]
    rw [List.mem_append] at hx ⊢
    rcases hx with hx | hx
    · exact Or.inl hx
    · rw [List.drop_eq_getElem_cons hp] at hx
      rcases List.mem_cons.mp hx with rfl | hx
      · exact absurd rfl hne
      · exact Or.inr hx

theorem bucketOf_eraseIdx_self (t ss : List Nat)
    (hsor : List.Pairwise (fun a b => sufLt t a b = true) ss) (p : Nat)
    (hp : p < ss.length) :
    bucketOf t (ss.eraseIdx p) (ss.get ⟨p, hp⟩) = p := by
  have h1 := countP_eraseIdx ss p hp (fun s => sufLt t s (ss.get ⟨p, hp⟩))
  rw [if_neg (by rw [sufLt_irrefl]; simp)] at h1
  have h2 := bucketOf_get t ss hsor p hp
  unfold bucketOf at h2 ⊢
  omega

theorem bucketOf_eraseIdx (t ss : List Nat) (hP : PassInv t ss) (p : Nat)
    (hp : p < ss.length) (x : Nat) (hx : x ≤ t.length) (hxs : x ∉ ss) :
    bucketOf t (ss.eraseIdx p) x =
      if bucketOf t ss x ≤ p then bucketOf t ss x
      else bucketOf t ss x - 1 := by
  obtain ⟨hsor, hlt⟩ := hP
  have h1 := countP_eraseIdx ss p hp (fun s => sufLt t s x)
  obtain ⟨hb1, hb2, hb3⟩ := bucketOf_spec t ss hsor hlt x hx hxs
  by_cases hc : bucketOf t ss x ≤ p
  · rw [if_pos hc]
    have hfalse : sufLt t (ss.get ⟨p, hp⟩) x = false :=
      sufLt_asymm t x _ (hb3 p hp hc)
    rw [if_neg (by rw [hfalse]; simp)] at h1
    unfold bucketOf
    omega
  · rw [if_neg hc]
    push_neg at hc
    have htrue : sufLt t (ss.get ⟨p, hp⟩) x = true := hb2 p hp hc
    rw [if_pos htrue] at h1
    unfold bucketOf
    omega

theorem contains_eq (l : List Nat) (x : Nat) :
    l.contains x = decide (x ∈ l) := by
  by_cases h : x ∈ l <;> simp [h]

theorem bucketSize_eq_countP (t ss : List Nat) (m : Nat) :
    bucketSize t ss m = (List.range t.length).countP
      (fun i => !ss.contains i && (bucketOf t ss i == m)) :=
  (List.countP_eq_length_filter _ _).symm

theorem bucketSize_gt (t ss : List Nat) (m : Nat) (hm : ss.length < m) :
    bucketSize t ss m = 0 := by
  rw [bucketSize_eq_countP, List.countP_eq_zero]
  intro i _
  have hle : bucketOf t ss i ≤ ss.length := List.countP_le_length _
  have : bucketOf t ss i ≠ m := by omega
  simp [this]

theorem bucketSize_eraseIdx_lt (t ss : List Nat) (hP : PassInv t ss)
    (p : Nat) (hp : p < ss.length) (m : Nat) (hm : m < p) :
    bucketSize t (ss.eraseIdx p) m = bucketSize t ss m := by
  unfold bucketSize
  congr 1
  apply List.filter_congr
  intro i hi
  rw [List.mem_range] at hi
  have hnd := PassInv_nodup t ss hP
  by_cases hmem : i ∈ ss
  · by_cases hip : i = ss.get ⟨p, hp⟩
    · subst hip
      have hni : ss.get ⟨p, hp⟩ ∉ ss.eraseIdx p :=
        get_not_mem_eraseIdx ss hnd p hp
      have hbo : bucketOf t (ss.eraseIdx p) (ss.get ⟨p, hp⟩) = p :=
        bucketOf_eraseIdx_self t ss hP.1 p hp
      have hni' : ss[p] ∉ ss.eraseIdx p := hni
      have hbo' : bucketOf t (ss.eraseIdx p) ss[p] = p := hbo
      have hpm : p ≠ m := by omega
      simp [contains_eq, hni', hmem, hbo', hpm]
    · have hmem' : i ∈ ss.eraseIdx p :=
        (mem_eraseIdx_iff ss hnd p hp i).mpr ⟨hmem, hip⟩
      simp [contains_eq, hmem', hmem]
  · have hni : i ∉ ss.eraseIdx p :=
      fun h => hmem ((List.eraseIdx_sublist ss p).subset h)
    have hbo := bucketOf_eraseIdx t ss hP p hp i (by omega) hmem
    by_cases hc : bucketOf t ss i ≤ p
    · rw [if_pos hc] at hbo
      simp [contains_eq, hni, hmem, hbo]
    · rw [if_neg hc] at hbo
      push_neg at hc
      have h1 : bucketOf t (ss.eraseIdx p) i ≠ m := by omega
      have h2 : bucketOf t ss i ≠ m := by omega
      simp [contains_eq, hni, hmem, h1, h2]

theorem bucketSize_eraseIdx_gt (t ss : List Nat) (hP : PassInv t ss)
    (p : Nat) (hp : p < ss.length) (m : Nat) (hm : p < m) :
    bucketSize t (ss.eraseIdx p) m = bucketSize t ss (m + 1) := by
  unfold bucketSize
  congr 1
  apply List.filter_congr
  intro i hi
  rw [List.mem_range] at hi
  have hnd := PassInv_nodup t ss hP
  by_cases hmem : i ∈ ss
  · by_cases hip : i = ss.get ⟨p, hp⟩
    · subst hip
      have hni : ss.get ⟨p, hp⟩ ∉ ss.eraseIdx p :=
        get_not_mem_eraseIdx ss hnd p hp
      have hbo : bucketOf t (ss.eraseIdx p) (ss.get ⟨p, hp⟩) = p :=
        bucketOf_eraseIdx_self t ss hP.1 p hp
      have hni' : ss[p] ∉ ss.eraseIdx p := hni
      have hbo' : bucketOf t (ss.eraseIdx p) ss[p] = p := hbo
      have hpm : p ≠ m := by omega
      simp [contains_eq, hni', hmem, hbo', hpm]
    · have hmem' : i ∈ ss.eraseIdx p :=
        (mem_eraseIdx_iff ss hnd p hp i).mpr ⟨hmem, hip⟩
      simp [contains_eq, hmem', hmem]
  · have hni : i ∉ ss.eraseIdx p :=
      fun h => hmem ((List.eraseIdx_sublist ss p).subset h)
    have hbo := bucketOf_eraseIdx t ss hP p hp i (by omega) hmem
    by_cases hc : bucketOf t ss i ≤ p
    · rw [if_pos hc] at hbo
      have h1 : bucketOf t (ss.eraseIdx p) i ≠ m := by omega
      have h2 : bucketOf t ss i ≠ m + 1 := by omega
      simp [contains_eq, hni, hmem, h1, h2]
    · rw [if_neg hc] at hbo
      push_neg at hc
      have hiff : bucketOf t (ss.eraseIdx p) i = m ↔
          bucketOf t ss i = m + 1 := by omega
      simp [contains_eq, hni, hmem, hiff]

theorem bucketSize_eraseIdx_self (t ss : List Nat) (hP : PassInv t ss)
    (p : Nat) (hp : p < ss.length) :
    bucketSize t (ss.eraseIdx p) p =
      bucketSize t ss p + bucketSize t ss (p + 1) + 1 := by
  have hnd := PassInv_nodup t ss hP
  have hsplen : ss.get ⟨p, hp⟩ < t.length := hP.2 _ (List.get_mem ss p hp)
  rw [bucketSize_eq_countP, bucketSize_eq_countP, bucketSize_eq_countP]
  have hstep : (List.range t.length).countP
      (fun i => !(ss.eraseIdx p).contains i &&
        (bucketOf t (ss.eraseIdx p) i == p)) =
      (List.range t.length).countP
      (fun i => (i == ss.get ⟨p, hp⟩) ||
        ((!ss.contains i && (bucketOf t ss i == p)) ||
         (!ss.contains i && (bucketOf t ss i == (p + 1))))) := by
    apply List.countP_congr
    intro i hi
    rw [List.mem_range] at hi
    by_cases hmem : i ∈ ss
    · by_cases hip : i = ss.get ⟨p, hp⟩
      · subst hip
        have hni : ss.get ⟨p, hp⟩ ∉ ss.eraseIdx p :=
          get_not_mem_eraseIdx ss hnd p hp
        have hbo : bucketOf t (ss.eraseIdx p) (ss.get ⟨p, hp⟩) = p :=
          bucketOf_eraseIdx_self t ss hP.1 p hp
        have hni' : ss[p] ∉ ss.eraseIdx p := hni
        have hbo' : bucketOf t (ss.eraseIdx p) ss[p] = p := hbo
        simp [contains_eq, hni', hmem, hbo']
      · have hmem' : i ∈ ss.eraseIdx p :=
          (mem_eraseIdx_iff ss hnd p hp i).mpr ⟨hmem, hip⟩
        have hip' : i ≠ ss[p] := hip
        simp [contains_eq, hmem', hmem, hip']
    · have hni : i ∉ ss.eraseIdx p :=
        fun h => hmem ((List.eraseIdx_sublist ss p).subset h)
      have hip : i ≠ ss.get ⟨p, hp⟩ := by
        rintro rfl
        exact hmem (List.get_mem ss p hp)
      have hip' : i ≠ ss[p] := hip
      have hbo := bucketOf_eraseIdx t ss hP p hp i (by omega) hmem
      by_cases hc : bucketOf t ss i ≤ p
      · rw [if_pos hc] at hbo
        have hiff : bucketOf t (ss.eraseIdx p) i = p ↔
            (bucketOf t ss i = p ∨ bucketOf t ss i = p + 1) := by omega
        simp [contains_eq, hni, hmem, hip', hiff]
      · rw [if_neg hc] at hbo
        push_neg at hc
        have hiff : bucketOf t (ss.eraseIdx p) i = p ↔
            (bucketOf t ss i = p ∨ bucketOf t ss i = p + 1) := by omega
        simp [contains_eq, hni, hmem, hip', hiff]
  rw [hstep]
  rw [countP_or_disjoint _ _ _ (by
    intro a _ ha
    have : a = ss.get ⟨p, hp⟩ := by simpa using ha
    subst this
    simp [contains_eq, List.get_mem ss p hp])]
  rw [countP_or_disjoint _ _ _ (by
    intro a _ ha
    have h1 : (!ss.contains a) = true ∧ bucketOf t ss a = p := by
      simpa using ha
    have h2 : bucketOf t ss a ≠ p + 1 := by omega
    simp [h1.1, h2])]
  rw [countP_eq_single _ _ hsplen]
  omega

theorem countP_insertIdx (l : List Nat) (p : Nat) (hp : p ≤ l.length)
    (x : Nat) (q : Nat → Bool) :
    (l.insertIdx p x).countP q = l.countP q + (if q x then 1 else 0) := by
  rw [(List.perm_insertIdx x l hp).countP_eq, List.countP_cons]

theorem bucketOf_insertIdx (t ss : List Nat) (p : Nat)
    (hp : p ≤ ss.length) (x y : Nat) :
    bucketOf t (ss.insertIdx p x) y =
      bucketOf t ss y + (if sufLt t x y then 1 else 0) :=
  countP_insertIdx ss p hp x _

theorem pairwise_insertIdx (lt : Nat → Nat → Bool) (x : Nat) :
    ∀ (l : List Nat) (p : Nat), p ≤ l.length →
      l.Pairwise (fun a b => lt a b = true) →
      (∀ q (hq : q < l.length), q < p → lt (l.get ⟨q, hq⟩) x = true) →
      (∀ q (hq : q < l.length), p ≤ q → lt x (l.get ⟨q, hq⟩) = true) →
      (List.insertIdx p x l).Pairwise (fun a b => lt a b = true) := by
  intro l
  induction l with
  | nil =>
    intro p hp _ _ _
    have : p = 0 := by simpa using hp
    subst this
    simp
  | cons y l ih =>
    intro p hp hsor hbefore hafter
    rcases List.pairwise_cons.mp hsor with ⟨hy, hl⟩
    match p with
    | 0 =>
      rw [List.insertIdx_zero]
      refine List.pairwise_cons.mpr ⟨?_, hsor⟩
      intro z hz
      obtain ⟨⟨q, hq⟩, rfl⟩ := List.mem_iff_get.mp hz
      exact hafter q hq (Nat.zero_le q)
    | p + 1 =>
      rw [List.insertIdx_succ_cons]
      have hp' : p ≤ l.length := by simpa using hp
      refine List.pairwise_cons.mpr ⟨?_, ?_⟩
      · intro z hz
        rcases (List.mem_insertIdx hp').mp hz with rfl | hz
        · exact hbefore 0 (by simp) (by omega)
        · exact hy z hz
      · refine ih p hp' hl ?_ ?_
        · intro q hq hqp
          exact hbefore (q + 1) (by simpa using hq) (by omega)
        · intro q hq hqp
          exact hafter (q + 1) (by simpa using hq) (by omega)

theorem bucketSize_insertIdx_high (t ss : List Nat)
    (p : Nat) (hp : p ≤ ss.length) (x : Nat) (hxlen : x < t.length)
    (hxs : x ∉ ss) (hbx : bucketOf t ss x = p) (m : Nat) (hm : p < m) :
    bucketSize t (ss.insertIdx p x) (m + 1) = bucketSize t ss m := by
  unfold bucketSize
  congr 1
  apply List.filter_congr
  intro i hi
  rw [List.mem_range] at hi
  have hmemIns : ∀ z : Nat, z ∈ ss.insertIdx p x ↔ (z = x ∨ z ∈ ss) :=
    fun z => List.mem_insertIdx hp
  by_cases hix : i = x
  · have hmem' : i ∈ ss.insertIdx p x := (hmemIns i).mpr (Or.inl hix)
    have hins : i ∉ ss := by
      rw [hix]
      exact hxs
    have hbm : bucketOf t ss i ≠ m := by
      rw [hix, hbx]
      omega
    simp [contains_eq, hmem', hins, hbm]
  · by_cases hmem : i ∈ ss
    · have hmem' : i ∈ ss.insertIdx p x := (hmemIns i).mpr (Or.inr hmem)
      simp [contains_eq, hmem', hmem]
    · have hni : i ∉ ss.insertIdx p x := by
        rw [hmemIns i]
        push_neg
        exact ⟨hix, hmem⟩
      have hbo := bucketOf_insertIdx t ss p hp x i
      by_cases hsx : sufLt t x i = true
      · rw [if_pos hsx] at hbo
        have hiff : bucketOf t (ss.insertIdx p x) i = m + 1 ↔
            bucketOf t ss i = m := by omega
        simp [contains_eq, hni, hmem, hiff]
      · have hsi : sufLt t i x = true := by
          rcases sufLt_total t i x (by omega) (by omega) hix with h | h
          · exact h
          · exact absurd h hsx
        have hle : bucketOf t ss i ≤ p := hbx ▸ bucketOf_mono t ss i x hsi
        rw [if_neg hsx] at hbo
        have h1 : bucketOf t (ss.insertIdx p x) i ≠ m + 1 := by omega
        have h2 : bucketOf t ss i ≠ m := by omega
        simp [contains_eq, hni, hmem, h1, h2]

/-! getD arithmetic for set, eraseIdx and replicate, as used by the
measuring and split-and-merge loops. -/

theorem getD_set (l : List Nat) (r : Nat) (hr : r < l.length)
    (v m d : Nat) :
    (l.set r v).getD m d = if r = m then v else l.getD m d := by
  by_cases hm : m < l.length
  · rw [List.getD_eq_getElem _ d (by simpa using hm), List.getElem_set]
    by_cases hrm : r = m
    · rw [if_pos hrm, if_pos hrm]
    · rw [if_neg hrm, if_neg hrm, List.getD_eq_getElem l d hm]
  · rw [List.getD_eq_default _ d (by simpa using hm),
      List.getD_eq_default _ d (by omega), if_neg (by omega)]

theorem getD_eraseIdx_ge (l : List Nat) (i : Nat) (hi : i < l.length)
    (m d : Nat) (him : i ≤ m) :
    (l.eraseIdx i).getD m d = l.getD (m + 1) d := by
  have hlen : (l.eraseIdx i).length = l.length - 1 := by
    simp only [List.length_eraseIdx, if_pos hi]
  by_cases hm : m < l.length - 1
  · rw [List.getD_eq_getElem _ d (by omega), List.getElem_eraseIdx,
      dif_neg (by omega), List.getD_eq_getElem l d (by omega)]
  · rw [List.getD_eq_default _ d (by omega),
      List.getD_eq_default _ d (by omega)]

theorem getD_replicate (n v m d : Nat) :
    (List.replicate n v).getD m d = if m < n then v else d := by
  by_cases hm : m < n
  · rw [List.getD_eq_getElem _ d (by simpa using hm),
      List.getElem_replicate, if_pos hm]
  · rw [List.getD_eq_default _ d (by simpa using hm), if_neg hm]

/-! The bucket-measuring pass of buildSamples establishes MeasInv. -/

theorem measureStep_inv (t ss : List Nat) (hP : PassInv t ss)
    (hlen : t.length < u32max) (j : Nat) (hj : j < t.length)
    (acc : List Nat × List Nat × RandomSource)
    (H : MeasInv t ss j acc) :
    MeasInv t ss (j + 1) (measureStep t ss acc j) := by
  obtain ⟨szs, reps, rnd⟩ := acc
  obtain ⟨H1, H2, H3, H4⟩ := H
  replace H1 : szs.length = ss.length + 1 := H1
  replace H2 : reps.length = ss.length + 1 := H2
  replace H3 : ∀ m, m ≤ ss.length → szs.getD m 0 =
      ((List.range j).filter
        (fun i => !ss.contains i && (bucketOf t ss i == m))).length := H3
  replace H4 : ∀ m, m ≤ ss.length →
      (0 < szs.getD m 0 → reps.getD m u32max ≠ u32max) ∧
      (reps.getD m u32max ≠ u32max →
        reps.getD m u32max < t.length ∧ reps.getD m u32max ∉ ss ∧
        bucketOf t ss (reps.getD m u32max) = m) := H4
  by_cases hmem : j ∈ ss
  · have hr : binarySASearch t j ss = u32max := by
      simp [binarySASearch, hmem]
    rw [show measureStep t ss (szs, reps, rnd) j = (szs, reps, rnd) from by
      simp [measureStep, hr]]
    refine ⟨H1, H2, ?_, H4⟩
    intro m hm
    rw [H3 m hm, List.range_succ, List.filter_append]
    rw [show List.filter
        (fun i => !ss.contains i && (bucketOf t ss i == m)) [j] = [] from by
      simp [contains_eq, hmem]]
    rw [List.append_nil]
  · have hbo_le : bucketOf t ss j ≤ ss.length := List.countP_le_length _
    have hr : binarySASearch t j ss = bucketOf t ss j := by
      simp [binarySASearch, hmem, bucketOf]
    have hrne : bucketOf t ss j ≠ u32max := by
      have hsl := PassInv_length_le t ss hP
      unfold u32max at hlen ⊢
      omega
    have hrszs : bucketOf t ss j < szs.length := by omega
    have hrreps : bucketOf t ss j < reps.length := by omega
    have hjne : j ≠ u32max := by
      unfold u32max at hlen ⊢
      omega
    have hgoal : ∀ (reps' : List Nat) (rnd' : RandomSource),
        reps'.length = ss.length + 1 →
        (reps' = reps.set (bucketOf t ss j) j ∨
          (reps' = reps ∧ reps.getD (bucketOf t ss j) u32max ≠ u32max)) →
        MeasInv t ss (j + 1)
          (szs.set (bucketOf t ss j) (szs.getD (bucketOf t ss j) 0 + 1),
            reps', rnd') := by
      intro reps' rnd' hlen' hcase
      refine ⟨by simpa using H1, hlen', ?_, ?_⟩
      · intro m hm
        show (szs.set (bucketOf t ss j)
          (szs.getD (bucketOf t ss j) 0 + 1)).getD m 0 = _
        rw [getD_set szs _ hrszs _ m 0, List.range_succ, List.filter_append,
          List.length_append]
        by_cases hmr : bucketOf t ss j = m
        · rw [if_pos hmr]
          rw [show List.filter
              (fun i => !ss.contains i && (bucketOf t ss i == m)) [j] = [j]
              from by simp [contains_eq, hmem, hmr]]
          rw [H3 _ hbo_le, hmr]
          simp
        · rw [if_neg hmr]
          rw [show List.filter
              (fun i => !ss.contains i && (bucketOf t ss i == m)) [j] = []
              from by simp [contains_eq, hmem, hmr]]
          rw [H3 m hm]
          simp
      · intro m hm
        show (0 < (szs.set (bucketOf t ss j)
            (szs.getD (bucketOf t ss j) 0 + 1)).getD m 0 →
            reps'.getD m u32max ≠ u32max) ∧ _
        rw [getD_set szs _ hrszs _ m 0]
        rcases hcase with rfl | ⟨rfl, hrne'⟩
        · rw [getD_set reps _ hrreps j m u32max]
          by_cases hmr : bucketOf t ss j = m
          · rw [if_pos hmr, if_pos hmr]
            exact ⟨fun _ => hjne,
              fun _ => ⟨hj, hmem, hmr⟩⟩
          · rw [if_neg hmr, if_neg hmr]
            exact H4 m hm
        · by_cases hmr : bucketOf t ss j = m
          · rw [if_pos hmr]
            rw [hmr] at hrne'
            exact ⟨fun _ => hrne', (H4 m hm).2⟩
          · rw [if_neg hmr]
            exact H4 m hm
    by_cases hrep : reps.getD (bucketOf t ss j) u32max = u32max
    · rw [show measureStep t ss (szs, reps, rnd) j =
          (szs.set (bucketOf t ss j) (szs.getD (bucketOf t ss j) 0 + 1),
            reps.set (bucketOf t ss j) j, rnd) from by
        simp only [measureStep]
        rw [hr, if_neg hrne, if_pos hrep]]
      exact hgoal _ rnd (by simpa using H2) (Or.inl rfl)
    · by_cases hcoin : rnd.nextU32.1 % 2 = 0
      · rw [show measureStep t ss (szs, reps, rnd) j =
            (szs.set (bucketOf t ss j) (szs.getD (bucketOf t ss j) 0 + 1),
              reps.set (bucketOf t ss j) j, rnd.nextU32.2) from by
          simp only [measureStep]
          rw [hr, if_neg hrne, if_neg hrep, if_pos hcoin]]
        exact hgoal _ _ (by simpa using H2) (Or.inl rfl)
      · rw [show measureStep t ss (szs, reps, rnd) j =
            (szs.set (bucketOf t ss j) (szs.getD (bucketOf t ss j) 0 + 1),
              reps, rnd.nextU32.2) from by
          simp only [measureStep]
          rw [hr, if_neg hrne, if_neg hrep, if_neg hcoin]]
        exact hgoal _ _ H2 (Or.inr ⟨rfl, hrep⟩)

theorem measureFold_inv (t ss : List Nat) (hP : PassInv t ss)
    (hlen : t.length < u32max) (rnd : RandomSource) :
    ∀ j, j ≤ t.length →
      MeasInv t ss j ((List.range j).foldl (measureStep t ss)
        (List.replicate (ss.length + 1) 0,
         List.replicate (ss.length + 1) u32max, rnd)) := by
  intro j
  induction j with
  | zero =>
    intro _
    refine ⟨by simp, by simp, ?_, ?_⟩
    · intro m hm
      show (List.replicate (ss.length + 1) 0).getD m 0 = _
      rw [getD_replicate]
      simp
    · intro m hm
      show (0 < (List.replicate (ss.length + 1) 0).getD m 0 → _) ∧ _
      rw [getD_replicate]
      constructor
      · intro h
        split at h <;> omega
      · intro h
        exfalso
        apply h
        show (List.replicate (ss.length + 1) u32max).getD m u32max = u32max
        rw [getD_replicate]
        split <;> rfl
  | succ j ih =>
    intro hj
    rw [List.range_succ, List.foldl_append, List.foldl_cons, List.foldl_nil]
    exact measureStep_inv t ss hP hlen j (by omega) _ (ih (by omega))

theorem measurePass_inv (t ss : List Nat) (hP : PassInv t ss)
    (hlen : t.length < u32max) (rnd : RandomSource) :
    MeasInv t ss t.length (measurePass t ss rnd) :=
  measureFold_inv t ss hP hlen rnd t.length le_rfl

/-! The split-and-merge loop of buildSamples: it preserves the
well-formedness of the sample list, never decreases the split count,
and when it performs no split it leaves every bucket within the size
bound. -/

theorem msPass_master (t : List Nat) (hlen : t.length < u32max)
    (bsz : Nat) :
    ∀ (fuel : Nat) (ss szs reps : List Nat) (added i : Nat),
      szs.length ≤ i + fuel →
      MsInv t ss szs reps added i →
      PassInv t (msPass bsz fuel ss szs reps added i).1 ∧
      added ≤ (msPass bsz fuel ss szs reps added i).2 ∧
      ((msPass bsz fuel ss szs reps added i).2 = added →
        (∀ m, m < i + added → bucketSize t ss m ≤ bsz) →
        ∀ m, bucketSize t (msPass bsz fuel ss szs reps added i).1 m ≤ bsz)
    := by
  intro fuel
  induction fuel with
  | zero =>
    intro ss szs reps added i hfuel hInv
    obtain ⟨hPI, hlr, hlsz, h4, h5⟩ := hInv
    refine ⟨hPI, le_rfl, ?_⟩
    intro _ hpre m
    show bucketSize t ss m ≤ bsz
    by_cases hm : m < i + added
    · exact hpre m hm
    · rw [bucketSize_gt t ss m (by omega)]
      omega
  | succ fuel ih =>
    intro ss szs reps added i hfuel hInv
    obtain ⟨hPI, hlr, hlsz, h4, h5⟩ := hInv
    by_cases hi : i < szs.length
    · by_cases hmerge : (if i + 1 < szs.length then
          szs.getD i 0 + szs.getD (i + 1) 0 + 1 else bsz + 1) ≤ bsz
      · -- merge: erase the boundary sample and collapse the entries
        have hi1 : i + 1 < szs.length := by
          by_contra hc
          rw [if_neg hc] at hmerge
          omega
        have hpss : i + added < ss.length := by omega
        have heq : msPass bsz (fuel + 1) ss szs reps added i =
            msPass bsz fuel (ss.eraseIdx (i + added))
              ((szs.set (i + 1)
                (szs.getD (i + 1) 0 + szs.getD i 0 + 1)).eraseIdx i)
              ((reps.set (i + 1) (ss.getD (i + added) 0)).eraseIdx i)
              added i := by
          simp only [msPass]
          rw [if_pos hi, if_pos hmerge]
        rw [heq]
        have hnd := PassInv_nodup t ss hPI
        have hsget : ss.getD (i + added) 0 = ss.get ⟨i + added, hpss⟩ :=
          getD_eq_get ss (i + added) hpss
        have hsplen : ss.get ⟨i + added, hpss⟩ < t.length :=
          hPI.2 _ (List.get_mem ss (i + added) hpss)
        have hPI' : PassInv t (ss.eraseIdx (i + added)) :=
          ⟨List.Pairwise.sublist (List.eraseIdx_sublist ss (i + added))
              hPI.1,
            fun x hx =>
              hPI.2 x ((List.eraseIdx_sublist ss (i + added)).subset hx)⟩
        have hszslen : ((szs.set (i + 1)
            (szs.getD (i + 1) 0 + szs.getD i 0 + 1)).eraseIdx i).length =
            szs.length - 1 := by
          simp only [List.length_eraseIdx, List.length_set, if_pos hi]
        have hrepslen : ((reps.set (i + 1)
            (ss.getD (i + added) 0)).eraseIdx i).length =
            szs.length - 1 := by
          simp only [List.length_eraseIdx, List.length_set]
          rw [if_pos (by omega), hlr]
        have hgetszs : ∀ m, i ≤ m → m < szs.length - 1 →
            ((szs.set (i + 1)
              (szs.getD (i + 1) 0 + szs.getD i 0 + 1)).eraseIdx i).getD m 0 =
            if i + 1 = m + 1 then szs.getD (i + 1) 0 + szs.getD i 0 + 1
            else szs.getD (m + 1) 0 := by
          intro m him hm
          rw [getD_eraseIdx_ge _ i (by simp [List.length_set]; omega) m 0 him,
            getD_set szs (i + 1) (by omega) _ (m + 1) 0]
        have hgetreps : ∀ m, i ≤ m → m < szs.length - 1 →
            ((reps.set (i + 1)
              (ss.getD (i + added) 0)).eraseIdx i).getD m u32max =
            if i + 1 = m + 1 then ss.getD (i + added) 0
            else reps.getD (m + 1) u32max := by
          intro m him hm
          rw [getD_eraseIdx_ge _ i (by simp [List.length_set]; omega) m
            u32max him, getD_set reps (i + 1) (by omega) _ (m + 1) u32max]
        have hInv' : MsInv t (ss.eraseIdx (i + added))
            ((szs.set (i + 1)
              (szs.getD (i + 1) 0 + szs.getD i 0 + 1)).eraseIdx i)
            ((reps.set (i + 1) (ss.getD (i + added) 0)).eraseIdx i)
            added i := by
          refine ⟨hPI', by omega, ?_, ?_, ?_⟩
          · rw [hszslen]
            simp only [List.length_eraseIdx, if_pos hpss]
            omega
          · intro m him hm
            rw [hszslen] at hm
            rw [hgetszs m him hm]
            by_cases hmi : m = i
            · subst hmi
              rw [if_pos rfl,
                bucketSize_eraseIdx_self t ss hPI (m + added) hpss,
                h4 m le_rfl hi, h4 (m + 1) (by omega) hi1,
                show m + added + 1 = m + 1 + added by omega]
              omega
            · rw [if_neg (by omega),
                bucketSize_eraseIdx_gt t ss hPI (i + added) hpss (m + added)
                  (by omega), h4 (m + 1) (by omega) (by omega)]
              rw [show m + added + 1 = m + 1 + added by omega]
          · intro m him hm
            rw [hszslen] at hm
            rw [hgetszs m him hm, hgetreps m him hm]
            by_cases hmi : m = i
            · subst hmi
              rw [if_pos rfl, if_pos rfl, hsget]
              have hspne : ss.get ⟨m + added, hpss⟩ ≠ u32max := by
                unfold u32max at hlen ⊢
                omega
              refine ⟨fun _ => hspne, fun _ => ⟨hsplen, ?_, ?_⟩⟩
              · exact get_not_mem_eraseIdx ss hnd (m + added) hpss
              · exact bucketOf_eraseIdx_self t ss hPI.1 (m + added) hpss
            · rw [if_neg (by omega), if_neg (by omega)]
              obtain ⟨ha, hb⟩ := h5 (m + 1) (by omega) (by omega)
              refine ⟨ha, fun hne => ?_⟩
              obtain ⟨hv1, hv2, hv3⟩ := hb hne
              refine ⟨hv1, fun hc =>
                hv2 ((List.eraseIdx_sublist ss (i + added)).subset hc), ?_⟩
              rw [bucketOf_eraseIdx t ss hPI (i + added) hpss _
                (by omega) hv2, if_neg (by omega)]
              omega
        obtain ⟨c1, c2, c3⟩ := ih (ss.eraseIdx (i + added)) _ _ added i
          (by omega) hInv'
        refine ⟨c1, c2, ?_⟩
        intro hadd hpre
        apply c3 hadd
        intro m hm
        rw [bucketSize_eraseIdx_lt t ss hPI (i + added) hpss m (by omega)]
        exact hpre m hm
      · by_cases hsplit : bsz < szs.getD i 0
        · -- split: insert the bucket representative
          have heq : msPass bsz (fuel + 1) ss szs reps added i =
              msPass bsz fuel
                (ss.insertIdx (i + added) (reps.getD i u32max)) szs reps
                (added + 1) (i + 1) := by
            simp only [msPass]
            rw [if_pos hi, if_neg hmerge, if_pos hsplit]
          rw [heq]
          have hszpos : 0 < szs.getD i 0 := by omega
          have hrne : reps.getD i u32max ≠ u32max :=
            (h5 i le_rfl hi).1 hszpos
          obtain ⟨hrlen, hrns, hrbo⟩ := (h5 i le_rfl hi).2 hrne
          have hple : i + added ≤ ss.length := by
            have h := List.countP_le_length
              (p := fun s => sufLt t s (reps.getD i u32max)) (l := ss)
            unfold bucketOf at hrbo
            omega
          have hb := bucketOf_spec t ss hPI.1 hPI.2 (reps.getD i u32max)
            (by omega) hrns
          have hPI2 : PassInv t
              (ss.insertIdx (i + added) (reps.getD i u32max)) := by
            constructor
            · apply pairwise_insertIdx (fun a b => sufLt t a b) _ ss
                (i + added) hple hPI.1
              · intro q hq hqp
                exact hb.2.1 q hq (by omega)
              · intro q hq hqp
                exact hb.2.2 q hq (by omega)
            · intro x hx
              rcases (List.mem_insertIdx hple).mp hx with rfl | hx
              · exact hrlen
              · exact hPI.2 x hx
          have hInv' : MsInv t
              (ss.insertIdx (i + added) (reps.getD i u32max)) szs reps
              (added + 1) (i + 1) := by
            refine ⟨hPI2, hlr, ?_, ?_, ?_⟩
            · rw [List.length_insertIdx _ _ hple]
              omega
            · intro m him hm
              rw [h4 m (by omega) hm,
                show m + (added + 1) = m + added + 1 by omega,
                bucketSize_insertIdx_high t ss (i + added) hple _ hrlen
                  hrns hrbo (m + added) (by omega)]
            · intro m him hm
              obtain ⟨ha, hbv⟩ := h5 m (by omega) hm
              refine ⟨ha, fun hne => ?_⟩
              obtain ⟨hv1, hv2, hv3⟩ := hbv hne
              have hvne : reps.getD m u32max ≠ reps.getD i u32max := by
                intro hc
                rw [hc, hrbo] at hv3
                omega
              refine ⟨hv1, fun hc => ?_, ?_⟩
              · rcases (List.mem_insertIdx hple).mp hc with hcc | hcc
                · exact hvne hcc
                · exact hv2 hcc
              · rw [bucketOf_insertIdx t ss (i + added) hple _ _,
                  if_pos (sufLt_of_bucketOf_lt t ss _ _ (by omega)
                    (by omega) (by rw [hrbo, hv3]; omega))]
                omega
          obtain ⟨c1, c2, c3⟩ := ih _ szs reps (added + 1) (i + 1)
            (by omega) hInv'
          refine ⟨c1, by omega, ?_⟩
          intro hadd _
          exfalso
          omega
        · -- skip: the bucket fits; advance
          have heq : msPass bsz (fuel + 1) ss szs reps added i =
              msPass bsz fuel ss szs reps added (i + 1) := by
            simp only [msPass]
            rw [if_pos hi, if_neg hmerge, if_neg hsplit]
          rw [heq]
          have hInv' : MsInv t ss szs reps added (i + 1) := by
            refine ⟨hPI, hlr, hlsz, ?_, ?_⟩
            · intro m him hm
              exact h4 m (by omega) hm
            · intro m him hm
              exact h5 m (by omega) hm
          obtain ⟨c1, c2, c3⟩ := ih ss szs reps added (i + 1)
            (by omega) hInv'
          refine ⟨c1, c2, ?_⟩
          intro hadd hpre
          apply c3 hadd
          intro m hm
          by_cases hm2 : m < i + added
          · exact hpre m hm2
          · have hmeq : m = i + added := by omega
            rw [hmeq, ← h4 i le_rfl hi]
            omega
    · rw [show msPass bsz (fuel + 1) ss szs reps added i = (ss, added)
        from by
          simp only [msPass]
          rw [if_neg hi]]
      refine ⟨hPI, le_rfl, ?_⟩
      intro _ hpre m
      by_cases hm : m < i + added
      · exact hpre m hm
      · rw [bucketSize_gt t ss m (by omega)]
        omega

/-! buildSamples produces a well-formed sample list whose buckets all
fit in the requested size. -/

theorem drawSamples_length (n : Nat) :
    ∀ (r : RandomSource) (len : Nat), (drawSamples r n len).1.length = n := by
  induction n with
  | zero =>
    intro r len
    rfl
  | succ n ih =>
    intro r len
    simp [drawSamples, ih]

theorem drawSamples_lt (n : Nat) :
    ∀ (r : RandomSource) (len : Nat), 0 < len →
      ∀ x ∈ (drawSamples r n len).1, x < len := by
  induction n with
  | zero =>
    intro r len _ x hx
    exact absurd hx (List.not_mem_nil x)
  | succ n ih =>
    intro r len hlen x hx
    rw [show (drawSamples r (n + 1) len).1 =
      r.nextU32.1 % len :: (drawSamples r.nextU32.2 n len).1 from rfl] at hx
    rw [List.mem_cons] at hx
    rcases hx with hx1 | hx
    · rw [hx1]
      apply Nat.mod_lt
      omega
    · exact ih _ len hlen x hx

theorem initPass (t : List Nat) (d : List Nat)
    (hd : ∀ x ∈ d, x < t.length) :
    PassInv t (sortSuffixes t
      (dedupAdj (insSort (fun a b => decide (a < b)) d))) := by
  have hperm1 : (insSort (fun a b => decide (a < b)) d).Perm d :=
    insSort_perm _ d
  have hsor1 : (insSort (fun a b => decide (a < b)) d).Pairwise
      (fun a b => a ≤ b) := by
    have h := insSort_pairwise (fun a b => decide (a < b))
      (fun a b hab => by simp at hab ⊢; omega)
      (fun a b c hab hbc => by simp at hab hbc ⊢; omega) d
    exact h.imp (fun hab => by simp at hab; omega)
  have hsor2 : (dedupAdj (insSort (fun a b => decide (a < b)) d)).Pairwise
      (fun a b => a < b) := dedupAdj_sorted_strict _ hsor1
  have hmem2 : ∀ x ∈ dedupAdj (insSort (fun a b => decide (a < b)) d),
      x < t.length :=
    fun x hx => hd x (hperm1.subset (dedupAdj_subset _ hx))
  have hnd2 : (dedupAdj (insSort (fun a b => decide (a < b)) d)).Nodup :=
    hsor2.imp (fun h => Nat.ne_of_lt h)
  constructor
  · exact sortSuffixes_pairwise t _ (fun x hx => le_of_lt (hmem2 x hx)) hnd2
  · intro x hx
    exact hmem2 x ((sortSuffixes_perm t _).subset hx)

theorem refineLoop_spec (t : List Nat) (hlen : t.length < u32max)
    (bsz : Nat) :
    ∀ (lim : Nat) (ss : List Nat) (rnd : RandomSource) (out : List Nat)
      (rnd2 : RandomSource), PassInv t ss →
      refineLoop t bsz ss rnd lim = (some out, rnd2) →
      PassInv t out ∧ ∀ m, bucketSize t out m ≤ bsz := by
  intro lim
  induction lim with
  | zero =>
    intro ss rnd out rnd2 _ h
    exact absurd h (by simp [refineLoop])
  | succ lim ih =>
    intro ss rnd out rnd2 hP h
    obtain ⟨M1, M2, M3, M4⟩ := measurePass_inv t ss hP hlen rnd
    have hInv : MsInv t ss (measurePass t ss rnd).1
        (measurePass t ss rnd).2.1 0 0 := by
      refine ⟨hP, by omega, by omega, ?_, ?_⟩
      · intro m _ hm
        rw [Nat.add_zero, M3 m (by omega)]
        rfl
      · intro m _ hm
        have := M4 m (by omega)
        simpa using this
    have hms := msPass_master t hlen bsz (measurePass t ss rnd).1.length ss
      (measurePass t ss rnd).1 (measurePass t ss rnd).2.1 0 0
      (by omega) hInv
    by_cases hz : (msPass bsz (measurePass t ss rnd).1.length ss
        (measurePass t ss rnd).1 (measurePass t ss rnd).2.1 0 0).2 = 0
    · rw [show refineLoop t bsz ss rnd (lim + 1) =
          (some ((msPass bsz (measurePass t ss rnd).1.length ss
            (measurePass t ss rnd).1 (measurePass t ss rnd).2.1 0 0).1),
            (measurePass t ss rnd).2.2) from by
        simp only [refineLoop]
        rw [if_pos hz]] at h
      obtain ⟨h1, -⟩ := Prod.mk.injEq .. ▸ h
      injection h1 with h1
      subst h1
      refine ⟨hms.1, hms.2.2 hz ?_⟩
      intro m hm
      omega
    · rw [show refineLoop t bsz ss rnd (lim + 1) =
          refineLoop t bsz (msPass bsz (measurePass t ss rnd).1.length ss
            (measurePass t ss rnd).1 (measurePass t ss rnd).2.1 0 0).1
            (measurePass t ss rnd).2.2 lim from by
        simp only [refineLoop]
        rw [if_neg hz]] at h
      exact ih _ _ _ _ hms.1 h

theorem buildSamples_spec (t : List Nat) (hlen : t.length < u32max)
    (hpos : 0 < t.length) (bucketSz : Nat) :
    ∀ (fuel : Nat) (rnd : RandomSource) (ss : List Nat)
      (rnd2 : RandomSource),
      buildSamples t bucketSz rnd fuel = some (ss, rnd2) →
      PassInv t ss ∧ ∀ m, bucketSize t ss m ≤ bucketSz - 1 := by
  intro fuel
  induction fuel with
  | zero =>
    intro rnd ss rnd2 h
    exact absurd h (by simp [buildSamples])
  | succ fuel ih =>
    intro rnd ss rnd2 h
    have hP1 := initPass t
      (drawSamples rnd (numSamplesOf t.length (bucketSz - 1)) t.length).1
      (drawSamples_lt _ _ _ hpos)
    rcases hrl : refineLoop t (bucketSz - 1)
        (sortSuffixes t (dedupAdj (insSort (fun a b => decide (a < b))
          (drawSamples rnd (numSamplesOf t.length (bucketSz - 1))
            t.length).1)))
        (drawSamples rnd (numSamplesOf t.length (bucketSz - 1)) t.length).2
        19 with ⟨o, rnd3⟩
    rcases o with _ | ssOut
    · rw [show buildSamples t bucketSz rnd (fuel + 1) =
          buildSamples t bucketSz rnd3 fuel from by
        simp only [buildSamples]
        rw [hrl]] at h
      exact ih rnd3 ss rnd2 h
    · rw [show buildSamples t bucketSz rnd (fuel + 1) =
          some (ssOut, rnd3) from by
        simp only [buildSamples]
        rw [hrl]] at h
      injection h with h1
      obtain ⟨ha, -⟩ := Prod.mk.injEq .. ▸ h1
      subst ha
      exact refineLoop_spec t hlen (bucketSz - 1) 19 _ _ _ _ hP1 hrl

theorem bucketSize_nil_zero (t : List Nat) : bucketSize t [] 0 = t.length := by
  unfold bucketSize
  rw [show List.filter
      (fun i => !([] : List Nat).contains i && (bucketOf t [] i == 0))
      (List.range t.length) = List.range t.length from
    List.filter_eq_self.mpr (fun i _ => by simp [bucketOf])]
  exact List.length_range t.length

theorem buildK_spec (t : List Nat) (B dcV seed fuel : Nat) (s : KSt)
    (hlen : t.length < u32max) (hbk : buildK t B dcV seed fuel = some s) :
    s = ⟨t, max B 2, dcV, s.sampleSuffs, 0, [], u32max, u32max⟩ ∧
    PassInv t s.sampleSuffs ∧
    (∀ m, bucketSize t s.sampleSuffs m ≤ max B 2 - 1) := by
  by_cases hble : max B 2 ≤ t.length
  · rcases hbs : buildSamples t (max B 2) ⟨seed⟩ fuel with _ | ⟨ss, rnd2⟩
    · rw [show buildK t B dcV seed fuel = none from by
        simp only [buildK]
        rw [if_pos hble, hbs]] at hbk
      exact absurd hbk (by simp)
    · rw [show buildK t B dcV seed fuel =
          some ⟨t, max B 2, dcV, ss, 0, [], u32max, u32max⟩ from by
        simp only [buildK]
        rw [if_pos hble, hbs]] at hbk
      injection hbk with h
      subst h
      have hspec := buildSamples_spec t hlen (by omega) (max B 2) fuel
        ⟨seed⟩ ss rnd2 hbs
      exact ⟨rfl, hspec.1, hspec.2⟩
  · rw [show buildK t B dcV seed fuel =
        some ⟨t, max B 2, dcV, [], 0, [], u32max, u32max⟩ from by
      simp only [buildK]
      rw [if_neg hble]] at hbk
    injection hbk with h
    subst h
    refine ⟨rfl, ⟨List.Pairwise.nil, by simp⟩, ?_⟩
    intro m
    by_cases hm : m = 0
    · subst hm
      show bucketSize t [] 0 ≤ max B 2 - 1
      rw [bucketSize_nil_zero]
      omega
    · show bucketSize t [] m ≤ max B 2 - 1
      rw [bucketSize_gt t [] m (by simp; omega)]
      omega

theorem blockAt_length (t : List Nat) (dcV : Nat) (ss : List Nat) (k : Nat)
    (hP : PassInv t ss) (hk : k ≤ ss.length) :
    (blockAt t dcV ss k).length = bucketSize t ss k + 1 := by
  rw [blockAt_eq t dcV ss k hP hk]
  rw [List.length_append, List.length_singleton,
    (sortSuffixes_perm t _).length_eq]
  congr 1
  unfold bucketSize
  congr 1
  apply List.filter_congr
  intro i hi
  rw [List.mem_range] at hi
  apply Bool.eq_iff_iff.mpr
  rw [inBucket_iff t ss hP i hi k hk]
  simp [contains_eq]

theorem emitAll_build (t : List Nat) (B dcV seed fuel : Nat) (s : KSt)
    (hlen : t.length < u32max) (hbk : buildK t B dcV seed fuel = some s) :
    emitAll s = fullBlocks t dcV s.sampleSuffs := by
  obtain ⟨hshape, -, -⟩ := buildK_spec t B dcV seed fuel s hlen hbk
  conv_lhs => rw [hshape]
  exact emitAll_fresh t (max B 2) dcV s.sampleSuffs

theorem buildK_shape (t : List Nat) (B dcV seed fuel : Nat) (s : KSt)
    (hbk : buildK t B dcV seed fuel = some s) :
    s.cur = 0 ∧ s.itrBucket = [] ∧ s.itrBucketPos = u32max ∧
    s.itrPushedBack = u32max := by
  by_cases hble : max B 2 ≤ t.length
  · rcases hbs : buildSamples t (max B 2) ⟨seed⟩ fuel with _ | ⟨ss, rnd2⟩
    · rw [show buildK t B dcV seed fuel = none from by
        simp only [buildK]
        rw [if_pos hble, hbs]] at hbk
      exact absurd hbk (by simp)
    · rw [show buildK t B dcV seed fuel =
          some ⟨t, max B 2, dcV, ss, 0, [], u32max, u32max⟩ from by
        simp only [buildK]
        rw [if_pos hble, hbs]] at hbk
      injection hbk with h
      subst h
      exact ⟨rfl, rfl, rfl, rfl⟩
  · rw [show buildK t B dcV seed fuel =
        some ⟨t, max B 2, dcV, [], 0, [], u32max, u32max⟩ from by
      simp only [buildK]
      rw [if_neg hble]] at hbk
    injection hbk with h
    subst h
    exact ⟨rfl, rfl, rfl, rfl⟩

/-! The claims. -/

/-- Claim C1 (amended): exhausting the iterator of a successfully
constructed builder emits every offset of 0..n exactly once, and
consecutive emitted offsets ascend in the suffix order the code
implements, under which a suffix that falls off the end of the text is
the GREATER one (the conceptual appended sentinel is the largest
symbol).  The spec's direction — $ smallest — is refuted by
c1_counterexample. -/
theorem c1_full_iteration (t : List Nat) (B dcV seed fuel : Nat)
    (s : KSt) (hlen : t.length < u32max)
    (hbk : buildK t B dcV seed fuel = some s) :
    (emitAll s).Perm (List.range (t.length + 1)) ∧
    (emitAll s).Pairwise (fun a b => sufLt t a b = true) := by
  obtain ⟨-, hP, -⟩ := buildK_spec t B dcV seed fuel s hlen hbk
  rw [emitAll_build t B dcV seed fuel s hlen hbk]
  exact ⟨fullBlocks_perm t dcV s.sampleSuffs hP,
    fullBlocks_pairwise t dcV s.sampleSuffs hP⟩

/-- Claim C1, witness at the one-symbol text. -/
theorem c1_full_iteration_witness :
    ([0] : List Nat).length < u32max ∧
    ((emitAll ⟨[0], 2, 0, [], 0, [], u32max, u32max⟩).Perm
      (List.range 2) ∧
     (emitAll ⟨[0], 2, 0, [], 0, [], u32max, u32max⟩).Pairwise
      (fun a b => sufLt [0] a b = true)) :=
  ⟨by decide, c1_full_iteration [0] 2 0 0 2
    ⟨[0], 2, 0, [], 0, [], u32max, u32max⟩ (by decide) (by decide)⟩

/-- Claim C1, counterexample to the spec's order: the iterator built on
the one-symbol text emits [0, 1], and the consecutive pair 0, 1 is NOT
ascending when the appended sentinel is taken as the smallest symbol
(suffix(1) is the bare sentinel, which that convention puts first). -/
theorem c1_counterexample :
    (buildK [0] 2 0 0 2).map emitAll = some [0, 1] ∧
    specSufLt [0] 0 1 = false := by decide

/-- Claim C2: every bucket nextBlock assembles over a full iteration,
its appended boundary element included, holds at most B offsets;
equivalently, sample building leaves every induced bucket of size at
most bsz = B - 1. -/
theorem c2_bucket_bound (t : List Nat) (B dcV seed fuel : Nat) (s : KSt)
    (hlen : t.length < u32max) (hB : 2 ≤ B)
    (hbk : buildK t B dcV seed fuel = some s) (k : Nat)
    (hk : k ≤ s.sampleSuffs.length) :
    (blockAt t dcV s.sampleSuffs k).length ≤ B ∧
    bucketSize t s.sampleSuffs k ≤ B - 1 := by
  obtain ⟨-, hP, hsz⟩ := buildK_spec t B dcV seed fuel s hlen hbk
  have hmax : max B 2 = B := by omega
  have h1 := hsz k
  rw [hmax] at h1
  refine ⟨?_, h1⟩
  rw [blockAt_length t dcV s.sampleSuffs k hP hk]
  omega

/-- Claim C2, witness at the one-symbol text (single all-inclusive
bucket). -/
theorem c2_bucket_bound_witness :
    (blockAt [0] 0 [] 0).length ≤ 2 ∧ bucketSize [0] [] 0 ≤ 2 - 1 :=
  c2_bucket_bound [0] 2 0 0 2 ⟨[0], 2, 0, [], 0, [], u32max, u32max⟩
    (by decide) (by decide) (by decide) 0 (by decide)

/-- Claim C3 (amended): for valid offsets i and cmp with i distinct
from cmp, and any comparator state satisfying its invariant with
st.j < i, suffixCmp answers exactly the character-wise suffix order the
code implements — under which a suffix that falls off the text end is
the GREATER one — and returns a state satisfying the invariant again.
The spec's direction for the exhausted left suffix ($ smallest, so the
comparator should report it smaller) is refuted by
c3_counterexample. -/
theorem c3_comparator (t : List Nat) (dcV cmp i : Nat) (st : CmpSt)
    (hInv : CmpInv t cmp st) (hji : st.j < (i : Int)) (hi : i < t.length)
    (hcmp : cmp < t.length) (hne : i ≠ cmp) :
    ((suffixCmp t dcV (dcOf t dcV) cmp (zArrayOf t cmp dcV) i st).1 =
      sufLt t i cmp) ∧
    CmpInv t cmp
      (suffixCmp t dcV (dcOf t dcV) cmp (zArrayOf t cmp dcV) i st).2 := by
  obtain ⟨h1, h2, -⟩ :=
    suffixCmp_sound t dcV cmp i st hInv hji hi hcmp hne
  exact ⟨h1, h2⟩

/-- Claim C3, witness on a two-symbol text from the pristine state. -/
theorem c3_comparator_witness :
    ((suffixCmp [0, 1] 0 (dcOf [0, 1] 0) 0 (zArrayOf [0, 1] 0 0) 1
      ⟨-1, -1, false⟩).1 = sufLt [0, 1] 1 0) ∧
    CmpInv [0, 1] 0
      (suffixCmp [0, 1] 0 (dcOf [0, 1] 0) 0 (zArrayOf [0, 1] 0 0) 1
        ⟨-1, -1, false⟩).2 :=
  c3_comparator [0, 1] 0 0 1 ⟨-1, -1, false⟩ (Or.inl ⟨rfl, rfl, rfl⟩)
    (by decide) (by decide) (by decide) (by decide)

/-- Claim C3, counterexample to the spec's convention: on the text
"aa", comparing suffix(1) = "a" against the bookend suffix(0) = "aa",
the comparator answers false (the shorter suffix is NOT smaller),
whereas with the $ sentinel smallest suffix(1) precedes suffix(0). -/
theorem c3_counterexample :
    (suffixCmp [0, 0] 0 none 0 [] 1 ⟨-1, -1, false⟩).1 = false ∧
    specSufLt [0, 0] 1 0 = true := by decide

/-- Claim C4: the builder is a deterministic function of the text, the
bucket size, the difference-cover periodicity and the seed: two
successful constructions from identical parameters emit identical full
sequences. -/
theorem c4_determinism (t : List Nat) (B dcV seed fuel : Nat)
    (s1 s2 : KSt) (h1 : buildK t B dcV seed fuel = some s1)
    (h2 : buildK t B dcV seed fuel = some s2) :
    emitAll s1 = emitAll s2 := by
  rw [h1] at h2
  injection h2 with h
  rw [h]

/-- Claim C4, witness at the one-symbol text. -/
theorem c4_determinism_witness :
    emitAll ⟨[0], 2, 0, [], 0, [], u32max, u32max⟩ =
      emitAll ⟨[0], 2, 0, [], 0, [], u32max, u32max⟩ :=
  c4_determinism [0] 2 0 5 2
    ⟨[0], 2, 0, [], 0, [], u32max, u32max⟩
    ⟨[0], 2, 0, [], 0, [], u32max, u32max⟩ (by decide) (by decide)

/-- Claim C5 (amended): step 1 of sample building draws exactly
((n / bsz) + 1) * 2 candidate offsets — roughly 2 * (n / bsz), i.e.
about 2x over-sampling, not the 2 * ceil(n / bsz) * 2 of the spec
(refuted by c5_counterexample) — each reduced modulo n and hence in
[0, n) for a nonempty text. -/
theorem c5_draw_count (len bsz : Nat) (r : RandomSource)
    (hlen : 0 < len) :
    (drawSamples r (numSamplesOf len bsz) len).1.length =
      ((len / bsz) + 1) * 2 ∧
    ∀ x ∈ (drawSamples r (numSamplesOf len bsz) len).1, x < len :=
  ⟨drawSamples_length _ _ _, drawSamples_lt _ _ _ hlen⟩

/-- Claim C5, witness at n = 6, bsz = 2, seed 0. -/
theorem c5_draw_count_witness :
    (drawSamples ⟨0⟩ (numSamplesOf 6 2) 6).1.length = ((6 / 2) + 1) * 2 ∧
    ∀ x ∈ (drawSamples ⟨0⟩ (numSamplesOf 6 2) 6).1, x < 6 :=
  c5_draw_count 6 2 ⟨0⟩ (by decide)

/-- Claim C5, counterexample: at n = 6, bsz = 2 the code draws
numSamplesOf 6 2 = 8 candidates while the spec's formula
2 * ceil(6 / 2) * 2 gives 12. -/
theorem c5_counterexample :
    numSamplesOf 6 2 = 8 ∧ 2 * ((6 + 2 - 1) / 2) * 2 = 12 := by decide

/-- Claim C6 (amended): constructing with dcV = 0 never builds the
difference cover, disabling the tie-breaker, and the banana build
(B = 3, seed 0) succeeds and emits [1, 3, 5, 0, 2, 4, 6] — the suffix
array under the sentinel-largest order the code implements — not the
spec's [6, 5, 3, 1, 0, 4, 2] (refuted by c6_counterexample); moreover
the constructed state's dcV field violates the assert_gt(_dcV, 3)
of nextBlock (src/blockwise_sa.h line 714), so the spec's "its
assertions hold" fails as well in an assertion-enabled build. -/
theorem c6_banana :
    (buildK bananaT 3 0 0 2).map emitAll = some [1, 3, 5, 0, 2, 4, 6] ∧
    (dcOf bananaT 0).isNone = true ∧
    (buildK bananaT 3 0 0 2).map (fun s => decide (3 < s.dcV)) =
      some false := by decide

/-- Claim C6, counterexample: the banana build does not emit the
sequence the spec asserts. -/
theorem c6_counterexample :
    (buildK bananaT 3 0 0 2).map emitAll ≠ some [6, 5, 3, 1, 0, 4, 2] := by
  decide

/-- Claim C7: nextSuffix fails (the Exhausted throw of the source)
exactly when the pushback slot is clear, the in-memory bucket is
consumed and the block cursor has passed every sample — after all n+1
suffixes and at no other time; a successful build emits exactly n+1
offsets, and on the empty text every build emits exactly [0] before
the failure. -/
theorem c7_exhausted (t : List Nat) (B dcV seed fuel : Nat) (s : KSt)
    (hlen : t.length < u32max)
    (hbk : buildK t B dcV seed fuel = some s) :
    (emitAll s).length = t.length + 1 ∧
    (∀ s0 : KSt, (nextSuffix s0).1 = none ↔
      (s0.itrPushedBack = u32max ∧
        s0.itrBucket.length ≤ s0.itrBucketPos ∧
        s0.sampleSuffs.length < s0.cur)) ∧
    (∀ B2 dcV2 seed2 fuel2 : Nat,
      (buildK ([] : List Nat) B2 dcV2 seed2 fuel2).map emitAll =
        some [0]) := by
  refine ⟨?_, nextSuffix_none_iff, ?_⟩
  · obtain ⟨-, hP, -⟩ := buildK_spec t B dcV seed fuel s hlen hbk
    rw [emitAll_build t B dcV seed fuel s hlen hbk,
      (fullBlocks_perm t dcV s.sampleSuffs hP).length_eq]
    exact List.length_range _
  · intro B2 dcV2 seed2 fuel2
    have hble : ¬ (max B2 2 ≤ ([] : List Nat).length) := by
      simp only [List.length_nil]
      omega
    rw [show buildK ([] : List Nat) B2 dcV2 seed2 fuel2 =
        some ⟨[], max B2 2, dcV2, [], 0, [], u32max, u32max⟩ from by
      simp only [buildK]
      rw [if_neg hble]]
    show some (emitAll ⟨[], max B2 2, dcV2, [], 0, [], u32max, u32max⟩) =
      some [0]
    rw [show emitAll ⟨[], max B2 2, dcV2, [], 0, [], u32max, u32max⟩ =
        [0] from by
      rw [emitAll_fresh]
      rfl]

/-- Claim C7, witness at the one-symbol text. -/
theorem c7_exhausted_witness :
    (emitAll ⟨[0], 2, 0, [], 0, [], u32max, u32max⟩).length =
      ([0] : List Nat).length + 1 ∧
    (∀ s0 : KSt, (nextSuffix s0).1 = none ↔
      (s0.itrPushedBack = u32max ∧
        s0.itrBucket.length ≤ s0.itrBucketPos ∧
        s0.sampleSuffs.length < s0.cur)) ∧
    (∀ B2 dcV2 seed2 fuel2 : Nat,
      (buildK ([] : List Nat) B2 dcV2 seed2 fuel2).map emitAll =
        some [0]) :=
  c7_exhausted [0] 2 0 0 2 ⟨[0], 2, 0, [], 0, [], u32max, u32max⟩
    (by decide) (by decide)

/-- Claim C8: from every state reached by any sequence of consumer
operations on a freshly built iterator, resetSuffixItr restores
exactly the freshly built state — the sample list and the
difference-cover configuration are never rebuilt or altered — so
exhausting after the reset emits the initial sequence. -/
theorem c8_reset (t : List Nat) (B dcV seed fuel : Nat) (s : KSt)
    (hbk : buildK t B dcV seed fuel = some s) (ops : List Bool) :
    resetSuffixItr (applyOps ops s) = s ∧
    emitAll (resetSuffixItr (applyOps ops s)) = emitAll s := by
  obtain ⟨hc, hib, hibp, hipb⟩ := buildK_shape t B dcV seed fuel s hbk
  obtain ⟨ht, hbz, hdv, hss⟩ := applyOps_static ops s
  have heq : resetSuffixItr (applyOps ops s) = s := by
    apply KSt.ext
    · exact ht
    · exact hbz
    · exact hdv
    · exact hss
    · exact hc.symm
    · exact hib.symm
    · exact hibp.symm
    · exact hipb.symm
  exact ⟨heq, by rw [heq]⟩

/-- Claim C8, witness: probe then read one suffix, then reset. -/
theorem c8_reset_witness :
    resetSuffixItr (applyOps [false, true]
      ⟨[0], 2, 0, [], 0, [], u32max, u32max⟩) =
      ⟨[0], 2, 0, [], 0, [], u32max, u32max⟩ ∧
    emitAll (resetSuffixItr (applyOps [false, true]
      ⟨[0], 2, 0, [], 0, [], u32max, u32max⟩)) =
      emitAll ⟨[0], 2, 0, [], 0, [], u32max, u32max⟩ :=
  c8_reset [0] 2 0 0 2 ⟨[0], 2, 0, [], 0, [], u32max, u32max⟩
    (by decide) [false, true]

/-- Claim C9: whenever hasMoreSuffixes answers true, the nextSuffix
call made from the state it returns gives exactly what nextSuffix
would have given from the un-probed state — the probe stashes the
fetched offset as pushback and loses or reorders nothing.  The
well-formedness hypothesis reflects the source's cap on the text
length: every offset is below the 32-bit none-sentinel. -/
theorem c9_pushback (s : KSt) (hg : Hgood s) (s' : KSt)
    (h : hasMoreSuffixes s = (true, s')) :
    nextSuffix s' = nextSuffix s := by
  by_cases hp : s.itrPushedBack = u32max
  · rcases hns : nextSuffix s with ⟨v, s₁⟩
    rcases v with _ | v
    · rw [show hasMoreSuffixes s = (false, s₁) from by
        simp only [hasMoreSuffixes]
        rw [if_neg (by simp [hp]), hns]] at h
      exact absurd (Prod.mk.injEq .. ▸ h).1 (by simp)
    · have hv : v < u32max := nextSuffix_val_lt s hg hp v s₁ hns
      have hs1p : s₁.itrPushedBack = u32max := by
        have hpc := nextSuffix_push_clear s hp
        rw [hns] at hpc
        exact hpc
      rw [show hasMoreSuffixes s =
          (true, { s₁ with itrPushedBack := v }) from by
        simp only [hasMoreSuffixes]
        rw [if_neg (by simp [hp]), hns]] at h
      obtain ⟨-, h2⟩ := Prod.mk.injEq .. ▸ h
      subst h2
      have hres : nextSuffix ({ s₁ with itrPushedBack := v } : KSt) =
          (some v, ({ s₁ with itrPushedBack := u32max } : KSt)) :=
        nextSuffix_of_push _ (Nat.ne_of_lt hv)
      rw [hres, show ({ s₁ with itrPushedBack := u32max } : KSt) = s₁
        from by rw [← hs1p]]
  · rw [show hasMoreSuffixes s = (true, s) from by
      simp only [hasMoreSuffixes]
      rw [if_pos (by simp [hp])]] at h
    obtain ⟨-, h2⟩ := Prod.mk.injEq .. ▸ h
    rw [h2]

/-- Claim C9, witness: the first probe on a fresh one-symbol build. -/
theorem c9_pushback_witness :
    nextSuffix ⟨[0], 2, 0, [], 1, [0, 1], 1, 0⟩ =
      nextSuffix ⟨[0], 2, 0, [], 0, [], u32max, u32max⟩ :=
  c9_pushback ⟨[0], 2, 0, [], 0, [], u32max, u32max⟩
    ⟨by decide, by simp, by simp⟩
    ⟨[0], 2, 0, [], 1, [0, 1], 1, 0⟩ (by decide)

/-- Claim C10: hasMoreSuffixes is idempotent — re-probing the state a
probe returned gives the same answer and the same state, because a
successful probe leaves the fetched offset in the pushback slot and a
failed one leaves the state unchanged; so repeated probing never
alters what nextSuffix later returns.  The well-formedness hypothesis
reflects the source's cap on the text length. -/
theorem c10_probe_idempotent (s : KSt) (hg : Hgood s) :
    hasMoreSuffixes ((hasMoreSuffixes s).2) = hasMoreSuffixes s := by
  by_cases hp : s.itrPushedBack = u32max
  · rcases hns : nextSuffix s with ⟨v, s₁⟩
    rcases v with _ | v
    · have hstate : s₁ = s := by
        have h0 := nextSuffix_none_state s (by rw [hns])
        rw [hns] at h0
        exact h0
      rw [show hasMoreSuffixes s = (false, s₁) from by
        simp only [hasMoreSuffixes]
        rw [if_neg (by simp [hp]), hns]]
      show hasMoreSuffixes s₁ = (false, s₁)
      rw [hstate]
      rw [show hasMoreSuffixes s = (false, s₁) from by
        simp only [hasMoreSuffixes]
        rw [if_neg (by simp [hp]), hns]]
      rw [hstate]
    · have hv : v < u32max := nextSuffix_val_lt s hg hp v s₁ hns
      rw [show hasMoreSuffixes s =
          (true, { s₁ with itrPushedBack := v }) from by
        simp only [hasMoreSuffixes]
        rw [if_neg (by simp [hp]), hns]]
      show hasMoreSuffixes { s₁ with itrPushedBack := v } =
        (true, { s₁ with itrPushedBack := v })
      simp only [hasMoreSuffixes]
      rw [if_pos (show ¬ ({ s₁ with itrPushedBack := v } : KSt).itrPushedBack
        = u32max from Nat.ne_of_lt hv)]
  · rw [show hasMoreSuffixes s = (true, s) from by
      simp only [hasMoreSuffixes]
      rw [if_pos (by simp [hp])]]
    show hasMoreSuffixes s = (true, s)
    simp only [hasMoreSuffixes]
    rw [if_pos (by simp [hp])]

/-- Claim C10, witness: double probe on a fresh one-symbol build. -/
theorem c10_probe_idempotent_witness :
    hasMoreSuffixes
      ((hasMoreSuffixes ⟨[0], 2, 0, [], 0, [], u32max, u32max⟩).2) =
      hasMoreSuffixes ⟨[0], 2, 0, [], 0, [], u32max, u32max⟩ :=
  c10_probe_idempotent ⟨[0], 2, 0, [], 0, [], u32max, u32max⟩
    ⟨by decide, by simp, by simp⟩

end BwSA
